import Mathlib

/-!
Verification of the arbitrary-precision integer library `Integer.h`
(classes `UnsignedInteger` and `SignedInteger`, base `10^8` limbs).

An unsigned magnitude is embedded as a `List ℕ` of base-`10^8` limbs,
least-significant first, mirroring the `digits` array of the C++ class
together with its logical `length`.  Machine-integer wraparound
(`std::uint32_t` arithmetic, `std::int64_t` truncated division) is made
explicit where the algorithms rely on it.  Fallible operations (the
`VALIDITY_CHECK` macro with `ENABLE_VALIDITY_CHECK` defined) return
`Except Err`.  Loops whose termination is not structural take an explicit
fuel argument; exhaustion is reported as `Err.nonterm` and is proved not to
occur on well-formed inputs where a claim needs it.
-/

set_option maxRecDepth 2000

namespace IntegerLib

/-- Base of the limb representation, `UnsignedInteger::Base`. -/
def Base : ℕ := 100000000

/-- `UnsignedInteger::TransformLimit`. -/
def TransformLimit : ℕ := 4194304

/-- `UnsignedInteger::BruteforceThreshold`. -/
def BruteforceThreshold : ℕ := 64

/-- Modulus of `std::uint32_t` arithmetic. -/
def wordMod : ℕ := 4294967296

/-- A limb sequence: the `digits` array, least-significant limb first. -/
abbrev Limbs := List ℕ

/-- The integer value represented by a limb sequence. -/
def valL (d : Limbs) : ℕ := Nat.ofDigits Base d

/-- Error conditions signalled by `VALIDITY_CHECK` (plus `nonterm`, which
models a loop that fails to terminate and never fires on well-formed
inputs). -/
inductive Err where
  | domain | divZero | parseErr | capacity | nonFinite | nonterm
  deriving DecidableEq, Repr

/-- Re-canonicalisation of a big-endian digit list: drop leading zeros while
more than one digit remains.  Helper for `trim`. -/
def trimAux : List ℕ → List ℕ
  | [] => []
  | [x] => [x]
  | x :: xs => if x = 0 then trimAux xs else x :: xs

/-- The trailing canonicalisation loop
`for (; length > 1 && !digits[length - 1]; --length);`. -/
def trim (d : Limbs) : Limbs := (trimAux d.reverse).reverse

/-- The canonical limb sequence of a natural number: `[0]` for zero,
otherwise its base-`Base` digits. -/
def canonLimbs (n : ℕ) : Limbs := if n = 0 then [0] else Nat.digits Base n

/-- Well-formedness of a limb sequence: non-empty (`length >= 1`) with every
limb below `Base`, as in the data model. -/
def LimbsWF (d : Limbs) : Prop := d ≠ [] ∧ ∀ x ∈ d, x < Base

/-- Canonical form: `length = 1` or the top limb is non-zero; equivalently the
canonicalisation loop leaves the sequence unchanged. -/
def Canonical (d : Limbs) : Prop := trim d = d

instance : DecidablePred Canonical := fun d => by unfold Canonical; infer_instance

/-- Truncation to `std::uint32_t`. -/
def u32 (n : ℕ) : ℕ := n % wordMod

/-- `std::uint32_t` subtraction with wraparound. -/
def u32sub (a b : ℕ) : ℕ := (a + (wordMod - b % wordMod)) % wordMod

/-- Reinterpretation of a `std::uint32_t` as `std::int32_t`
(used by `reverseCompare`'s return value). -/
def toInt32 (n : ℕ) : ℤ :=
  if n % wordMod < 2147483648 then (n % wordMod : ℤ) else (n % wordMod : ℤ) - (wordMod : ℤ)

/-- Scan two equal-length big-endian digit lists for the first difference;
helper for `reverseCompare`. -/
def reverseCompareAux : List ℕ → List ℕ → ℤ
  | x :: xs, y :: ys => if x ≠ y then toInt32 (u32sub x y) else reverseCompareAux xs ys
  | _, _ => 0

/-- `UnsignedInteger::reverseCompare`: find the most-significant differing
limb of two equal-length sequences and return the (`std::int32_t`) difference
there, `0` if equal.  The 64-limb `memcmp` blocking of the source is a
performance detail with the same result. -/
def reverseCompare (a b : Limbs) : ℤ := reverseCompareAux a.reverse b.reverse

namespace UnsignedInteger

/-- `UnsignedInteger::operator bool`: `length != 1 || *digits`. -/
def toBool (a : Limbs) : Bool := a.length != 1 || a.getD 0 0 != 0

/-- `UnsignedInteger::operator==`: equal lengths and equal digit arrays. -/
def beq (a b : Limbs) : Bool := a.length == b.length && a == b

/-- `UnsignedInteger::operator<`. -/
def lt (a b : Limbs) : Bool :=
  a.length < b.length || (a.length == b.length && reverseCompare a b < 0)

/-- `UnsignedInteger::operator>`. -/
def gt (a b : Limbs) : Bool :=
  b.length < a.length || (a.length == b.length && 0 < reverseCompare a b)

/-- `UnsignedInteger::operator<=`. -/
def le (a b : Limbs) : Bool :=
  a.length < b.length || (a.length == b.length && reverseCompare a b ≤ 0)

/-- `UnsignedInteger::operator>=`. -/
def ge (a b : Limbs) : Bool :=
  b.length < a.length || (a.length == b.length && 0 ≤ reverseCompare a b)

/-- Increment the first remaining limb: the `++*(thisDigit + 1)` carry write.
Out of range it is a no-op (the source never reaches that case on the inputs
where it is called). -/
def bumpHead : Limbs → Limbs
  | [] => []
  | x :: xs => (x + 1) :: xs

/-- Decrement the first remaining limb with `std::uint32_t` wraparound: the
`--*(thisDigit + 1)` borrow write. -/
def decHead : Limbs → Limbs
  | [] => []
  | x :: xs => u32sub x 1 :: xs

/-- Second loop of `operator+=`: propagate carries up to (but not into) the
last limb. -/
def addLoop2 : Limbs → Limbs
  | [] => []
  | [x] => [x]
  | x :: y :: rest =>
    if Base ≤ x then (x - Base) :: addLoop2 ((y + 1) :: rest) else x :: y :: rest
termination_by l => l.length
decreasing_by simp

/-- First loop of `operator+=`: add the other operand's limbs with immediate
carry into the next limb, then continue with the propagation loop. -/
def addLoop1 : Limbs → Limbs → Limbs
  | as, [] => addLoop2 as
  | [], _ :: _ => []
  | a :: as, b :: bs =>
    if Base ≤ a + b then (a + b - Base) :: addLoop1 (bumpHead as) bs
    else (a + b) :: addLoop1 as bs

/-- `UnsignedInteger::operator+=`: grow to `other.length + 1` zero-filled
limbs when needed, run both carry loops, re-canonicalise. -/
def addAssign (a b : Limbs) : Limbs :=
  let a' := if a.length ≤ b.length then a ++ List.replicate (b.length + 1 - a.length) 0 else a
  trim (addLoop1 a' b)

/-- Second loop of `operator-=`: propagate borrows through the remaining
limbs (its end pointer is one past the last limb). -/
def subLoop2 : Limbs → Limbs
  | [] => []
  | [x] => if Base ≤ x then [(x + Base) % wordMod] else [x]
  | x :: y :: rest =>
    if Base ≤ x then ((x + Base) % wordMod) :: subLoop2 (u32sub y 1 :: rest)
    else x :: y :: rest
termination_by l => l.length
decreasing_by simp

/-- First loop of `operator-=`: subtract the other operand's limbs with
`std::uint32_t` wraparound and immediate borrow from the next limb, then
continue with the borrow propagation loop. -/
def subLoop1 : Limbs → Limbs → Limbs
  | as, [] => subLoop2 as
  | [], _ :: _ => []
  | a :: as, b :: bs =>
    if Base ≤ u32sub a b then ((u32sub a b + Base) % wordMod) :: subLoop1 (decHead as) bs
    else u32sub a b :: subLoop1 as bs

/-- `UnsignedInteger::operator-=` with its `VALIDITY_CHECK (*this >= other)`. -/
def subAssign (a b : Limbs) : Except Err Limbs :=
  if ge a b then .ok (trim (subLoop1 a b)) else .error .domain

/-- Carry loop of `operator++`, including the final
`resize(length + 1), digits[length - 2] -= Base, digits[length - 1] = 1`
when the carry leaves the top limb. -/
def incGo : Limbs → Limbs
  | [] => []
  | [x] => if Base ≤ x then [x - Base, 1] else [x]
  | x :: y :: rest =>
    if Base ≤ x then (x - Base) :: incGo ((y + 1) :: rest) else x :: y :: rest
termination_by l => l.length
decreasing_by simp

/-- `UnsignedInteger::operator++` (no re-canonicalisation is needed). -/
def incLimbs : Limbs → Limbs
  | [] => []
  | x :: xs => incGo ((x + 1) :: xs)

/-- Borrow loop of `operator--`: stops at the last limb without adjusting it,
and performs no re-canonicalisation. -/
def decGo : Limbs → Limbs
  | [] => []
  | [x] => [x]
  | x :: y :: rest =>
    if Base ≤ x then ((x + Base) % wordMod) :: decGo (u32sub y 1 :: rest)
    else x :: y :: rest
termination_by l => l.length
decreasing_by simp

/-- Body of `UnsignedInteger::operator--`: decrement the least-significant
limb (with `std::uint32_t` wraparound) and propagate the borrow. -/
def decLoop : Limbs → Limbs
  | [] => []
  | x :: xs => decGo (u32sub x 1 :: xs)

/-- `UnsignedInteger::operator--` with its `VALIDITY_CHECK (bool(*this))`. -/
def decLimbs (a : Limbs) : Except Err Limbs :=
  if toBool a then .ok (decLoop a) else .error .domain

/-- `UnsignedInteger::rightShift`: drop the `shiftAmount` least-significant
limbs and re-canonicalise; zero when the shift covers the whole sequence. -/
def rightShift (a : Limbs) (shiftAmount : ℕ) : Limbs :=
  if a.length ≤ shiftAmount then [0] else trim (a.drop shiftAmount)

/-- `UnsignedInteger::leftShift`: prepend `shiftAmount` zero limbs. -/
def leftShift (a : Limbs) (shiftAmount : ℕ) : Limbs :=
  if a.length = 0 ∨ shiftAmount = 0 then a else List.replicate shiftAmount 0 ++ a

/-- One column sum of the schoolbook multiplication: the inner
`for (j = (i >= length ? i - length + 1 : 0); j <= i && j < other.length; ++j)
carry += digits[i - j] * other.digits[j]` accumulation. -/
def colSum (a b : Limbs) (i : ℕ) : ℕ :=
  ((List.range b.length).map fun j =>
    if j ≤ i ∧ i - j < a.length then a.getD (i - j) 0 * b.getD j 0 else 0).sum

/-- Emission loop of the schoolbook multiplication: at each output position
add the column sum into the carry, emit `carry % Base`, keep `carry / Base`;
after the last position append the residual carry (as `std::uint32_t`) if it
is non-zero. -/
def schoolbookLoop (a b : Limbs) : ℕ → ℕ → ℕ → Limbs
  | _, 0, carry => if carry ≠ 0 then [u32 carry] else []
  | i, count + 1, carry =>
    let c := carry + colSum a b i
    c % Base :: schoolbookLoop a b (i + 1) count (c / Base)

/-- Small-operand path of `UnsignedInteger::operator*=`: schoolbook
multiplication over `length + other.length - 1` output positions, then
re-canonicalise. -/
def schoolbookMul (a b : Limbs) : Limbs :=
  trim (schoolbookLoop a b 0 (a.length + b.length - 1) 0)

/-- Declared idealisation of the large-operand path of
`UnsignedInteger::operator*=` (`transformMultiplication` over
`detail::TransformHelper`: limb split into two `10^4` halves, forward
decimation-in-frequency transform, packed pointwise multiply, inverse
decimation-in-time transform, round-and-carry, re-canonicalise).  The
source computes that pipeline in IEEE-754 binary64 arithmetic with twiddle
factors from the platform's `cos`/`sin`, so its output is not determined
platform-independently by the source and the pipeline has no faithful
embedding here.  This definition replaces it by the canonical limb
sequence of the exact product — the value the pipeline yields exactly when
every rounding lands within one half unit.  Every theorem below whose
computation can reach this branch of `mulAssign` (the Newton division
path, the reciprocal contract, the signed multiply/divide/modulus on large
operands) is therefore a theorem about the program under this idealisation
of the transform, not about the binary64 pipeline itself; theorems on the
schoolbook, addition, subtraction, comparison, string and error-path code
never evaluate it. -/
def transformMultiply (a b : Limbs) : Limbs :=
  if valL a * valL b = 0 then [0] else Nat.digits Base (valL a * valL b)

/-- `UnsignedInteger::operator*=`: the schoolbook path when either operand is
below `BruteforceThreshold`, otherwise the `TransformLimit` validity checks
followed by the transform path. -/
def mulAssign (a b : Limbs) : Except Err Limbs :=
  if a.length < BruteforceThreshold ∨ b.length < BruteforceThreshold then
    .ok (schoolbookMul a b)
  else if TransformLimit < a.length then .error .capacity
  else if TransformLimit < b.length then .error .capacity
  else .ok (transformMultiply a b)

/-- The `getEstimatedValue` lambda of `bruteforceDivisionAndModulus`. -/
def getEstimatedValue (d : Limbs) (highIndex arrayLength : ℕ) : ℕ :=
  10 * Base * (if highIndex + 1 < arrayLength then d.getD (highIndex + 1) 0 else 0)
    + 10 * d.getD highIndex 0
    + (if highIndex ≠ 0 then d.getD (highIndex - 1) 0 else 0) / (Base / 10)

/-- Digit loop of the `performSubtraction` lambda: subtract
`qhat * divisor` from the remainder window at `pos` with an `std::int64_t`
carry, `std::uint32_t` digit stores and the `>= Base` wraparound fixup.
Returns the updated remainder and the final carry. -/
def performSubGo (pos qhat : ℕ) : ℕ → List ℕ → Limbs → ℤ → Limbs × ℤ
  | _, [], rem, carry => (rem, carry)
  | i, y :: ys, rem, carry =>
    let c1 : ℤ := carry - (qhat : ℤ) * (y : ℤ) + (rem.getD (pos + i) 0 : ℤ)
    let d0 : ℕ := ((c1.tmod (Base : ℤ)).emod (wordMod : ℤ)).toNat
    let c2 : ℤ := c1.tdiv (Base : ℤ)
    let dc : ℕ × ℤ := if Base ≤ d0 then ((d0 + Base) % wordMod, c2 - 1) else (d0, c2)
    performSubGo pos qhat (i + 1) ys (rem.set (pos + i) dc.1) dc.2

/-- The `performSubtraction` lambda of `bruteforceDivisionAndModulus`
(without its `quotient.digits[currentPosition] += partialQuotient` line,
which the caller performs): after the digit loop, add the residual carry
(as `std::uint32_t`, with wraparound) into the limb just above the window. -/
def performSubtraction (rem : Limbs) (pos : ℕ) (Y : Limbs) (qhat : ℕ) : Limbs :=
  let rc := performSubGo pos qhat 0 Y rem 0
  if rc.2 ≠ 0 then
    rc.1.set (pos + Y.length)
      ((rc.1.getD (pos + Y.length) 0 + ((rc.2).emod (wordMod : ℤ)).toNat) % wordMod)
  else rc.1

/-- Estimation loop of `bruteforceDivisionAndModulus` at one quotient
position: compute the partial quotient from the two three-limb estimates
(cast to `std::uint32_t`), stop when it is zero, otherwise subtract and
accumulate it into the quotient digit (with `std::uint32_t` wraparound).
Runs on explicit fuel; the value of the remainder strictly decreases at each
step on well-formed inputs. -/
def innerLoop (Y : Limbs) (pos arrayLength : ℕ) : ℕ → Limbs → ℕ → Limbs × ℕ
  | 0, rem, qd => (rem, qd)
  | fuel + 1, rem, qd =>
    let qhat := (getEstimatedValue rem (pos + Y.length - 1) arrayLength /
      (getEstimatedValue Y (Y.length - 1) Y.length + 1)) % wordMod
    if qhat = 0 then (rem, qd)
    else innerLoop Y pos arrayLength fuel (performSubtraction rem pos Y qhat)
      ((qd + qhat) % wordMod)

/-- Final adjustment test of `bruteforceDivisionAndModulus`: compare the
divisor-length window of the remainder at `pos` against the divisor from the
most-significant limb down; `true` (subtract once more) when the window is
greater or equal. -/
def windowCompareGo (rem : Limbs) (pos : ℕ) (Y : Limbs) : ℕ → Bool
  | 0 => true
  | d + 1 =>
    if rem.getD (pos + d) 0 ≠ Y.getD d 0 then decide (Y.getD d 0 < rem.getD (pos + d) 0)
    else windowCompareGo rem pos Y d

/-- One quotient position of `bruteforceDivisionAndModulus`: the estimation
loop followed by the single final adjustment.  Returns the updated remainder
and the quotient with its digit at `pos` written. -/
def positionStep (Y : Limbs) (arrayLength pos : ℕ) (rem quot : Limbs) : Limbs × Limbs :=
  let rq := innerLoop Y pos arrayLength (valL rem + 1) rem 0
  let doFix := windowCompareGo rq.1 pos Y Y.length
  let rem2 := if doFix then performSubtraction rq.1 pos Y 1 else rq.1
  let qd2 := if doFix then (rq.2 + 1) % wordMod else rq.2
  (rem2, quot.set pos qd2)

/-- Outer loop of `bruteforceDivisionAndModulus`: quotient positions from
`length - divisor.length` down to `0`. -/
def outerLoop (Y : Limbs) (arrayLength : ℕ) : ℕ → Limbs → Limbs → Limbs × Limbs
  | 0, rem, quot => positionStep Y arrayLength 0 rem quot
  | pos + 1, rem, quot =>
    let s := positionStep Y arrayLength (pos + 1) rem quot
    outerLoop Y arrayLength pos s.1 s.2

/-- `UnsignedInteger::bruteforceDivisionAndModulus`: `(0, *this)` when the
dividend is smaller than the divisor, otherwise base-`Base` long division
with estimated partial quotients, returning the re-canonicalised
`(quotient, remainder)`. -/
def bruteforceDivisionAndModulus (x Y : Limbs) : Limbs × Limbs :=
  if lt x Y then ([0], x)
  else
    let quot0 := List.replicate (x.length - Y.length + 1) 0
    let s := outerLoop Y x.length (x.length - Y.length) x quot0
    (trim s.2, trim s.1)

/-- `UnsignedInteger::computeInverse` on explicit fuel (the precision
parameter strictly decreases across the recursive call): approximate
`Base ^ precisionBits / Y`, by direct long division below the threshold and
by a Newton iteration step above it. -/
def computeInverseF : ℕ → Limbs → ℕ → Except Err Limbs
  | 0, _, _ => .error .nonterm
  | fuel + 1, Y, precisionBits =>
    if Y.length < BruteforceThreshold ∨ precisionBits < Y.length + BruteforceThreshold then
      .ok (bruteforceDivisionAndModulus (List.replicate precisionBits 0 ++ [1]) Y).1
    else
      let halfPrecision := (precisionBits - Y.length + 5) / 2
      let shiftBack := if Y.length < halfPrecision then 0 else Y.length - halfPrecision
      let truncated := rightShift Y shiftBack
      let newPrecision := halfPrecision + truncated.length
      do
        let approximateInverse ← computeInverseF fuel truncated newPrecision
        let p1 ← mulAssign Y approximateInverse
        let p2 ← mulAssign p1 approximateInverse
        let result ← subAssign
          (leftShift (addAssign approximateInverse approximateInverse)
            (precisionBits - newPrecision - shiftBack))
          (rightShift p2 (2 * (newPrecision + shiftBack) - precisionBits))
        decLimbs result

/-- `UnsignedInteger::computeInverse` with sufficient fuel. -/
def computeInverse (Y : Limbs) (precisionBits : ℕ) : Except Err Limbs :=
  computeInverseF (precisionBits + 1) Y precisionBits

/-- First correction loop of `divisionAndModulus`:
`while (quotient * other > *this) --quotient;` on explicit fuel. -/
def correctionLoopA (x y : Limbs) : ℕ → Limbs → Except Err Limbs
  | 0, _ => .error .nonterm
  | fuel + 1, quot => do
    let p ← mulAssign quot y
    if gt p x then
      let q' ← decLimbs quot
      correctionLoopA x y fuel q'
    else .ok quot

/-- Second correction loop of `divisionAndModulus`:
`for (; remainder >= other; ++quotient, remainder -= other);` on explicit
fuel. -/
def correctionLoopB (y : Limbs) : ℕ → Limbs → Limbs → Except Err (Limbs × Limbs)
  | 0, _, _ => .error .nonterm
  | fuel + 1, quot, rem =>
    if ge rem y then do
      let rem' ← subAssign rem y
      correctionLoopB y fuel (incLimbs quot) rem'
    else .ok (quot, rem)

/-- `UnsignedInteger::divisionAndModulus`: `(0, *this)` when the dividend is
smaller, the long-division path below the threshold, otherwise the Newton
reciprocal followed by the two correction loops. -/
def divisionAndModulus (x y : Limbs) : Except Err (Limbs × Limbs) :=
  if lt x y then .ok ([0], x)
  else if x.length < BruteforceThreshold ∨ y.length < BruteforceThreshold then
    .ok (bruteforceDivisionAndModulus x y)
  else
    let precisionBits := x.length - y.length + 5
    let shiftBack := if y.length < precisionBits then 0 else y.length - precisionBits
    let adjustedDivisor0 := rightShift y shiftBack
    let adjustedDivisor := if shiftBack ≠ 0 then incLimbs adjustedDivisor0 else adjustedDivisor0
    let inversePrecision := precisionBits + adjustedDivisor.length
    do
      let inv ← computeInverse adjustedDivisor inversePrecision
      let p ← mulAssign x inv
      let quot0 := rightShift p (inversePrecision + shiftBack)
      let quot1 ← correctionLoopA x y (valL quot0 + 1) quot0
      let p1 ← mulAssign quot1 y
      let rem0 ← subAssign x p1
      correctionLoopB y (valL rem0 + 1) quot1 rem0

/-- `UnsignedInteger::operator/=` with its divisor-is-zero check. -/
def divAssign (x y : Limbs) : Except Err Limbs :=
  if toBool y then (divisionAndModulus x y).map Prod.fst else .error .divZero

/-- `UnsignedInteger::operator%=` with its divisor-is-zero check. -/
def modAssign (x y : Limbs) : Except Err Limbs :=
  if toBool y then (divisionAndModulus x y).map Prod.snd else .error .divZero

/-- `UnsignedInteger::UnsignedInteger()`: the canonical zero value. -/
def defaultUI : Limbs := [0]

/-- `UnsignedInteger::UnsignedInteger(UnsignedInteger&&)`: the destination
takes the source's digits; the source is re-pointed at a fresh
single-zero-limb buffer (`length = capacity = 1`, zero-initialised).
Returns `(destination, moved-from source)`. -/
def moveConstruct (src : Limbs) : Limbs × Limbs := (src, [0])

/-- `UnsignedInteger::operator=(UnsignedInteger&&)`: when source and
destination are the same object (`this == &other`, hence the same digit
buffer) nothing happens; otherwise the destination takes the source's digits
and the source is re-pointed at a fresh single-zero-limb buffer.
Returns `(destination, moved-from source)`. -/
def moveAssign (dst src : Limbs) (sameObject : Bool) : Limbs × Limbs :=
  if sameObject then (dst, src) else (src, [0])

end UnsignedInteger

/-- Numeric value of a digit character: `*value & 15` on its ASCII code
(bitwise and with `15` equals reduction modulo `16`). -/
def digitVal (c : Char) : ℕ := c.toNat % 16

/-- `detail::InputHelper::operator()`: the two-character table lookup,
`first * 10 + second`. -/
def inputPair (c1 c2 : Char) : ℕ := digitVal c1 * 10 + digitVal c2

/-- Value of one full eight-character group in `construct`'s main loop:
`I(p) * 10^6 + I(p+2) * 10^4 + I(p+4) * 10^2 + I(p+6)`. -/
def chunkVal8 : List Char → ℕ
  | c0 :: c1 :: c2 :: c3 :: c4 :: c5 :: c6 :: c7 :: _ =>
    inputPair c0 c1 * 1000000 + inputPair c2 c3 * 10000 + inputPair c4 c5 * 100
      + inputPair c6 c7
  | _ => 0

/-- Values of the successive eight-character groups (most significant group
first), as read by `construct`'s main loop. -/
def bodyVals : List Char → List ℕ
  | c0 :: c1 :: c2 :: c3 :: c4 :: c5 :: c6 :: c7 :: rest =>
    chunkVal8 [c0, c1, c2, c3, c4, c5, c6, c7] :: bodyVals rest
  | _ => []

/-- The `switch (stringLength & 7)` of `UnsignedInteger::construct`: value of
the `stringLength mod 8` leading characters that form the top limb. -/
def topVal : List Char → ℕ
  | [a] => digitVal a
  | [a, b] => inputPair a b
  | [a, b, c] => digitVal a * 100 + inputPair b c
  | [a, b, c, d] => inputPair a b * 100 + inputPair c d
  | [a, b, c, d, e] => digitVal a * 10000 + inputPair b c * 100 + inputPair d e
  | [a, b, c, d, e, f] => inputPair a b * 10000 + inputPair c d * 100 + inputPair e f
  | [a, b, c, d, e, f, g] =>
    digitVal a * 1000000 + inputPair b c * 10000 + inputPair d e * 100 + inputPair f g
  | _ => 0

namespace UnsignedInteger

/-- `UnsignedInteger::construct`: top limb from the leading
`stringLength mod 8` characters (if any), one limb per following
eight-character group, written from the most-significant limb down, then
re-canonicalise. -/
def construct (s : List Char) : Limbs :=
  let r := s.length % 8
  let tops : List ℕ := if r = 0 then [] else [topVal (s.take r)]
  trim ((tops ++ bodyVals (s.drop r)).reverse)

/-- The string constructor `UnsignedInteger(const std::string&)` with its
`VALIDITY_CHECK`s: non-empty, all characters decimal digits. -/
def parseUI (s : List Char) : Except Err Limbs :=
  if s.length = 0 then .error .parseErr
  else if s.all fun c => c.isDigit then .ok (construct s) else .error .parseErr

/-- `std::to_string` on a limb value: decimal digits, no leading zeros,
`"0"` for zero. -/
def natChars (n : ℕ) : List Char :=
  if n = 0 then ['0'] else (Nat.digits 10 n).reverse.map fun d => Char.ofNat (48 + d)

/-- `detail::OutputHelper::operator()`: the four zero-padded decimal digits
of a value below `10^4`. -/
def pad4 (v : ℕ) : List Char :=
  [Char.ofNat (48 + v / 1000 % 10), Char.ofNat (48 + v / 100 % 10),
    Char.ofNat (48 + v / 10 % 10), Char.ofNat (48 + v % 10)]

/-- `UnsignedInteger::operator std::string`: the top limb via
`std::to_string`, every following limb as two four-digit groups
(`O(limb / 10^4)`, `O(limb % 10^4)`); `"0"` when `length` is zero. -/
def toStringUI (d : Limbs) : List Char :=
  match d.reverse with
  | [] => ['0']
  | top :: rest =>
    natChars top ++ rest.foldl (fun acc limb => acc ++ pad4 (limb / 10000) ++ pad4 (limb % 10000)) []

/-- Digit-emission loop of the floating-point constructor
`UnsignedInteger(floatingPoint)`, with the double modelled as an exact
rational: `digits[length++] = uint32(fmod(value, Base))`, then
`value = floor(value / Base)`, repeated while the value is non-zero
(for non-negative `v`, `fmod(v, Base) = v - Base * floor(v / Base)` and the
`uint32` cast truncates toward zero). -/
def floatDigitLoop : ℕ → ℚ → Limbs
  | 0, _ => []
  | fuel + 1, v =>
    let digit : ℕ := (⌊v - (Base : ℚ) * (⌊v / (Base : ℚ)⌋ : ℚ)⌋).toNat
    let v' : ℚ := (⌊v / (Base : ℚ)⌋ : ℚ)
    digit :: (if v' = 0 then [] else floatDigitLoop fuel v')

/-- `UnsignedInteger(floatingPoint)` with its non-negativity check, the
double modelled as an exact rational (every rational is finite, so the
`isfinite` check always passes in this model). -/
def ofRat (v : ℚ) : Except Err Limbs :=
  if v < 0 then .error .domain else .ok (floatDigitLoop (v.num.natAbs + 1) v)

end UnsignedInteger

/-- `class SignedInteger`: an unsigned magnitude plus a sign flag
(`true` means negative). -/
structure SignedInteger where
  absolute : Limbs
  sign : Bool
  deriving DecidableEq, Repr

namespace SignedInteger

/-- `SignedInteger::operator bool`. -/
def toBool (a : SignedInteger) : Bool := UnsignedInteger.toBool a.absolute

/-- The mathematical value of a signed representation. -/
def intVal (a : SignedInteger) : ℤ :=
  if a.sign then -(valL a.absolute : ℤ) else (valL a.absolute : ℤ)

/-- Representation invariants of `SignedInteger`: well-formed canonical
magnitude, and sign `false` whenever the magnitude is zero. -/
def WFS (a : SignedInteger) : Prop :=
  LimbsWF a.absolute ∧ Canonical a.absolute ∧ (valL a.absolute = 0 → a.sign = false)

/-- `SignedInteger::operator==`. -/
def beq (a b : SignedInteger) : Bool :=
  a.sign == b.sign && UnsignedInteger.beq a.absolute b.absolute

/-- `SignedInteger::operator<`:
`sign ? !other.sign || absolute > other.absolute : !other.sign && absolute < other.absolute`. -/
def slt (a b : SignedInteger) : Bool :=
  if a.sign then !b.sign || UnsignedInteger.gt a.absolute b.absolute
  else !b.sign && UnsignedInteger.lt a.absolute b.absolute

/-- `SignedInteger::operator+=`: same signs add magnitudes; different signs
subtract the smaller magnitude from the larger and take the larger's sign;
then `sign = sign && bool(absolute)`. -/
def addAssign (a b : SignedInteger) : Except Err SignedInteger := do
  let p : SignedInteger ←
    if a.sign == b.sign then
      pure (SignedInteger.mk (UnsignedInteger.addAssign a.absolute b.absolute) a.sign)
    else if UnsignedInteger.lt a.absolute b.absolute then do
      let m ← UnsignedInteger.subAssign b.absolute a.absolute
      pure (SignedInteger.mk m (!a.sign))
    else do
      let m ← UnsignedInteger.subAssign a.absolute b.absolute
      pure (SignedInteger.mk m a.sign)
  pure (SignedInteger.mk p.absolute (p.sign && UnsignedInteger.toBool p.absolute))

/-- `SignedInteger::operator-=`: addition with the comparison on signs
flipped. -/
def subAssign (a b : SignedInteger) : Except Err SignedInteger := do
  let p : SignedInteger ←
    if a.sign != b.sign then
      pure (SignedInteger.mk (UnsignedInteger.addAssign a.absolute b.absolute) a.sign)
    else if UnsignedInteger.lt a.absolute b.absolute then do
      let m ← UnsignedInteger.subAssign b.absolute a.absolute
      pure (SignedInteger.mk m (!a.sign))
    else do
      let m ← UnsignedInteger.subAssign a.absolute b.absolute
      pure (SignedInteger.mk m a.sign)
  pure (SignedInteger.mk p.absolute (p.sign && UnsignedInteger.toBool p.absolute))

/-- `SignedInteger::operator*=`: magnitudes multiply,
`sign = (sign ^ other.sign) && bool(absolute)`. -/
def mulAssign (a b : SignedInteger) : Except Err SignedInteger := do
  let m ← UnsignedInteger.mulAssign a.absolute b.absolute
  pure (SignedInteger.mk m ((a.sign ^^ b.sign) && UnsignedInteger.toBool m))

/-- `SignedInteger::operator/=` with its divisor-is-zero check:
magnitudes divide, `sign ^= other.sign, sign = sign && bool(absolute)`. -/
def divAssign (a b : SignedInteger) : Except Err SignedInteger :=
  if UnsignedInteger.toBool b.absolute then do
    let q ← UnsignedInteger.divAssign a.absolute b.absolute
    pure (SignedInteger.mk q ((a.sign ^^ b.sign) && UnsignedInteger.toBool q))
  else .error .divZero

/-- `SignedInteger::operator%=` with its divisor-is-zero check:
`*this -= (*this / other) * other`. -/
def modAssign (a b : SignedInteger) : Except Err SignedInteger :=
  if UnsignedInteger.toBool b.absolute then do
    let q ← divAssign a b
    let p ← mulAssign q b
    subAssign a p
  else .error .divZero

/-- `SignedInteger(floatingPoint)`, the double modelled as an exact
rational: `absolute(std::abs(value)), sign(value < 0)`, with no
normalisation of the sign against a zero magnitude. -/
def ofRat (v : ℚ) : Except Err SignedInteger := do
  let m ← UnsignedInteger.ofRat |v|
  pure (SignedInteger.mk m (decide (v < 0)))

end SignedInteger

/-! ### Basic facts about the value map, trimming and canonical form -/

theorem Base_pos : 0 < Base := by decide

theorem one_lt_Base : 1 < Base := by decide

theorem valL_nil : valL [] = 0 := rfl

theorem valL_cons (x : ℕ) (xs : Limbs) : valL (x :: xs) = x + Base * valL xs := by
  simp [valL, Nat.ofDigits_cons]

theorem valL_append (l1 l2 : Limbs) :
    valL (l1 ++ l2) = valL l1 + Base ^ l1.length * valL l2 := by
  simp [valL, Nat.ofDigits_append]

theorem valL_lt_base_pow {d : Limbs} (h : ∀ x ∈ d, x < Base) :
    valL d < Base ^ d.length :=
  Nat.ofDigits_lt_base_pow_length one_lt_Base h

theorem valL_replicate_zero (k : ℕ) : valL (List.replicate k 0) = 0 := by
  induction k with
  | zero => rfl
  | succ n ih => simp [List.replicate_succ, valL_cons, ih]

theorem valL_le_of_getD {d : Limbs} (i : ℕ) : d.getD i 0 * Base ^ i ≤ valL d := by
  induction d generalizing i with
  | nil => simp [valL_nil]
  | cons x xs ih =>
    cases i with
    | zero => simp [valL_cons]
    | succ n =>
      have := ih n
      simp only [List.getD_cons_succ, valL_cons, pow_succ]
      calc xs.getD n 0 * (Base ^ n * Base) = Base * (xs.getD n 0 * Base ^ n) := by ring
        _ ≤ Base * valL xs := by exact Nat.mul_le_mul_left _ this
        _ ≤ x + Base * valL xs := by omega

theorem getD_eq_val_div {d : Limbs} (h : ∀ x ∈ d, x < Base) (i : ℕ) :
    d.getD i 0 = valL d / Base ^ i % Base := by
  induction d generalizing i with
  | nil => simp [valL_nil]
  | cons x xs ih =>
    have hx : x < Base := h x (List.mem_cons_self x xs)
    have hxs : ∀ y ∈ xs, y < Base := fun y hy => h y (List.mem_cons_of_mem _ hy)
    cases i with
    | zero =>
      simp [valL_cons, Nat.add_mul_mod_self_left, Nat.mod_eq_of_lt hx]
    | succ n =>
      have hdiv : valL (x :: xs) / Base ^ (n + 1) = valL xs / Base ^ n := by
        rw [valL_cons, pow_succ, show Base ^ n * Base = Base * Base ^ n from by ring,
          ← Nat.div_div_eq_div_mul, show Base * valL xs = valL xs * Base from by ring,
          Nat.add_mul_div_right _ _ Base_pos, Nat.div_eq_of_lt hx, Nat.zero_add]
      simp only [List.getD_cons_succ, hdiv, ih hxs n]

theorem valL_eq_zero_iff {d : Limbs} (h : ∀ x ∈ d, x < Base) :
    valL d = 0 ↔ ∀ x ∈ d, x = 0 := by
  induction d with
  | nil => simp [valL_nil]
  | cons x xs ih =>
    have hxs : ∀ y ∈ xs, y < Base := fun y hy => h y (List.mem_cons_of_mem _ hy)
    rw [valL_cons]
    constructor
    · intro h0
      have hx0 : x = 0 := by omega
      have hv : valL xs = 0 := by
        have := Base_pos
        rcases Nat.mul_eq_zero.mp (by omega : Base * valL xs = 0) with h' | h'
        · omega
        · exact h'
      intro y hy
      rcases List.mem_cons.mp hy with rfl | hy'
      · exact hx0
      · exact ((ih hxs).mp hv) y hy'
    · intro hall
      have hx0 : x = 0 := hall x (List.mem_cons_self x xs)
      have : valL xs = 0 := (ih hxs).mpr fun y hy => hall y (List.mem_cons_of_mem _ hy)
      simp [hx0, this]

theorem trimAux_sublist (l : List ℕ) : (trimAux l).Sublist l := by
  induction l with
  | nil => simp [trimAux]
  | cons x xs ih =>
    cases xs with
    | nil => simp [trimAux]
    | cons y ys =>
      by_cases hx : x = 0
      · simpa [trimAux, hx] using ih.cons x
      · simp [trimAux, hx]

theorem trim_sublist (d : Limbs) : (trim d).Sublist d := by
  have := (trimAux_sublist d.reverse).reverse
  simpa [trim] using this

theorem trim_length_le (d : Limbs) : (trim d).length ≤ d.length :=
  (trim_sublist d).length_le

theorem trim_mem {d : Limbs} {x : ℕ} (h : x ∈ trim d) : x ∈ d :=
  (trim_sublist d).mem h

theorem trimAux_ne_nil {l : List ℕ} (h : l ≠ []) : trimAux l ≠ [] := by
  induction l with
  | nil => simp at h
  | cons x xs ih =>
    cases xs with
    | nil => simp [trimAux]
    | cons y ys =>
      by_cases hx : x = 0
      · simpa [trimAux, hx] using ih (by simp)
      · simp [trimAux, hx]

theorem trim_ne_nil {d : Limbs} (h : d ≠ []) : trim d ≠ [] := by
  have : d.reverse ≠ [] := by simpa using h
  have := trimAux_ne_nil this
  simp [trim]
  intro hcon
  exact this (by simpa using congrArg List.reverse hcon)

theorem valL_reverse_append_zero (l : List ℕ) :
    valL ((0 :: l).reverse) = valL l.reverse := by
  simp [List.reverse_cons, valL_append, valL_cons, valL_nil]

theorem valL_trimAux_reverse (r : List ℕ) :
    valL ((trimAux r).reverse) = valL r.reverse := by
  induction r with
  | nil => rfl
  | cons x xs ih =>
    cases xs with
    | nil => rfl
    | cons y ys =>
      by_cases hx : x = 0
      · have h1 : trimAux (x :: y :: ys) = trimAux (y :: ys) := by simp [trimAux, hx]
        rw [h1, ih, hx, valL_reverse_append_zero]
      · simp [trimAux, hx]

theorem valL_trim (d : Limbs) : valL (trim d) = valL d := by
  have := valL_trimAux_reverse d.reverse
  simpa [trim] using this

theorem canonical_singleton (x : ℕ) : Canonical [x] := by
  simp [Canonical, trim, trimAux]

theorem canonical_of_rev_head_ne {x : ℕ} {xs : List ℕ} (hx : x ≠ 0) :
    Canonical (x :: xs).reverse := by
  unfold Canonical trim
  rw [List.reverse_reverse]
  cases xs with
  | nil => simp [trimAux]
  | cons y ys => simp [trimAux, hx]

theorem canonical_rev_head_ne {x : ℕ} {xs : List ℕ}
    (hc : Canonical (x :: xs).reverse) (hxs : xs ≠ []) : x ≠ 0 := by
  intro hx0
  unfold Canonical trim at hc
  rw [List.reverse_reverse] at hc
  cases xs with
  | nil => exact hxs rfl
  | cons y ys =>
    rw [show trimAux (x :: y :: ys) = trimAux (y :: ys) from by simp [trimAux, hx0]] at hc
    have hlen := congrArg List.length hc
    simp only [List.length_reverse, List.length_cons] at hlen
    have h1 : (trimAux (y :: ys)).length ≤ (y :: ys).length := (trimAux_sublist _).length_le
    simp only [List.length_cons] at h1
    omega

theorem canonLimbs_wf (n : ℕ) : LimbsWF (canonLimbs n) := by
  unfold canonLimbs
  by_cases hn : n = 0
  · simp [hn, LimbsWF]
    decide
  · simp only [if_neg hn]
    exact ⟨Nat.digits_ne_nil_iff_ne_zero.mpr hn,
      fun x hx => Nat.digits_lt_base one_lt_Base hx⟩

theorem valL_canonLimbs (n : ℕ) : valL (canonLimbs n) = n := by
  unfold canonLimbs
  by_cases hn : n = 0
  · simp [hn, valL_cons, valL_nil]
  · simp only [if_neg hn, valL]
    exact Nat.ofDigits_digits Base n

theorem canonLimbs_canonical (n : ℕ) : Canonical (canonLimbs n) := by
  unfold canonLimbs
  by_cases hn : n = 0
  · simp [hn]
    exact canonical_singleton 0
  · simp only [if_neg hn]
    have hne : Nat.digits Base n ≠ [] := Nat.digits_ne_nil_iff_ne_zero.mpr hn
    have hlast := Nat.getLast_digit_ne_zero Base hn
    rcases List.eq_nil_or_concat (Nat.digits Base n) with h | ⟨l, a, h⟩
    · exact absurd h hne
    · rw [List.concat_eq_append] at h
      rw [h]
      have ha : a ≠ 0 := by
        have h3 : (Nat.digits Base n).getLast? = some a := by
          rw [h]
          simp
        have h4 := List.getLast?_eq_getLast (Nat.digits Base n) hne
        rw [h3] at h4
        rw [show a = (Nat.digits Base n).getLast hne from Option.some.inj h4]
        exact hlast
      have hra : l ++ [a] = (a :: l.reverse).reverse := by simp
      rw [hra]
      exact canonical_of_rev_head_ne ha

theorem canonical_eq_canonLimbs {d : Limbs} (hwf : LimbsWF d) (hc : Canonical d) :
    d = canonLimbs (valL d) := by
  obtain ⟨hne, hlt⟩ := hwf
  rcases List.eq_nil_or_concat d with h | ⟨l, a, h⟩
  · exact absurd h hne
  · rw [List.concat_eq_append] at h
    subst h
    by_cases hl : l = []
    · subst hl
      simp only [List.nil_append] at hlt ⊢
      by_cases ha : a = 0
      · subst ha
        simp [canonLimbs, valL_cons, valL_nil]
      · have hab : a < Base := hlt a (by simp)
        have hv : valL [a] = a := by simp [valL_cons, valL_nil]
        rw [hv]
        simp only [canonLimbs, if_neg ha]
        exact (Nat.digits_of_lt Base a ha hab).symm
    · have ha : a ≠ 0 := by
        have hrev : l ++ [a] = (a :: l.reverse).reverse := by simp
        rw [hrev] at hc
        refine canonical_rev_head_ne hc ?_
        simpa using hl
      have hdig : Nat.digits Base (Nat.ofDigits Base (l ++ [a])) = l ++ [a] := by
        refine Nat.digits_ofDigits Base one_lt_Base _ hlt ?_
        intro _
        simpa [List.getLast_concat] using ha
      have hv0 : valL (l ++ [a]) ≠ 0 := by
        intro h0
        rw [valL] at h0
        rw [h0] at hdig
        simp [Nat.digits_zero] at hdig
      simp only [canonLimbs, if_neg hv0]
      rw [valL]
      exact hdig.symm

theorem canonical_val_inj {d e : Limbs} (hd : LimbsWF d) (hcd : Canonical d)
    (he : LimbsWF e) (hce : Canonical e) (hv : valL d = valL e) : d = e := by
  rw [canonical_eq_canonLimbs hd hcd, canonical_eq_canonLimbs he hce, hv]

theorem trim_canonical (d : Limbs) : Canonical (trim d) := by
  unfold Canonical trim
  rw [List.reverse_reverse]
  have : ∀ l : List ℕ, trimAux (trimAux l) = trimAux l := by
    intro l
    induction l with
    | nil => rfl
    | cons x xs ih =>
      cases xs with
      | nil => rfl
      | cons y ys =>
        by_cases hx : x = 0
        · rw [show trimAux (x :: y :: ys) = trimAux (y :: ys) from by
            simp [trimAux, hx]]
          exact ih
        · rw [show trimAux (x :: y :: ys) = x :: y :: ys from by simp [trimAux, hx]]
          simp [trimAux, hx]
  rw [this]

theorem trim_wf {d : Limbs} (hwf : LimbsWF d) : LimbsWF (trim d) :=
  ⟨trim_ne_nil hwf.1, fun x hx => hwf.2 x (trim_mem hx)⟩

theorem canonical_val_lower {d : Limbs} (hwf : LimbsWF d) (hc : Canonical d)
    (hlen : 1 < d.length) : Base ^ (d.length - 1) ≤ valL d := by
  rcases List.eq_nil_or_concat d with h | ⟨l, a, h⟩
  · exact absurd h hwf.1
  · rw [List.concat_eq_append] at h
    subst h
    have hl : l ≠ [] := by
      intro h0
      rw [h0] at hlen
      simp at hlen
    have ha : a ≠ 0 := by
      have hrev : l ++ [a] = (a :: l.reverse).reverse := by simp
      rw [hrev] at hc
      exact canonical_rev_head_ne hc (by simpa using hl)
    rw [valL_append]
    have : valL [a] = a := by simp [valL_cons, valL_nil]
    rw [this]
    have h1 : 1 ≤ a := Nat.one_le_iff_ne_zero.mpr ha
    have hlen2 : (l ++ [a]).length - 1 = l.length := by simp
    rw [hlen2]
    calc Base ^ l.length = Base ^ l.length * 1 := by ring
      _ ≤ Base ^ l.length * a := Nat.mul_le_mul_left _ h1
      _ ≤ valL l + Base ^ l.length * a := Nat.le_add_left _ _

/-! ### Correctness of the comparison operators -/

theorem u32sub_of_le {x y : ℕ} (hy : y ≤ x) (hx : x < wordMod) : u32sub x y = x - y := by
  unfold u32sub wordMod at *
  have hym : y % 4294967296 = y := Nat.mod_eq_of_lt (by omega)
  rw [hym]
  omega

theorem u32sub_of_gt {x y : ℕ} (hxy : x < y) (hy : y < wordMod) :
    u32sub x y = x + wordMod - y := by
  unfold u32sub wordMod at *
  have hym : y % 4294967296 = y := Nat.mod_eq_of_lt (by omega)
  rw [hym]
  omega

theorem toInt32_pos {x y : ℕ} (hx : x < Base) (hy : y < Base) (h : y < x) :
    0 < toInt32 (u32sub x y) := by
  rw [u32sub_of_le h.le (by unfold Base wordMod at *; omega)]
  unfold toInt32 wordMod Base at *
  have : (x - y) % 4294967296 = x - y := Nat.mod_eq_of_lt (by omega)
  rw [this]
  rw [if_pos (by omega)]
  omega

theorem toInt32_neg {x y : ℕ} (hx : x < Base) (hy : y < Base) (h : x < y) :
    toInt32 (u32sub x y) < 0 := by
  rw [u32sub_of_gt h (by unfold Base wordMod at *; omega)]
  unfold toInt32 wordMod Base at *
  have h1 : (x + 4294967296 - y) % 4294967296 = x + 4294967296 - y :=
    Nat.mod_eq_of_lt (by omega)
  rw [h1, if_neg (by omega)]
  have : ((x + 4294967296 - y : ℕ) : ℤ) = (x : ℤ) + 4294967296 - y := by omega
  rw [this]
  omega

theorem reverseCompareAux_correct {r s : List ℕ} (hlen : r.length = s.length)
    (hr : ∀ x ∈ r, x < Base) (hs : ∀ x ∈ s, x < Base) :
    (reverseCompareAux r s < 0 ↔ valL r.reverse < valL s.reverse) ∧
      (0 < reverseCompareAux r s ↔ valL s.reverse < valL r.reverse) ∧
      (reverseCompareAux r s = 0 ↔ r = s) := by
  induction r generalizing s with
  | nil =>
    cases s with
    | nil => simp [reverseCompareAux]
    | cons y ys => simp at hlen
  | cons x xs ih =>
    cases s with
    | nil => simp at hlen
    | cons y ys =>
      have hlen' : xs.length = ys.length := by simpa using hlen
      have hx : x < Base := hr x (List.mem_cons_self x xs)
      have hy : y < Base := hs y (List.mem_cons_self y ys)
      have hxs : ∀ z ∈ xs, z < Base := fun z hz => hr z (List.mem_cons_of_mem _ hz)
      have hys : ∀ z ∈ ys, z < Base := fun z hz => hs z (List.mem_cons_of_mem _ hz)
      have hvx : valL xs.reverse < Base ^ xs.length := by
        have := @valL_lt_base_pow xs.reverse (by simpa using hxs)
        simpa using this
      have hvy : valL ys.reverse < Base ^ ys.length := by
        have := @valL_lt_base_pow ys.reverse (by simpa using hys)
        simpa using this
      have hrx : valL (x :: xs).reverse = valL xs.reverse + Base ^ xs.length * x := by
        simp [List.reverse_cons, valL_append, valL_cons, valL_nil]
      have hry : valL (y :: ys).reverse = valL ys.reverse + Base ^ ys.length * y := by
        simp [List.reverse_cons, valL_append, valL_cons, valL_nil]
      by_cases hxy : x = y
      · subst hxy
        have hrc : reverseCompareAux (x :: xs) (x :: ys) = reverseCompareAux xs ys := by
          simp [reverseCompareAux]
        obtain ⟨ih1, ih2, ih3⟩ := ih hlen' hxs hys
        refine ⟨?_, ?_, ?_⟩
        · rw [hrc, ih1, hrx, hry, hlen']
          omega
        · rw [hrc, ih2, hrx, hry, hlen']
          omega
        · rw [hrc, ih3]
          simp
      · have hrc : reverseCompareAux (x :: xs) (y :: ys) = toInt32 (u32sub x y) := by
          simp [reverseCompareAux, hxy]
        rcases Nat.lt_or_ge x y with hlt | hge
        · have hneg := toInt32_neg hx hy hlt
          refine ⟨?_, ?_, ?_⟩
          · rw [hrc]
            constructor
            · intro _
              rw [hrx, hry, hlen']
              have : x + 1 ≤ y := hlt
              calc valL xs.reverse + Base ^ ys.length * x
                  < Base ^ ys.length + Base ^ ys.length * x := by
                    rw [← hlen']
                    omega
                _ = Base ^ ys.length * (x + 1) := by ring
                _ ≤ Base ^ ys.length * y := Nat.mul_le_mul_left _ this
                _ ≤ valL ys.reverse + Base ^ ys.length * y := Nat.le_add_left _ _
            · intro _
              exact hneg
          · rw [hrc]
            constructor
            · intro hcon
              omega
            · intro hcon
              exfalso
              rw [hrx, hry, hlen'] at hcon
              have : x + 1 ≤ y := hlt
              have hge2 : Base ^ ys.length * y ≥ Base ^ ys.length * (x + 1) :=
                Nat.mul_le_mul_left _ this
              have := hvy
              rw [hlen'] at hvx
              nlinarith
          · rw [hrc]
            constructor
            · intro hcon
              omega
            · intro hcon
              exact absurd (List.cons.injEq .. ▸ congrArg id hcon) (by simp [hxy])
        · have hgt : y < x := by omega
          have hpos := toInt32_pos hx hy hgt
          refine ⟨?_, ?_, ?_⟩
          · rw [hrc]
            constructor
            · intro hcon
              omega
            · intro hcon
              exfalso
              rw [hrx, hry, hlen'] at hcon
              have : y + 1 ≤ x := hgt
              have hge2 : Base ^ ys.length * x ≥ Base ^ ys.length * (y + 1) :=
                Nat.mul_le_mul_left _ this
              rw [hlen'] at hvx
              nlinarith
          · rw [hrc]
            constructor
            · intro _
              rw [hrx, hry, hlen']
              have : y + 1 ≤ x := hgt
              calc valL ys.reverse + Base ^ ys.length * y
                  < Base ^ ys.length + Base ^ ys.length * y := by omega
                _ = Base ^ ys.length * (y + 1) := by ring
                _ ≤ Base ^ ys.length * x := Nat.mul_le_mul_left _ this
                _ ≤ valL xs.reverse + Base ^ ys.length * x := Nat.le_add_left _ _
            · intro _
              exact hpos
          · rw [hrc]
            constructor
            · intro hcon
              omega
            · intro hcon
              exact absurd (congrArg id hcon) (by simp [hxy])

theorem reverseCompare_correct {a b : Limbs} (hlen : a.length = b.length)
    (ha : ∀ x ∈ a, x < Base) (hb : ∀ x ∈ b, x < Base) :
    (reverseCompare a b < 0 ↔ valL a < valL b) ∧
      (0 < reverseCompare a b ↔ valL b < valL a) ∧
      (reverseCompare a b = 0 ↔ a = b) := by
  have := @reverseCompareAux_correct a.reverse b.reverse
    (by simpa using hlen) (by simpa using ha) (by simpa using hb)
  simpa [reverseCompare] using this

namespace UnsignedInteger

theorem lt_correct {a b : Limbs} (hwa : LimbsWF a) (hca : Canonical a)
    (hwb : LimbsWF b) (hcb : Canonical b) :
    lt a b = true ↔ valL a < valL b := by
  unfold lt
  rcases Nat.lt_trichotomy a.length b.length with hl | hl | hl
  · simp only [hl, decide_True, Bool.true_or, true_iff]
    have h1 : valL a < Base ^ a.length := valL_lt_base_pow hwa.2
    have h2 : Base ^ (b.length - 1) ≤ valL b := by
      apply canonical_val_lower hwb hcb
      have : 1 ≤ a.length := List.length_pos_of_ne_nil hwa.1
      omega
    have h3 : Base ^ a.length ≤ Base ^ (b.length - 1) :=
      Nat.pow_le_pow_right Base_pos (by omega)
    omega
  · obtain ⟨hc1, _, _⟩ := reverseCompare_correct hl hwa.2 hwb.2
    simp [hl, hc1]
  · have h1 : valL b < Base ^ b.length := valL_lt_base_pow hwb.2
    have h2 : Base ^ (a.length - 1) ≤ valL a := by
      apply canonical_val_lower hwa hca
      have : 1 ≤ b.length := List.length_pos_of_ne_nil hwb.1
      omega
    have h3 : Base ^ b.length ≤ Base ^ (a.length - 1) :=
      Nat.pow_le_pow_right Base_pos (by omega)
    have : ¬ (a.length < b.length) := by omega
    have hne : a.length ≠ b.length := by omega
    simp [this, hne]
    omega

theorem gt_correct {a b : Limbs} (hwa : LimbsWF a) (hca : Canonical a)
    (hwb : LimbsWF b) (hcb : Canonical b) :
    gt a b = true ↔ valL b < valL a := by
  unfold gt
  rcases Nat.lt_trichotomy a.length b.length with hl | hl | hl
  · have h1 : valL a < Base ^ a.length := valL_lt_base_pow hwa.2
    have h2 : Base ^ (b.length - 1) ≤ valL b := by
      apply canonical_val_lower hwb hcb
      have : 1 ≤ a.length := List.length_pos_of_ne_nil hwa.1
      omega
    have h3 : Base ^ a.length ≤ Base ^ (b.length - 1) :=
      Nat.pow_le_pow_right Base_pos (by omega)
    have hn : ¬ (b.length < a.length) := by omega
    have hne : a.length ≠ b.length := by omega
    simp [hn, hne]
    omega
  · obtain ⟨_, hc2, _⟩ := reverseCompare_correct hl hwa.2 hwb.2
    simp [hl, hc2]
  · simp only [hl, decide_True, Bool.true_or, true_iff]
    have h1 : valL b < Base ^ b.length := valL_lt_base_pow hwb.2
    have h2 : Base ^ (a.length - 1) ≤ valL a := by
      apply canonical_val_lower hwa hca
      have : 1 ≤ b.length := List.length_pos_of_ne_nil hwb.1
      omega
    have h3 : Base ^ b.length ≤ Base ^ (a.length - 1) :=
      Nat.pow_le_pow_right Base_pos (by omega)
    omega

theorem ge_correct {a b : Limbs} (hwa : LimbsWF a) (hca : Canonical a)
    (hwb : LimbsWF b) (hcb : Canonical b) :
    ge a b = true ↔ valL b ≤ valL a := by
  unfold ge
  rcases Nat.lt_trichotomy a.length b.length with hl | hl | hl
  · have h1 : valL a < Base ^ a.length := valL_lt_base_pow hwa.2
    have h2 : Base ^ (b.length - 1) ≤ valL b := by
      apply canonical_val_lower hwb hcb
      have : 1 ≤ a.length := List.length_pos_of_ne_nil hwa.1
      omega
    have h3 : Base ^ a.length ≤ Base ^ (b.length - 1) :=
      Nat.pow_le_pow_right Base_pos (by omega)
    have hn : ¬ (b.length < a.length) := by omega
    have hne : a.length ≠ b.length := by omega
    simp [hn, hne]
    omega
  · obtain ⟨hc1, _, _⟩ := reverseCompare_correct hl hwa.2 hwb.2
    have : (0 ≤ reverseCompare a b) ↔ ¬ (reverseCompare a b < 0) := by omega
    simp [hl, this, hc1]
    try omega
  · simp only [hl, decide_True, Bool.true_or, true_iff]
    have h1 : valL b < Base ^ b.length := valL_lt_base_pow hwb.2
    have h2 : Base ^ (a.length - 1) ≤ valL a := by
      apply canonical_val_lower hwa hca
      have : 1 ≤ b.length := List.length_pos_of_ne_nil hwb.1
      omega
    have h3 : Base ^ b.length ≤ Base ^ (a.length - 1) :=
      Nat.pow_le_pow_right Base_pos (by omega)
    omega

theorem le_correct {a b : Limbs} (hwa : LimbsWF a) (hca : Canonical a)
    (hwb : LimbsWF b) (hcb : Canonical b) :
    le a b = true ↔ valL a ≤ valL b := by
  unfold le
  rcases Nat.lt_trichotomy a.length b.length with hl | hl | hl
  · simp only [hl, decide_True, Bool.true_or, true_iff]
    have h1 : valL a < Base ^ a.length := valL_lt_base_pow hwa.2
    have h2 : Base ^ (b.length - 1) ≤ valL b := by
      apply canonical_val_lower hwb hcb
      have : 1 ≤ a.length := List.length_pos_of_ne_nil hwa.1
      omega
    have h3 : Base ^ a.length ≤ Base ^ (b.length - 1) :=
      Nat.pow_le_pow_right Base_pos (by omega)
    omega
  · obtain ⟨_, hc2, _⟩ := reverseCompare_correct hl hwa.2 hwb.2
    have : (reverseCompare a b ≤ 0) ↔ ¬ (0 < reverseCompare a b) := by omega
    simp [hl, this, hc2]
    try omega
  · have h1 : valL b < Base ^ b.length := valL_lt_base_pow hwb.2
    have h2 : Base ^ (a.length - 1) ≤ valL a := by
      apply canonical_val_lower hwa hca
      have : 1 ≤ b.length := List.length_pos_of_ne_nil hwb.1
      omega
    have h3 : Base ^ b.length ≤ Base ^ (a.length - 1) :=
      Nat.pow_le_pow_right Base_pos (by omega)
    have hn : ¬ (a.length < b.length) := by omega
    have hne : a.length ≠ b.length := by omega
    simp [hn, hne]
    omega

theorem beq_correct (a b : Limbs) : beq a b = true ↔ a = b := by
  unfold beq
  constructor
  · intro h
    simp at h
    exact h.2
  · intro h
    subst h
    simp

theorem toBool_false_eq {d : Limbs} (h : toBool d = false) : d = [0] := by
  unfold toBool at h
  simp at h
  obtain ⟨h1, h2⟩ := h
  cases d with
  | nil => simp at h1
  | cons x xs =>
    cases xs with
    | nil =>
      simp at h2
      rw [h2]
    | cons y ys => simp at h1

theorem toBool_of_val_ne {d : Limbs} (h : valL d ≠ 0) : toBool d = true := by
  cases hb : toBool d
  · rw [toBool_false_eq hb] at h
    simp [valL_cons, valL_nil] at h
  · rfl

theorem toBool_correct {d : Limbs} (hwf : LimbsWF d) (hc : Canonical d) :
    toBool d = true ↔ valL d ≠ 0 := by
  constructor
  · intro h hv
    have hd : d = [0] := by
      rw [canonical_eq_canonLimbs hwf hc, hv]
      rfl
    rw [hd] at h
    simp [toBool] at h
  · exact toBool_of_val_ne

end UnsignedInteger

/-! ### Correctness of addition -/

namespace UnsignedInteger

theorem valL_bumpHead {l : Limbs} (h : l ≠ []) : valL (bumpHead l) = valL l + 1 := by
  cases l with
  | nil => exact absurd rfl h
  | cons x xs => simp [bumpHead, valL_cons]; ring

theorem bumpHead_length (l : Limbs) : (bumpHead l).length = l.length := by
  cases l <;> simp [bumpHead]

theorem addLoop2_val (l : Limbs) : valL (addLoop2 l) = valL l := by
  induction l using addLoop2.induct with
  | case1 => simp [addLoop2]
  | case2 x => simp [addLoop2]
  | case3 x y rest hx ih =>
    rw [addLoop2, if_pos hx, valL_cons, ih]
    simp only [valL_cons]
    have hB := Base_pos
    ring_nf
    omega
  | case4 x y rest hx =>
    rw [addLoop2, if_neg hx]

theorem addLoop2_length (l : Limbs) : (addLoop2 l).length = l.length := by
  induction l using addLoop2.induct with
  | case1 => simp [addLoop2]
  | case2 x => simp [addLoop2]
  | case3 x y rest hx ih =>
    rw [addLoop2, if_pos hx]
    simpa using ih
  | case4 x y rest hx =>
    rw [addLoop2, if_neg hx]

theorem addLoop2_of_head_lt {x : ℕ} {xs : Limbs} (h : x < Base) :
    addLoop2 (x :: xs) = x :: xs := by
  cases xs with
  | nil => simp [addLoop2]
  | cons y ys => rw [addLoop2, if_neg (by omega)]

theorem addLoop1_nil (as : Limbs) : addLoop1 as [] = addLoop2 as := by
  cases as <;> simp [addLoop1]

theorem addLoop1_val {as bs : Limbs} (hlen : bs.length < as.length) :
    valL (addLoop1 as bs) = valL as + valL bs := by
  induction bs generalizing as with
  | nil =>
    rw [addLoop1_nil, addLoop2_val, valL_nil]
    omega
  | cons b bt ih =>
    cases as with
    | nil => simp at hlen
    | cons a at' =>
      have hlen' : bt.length < at'.length := by simpa using hlen
      have hat : at' ≠ [] := by
        intro h0
        rw [h0] at hlen'
        simp at hlen'
      rw [addLoop1]
      by_cases hs : Base ≤ a + b
      · rw [if_pos hs, valL_cons]
        rw [ih (by rw [bumpHead_length]; exact hlen')]
        rw [valL_bumpHead hat]
        simp only [valL_cons]
        have hB := Base_pos
        ring_nf
        omega
      · rw [if_neg hs, valL_cons, ih hlen']
        simp only [valL_cons]
        ring

theorem addLoop1_length {as bs : Limbs} (hlen : bs.length < as.length) :
    (addLoop1 as bs).length = as.length := by
  induction bs generalizing as with
  | nil => rw [addLoop1_nil, addLoop2_length]
  | cons b bt ih =>
    cases as with
    | nil => simp at hlen
    | cons a at' =>
      have hlen' : bt.length < at'.length := by simpa using hlen
      rw [addLoop1]
      by_cases hs : Base ≤ a + b
      · rw [if_pos hs]
        simp only [List.length_cons]
        rw [ih (by rw [bumpHead_length]; exact hlen'), bumpHead_length]
      · rw [if_neg hs]
        simp only [List.length_cons]
        rw [ih hlen']

theorem addAssign_val (a b : Limbs) : valL (addAssign a b) = valL a + valL b := by
  unfold addAssign
  by_cases h : a.length ≤ b.length
  · rw [if_pos h, valL_trim, addLoop1_val (by simp; omega), valL_append,
      valL_replicate_zero]
    ring
  · rw [if_neg h, valL_trim, addLoop1_val (by omega)]

theorem addAssign_canonical (a b : Limbs) : Canonical (addAssign a b) :=
  trim_canonical _

theorem addAssign_ne_nil {a b : Limbs} (ha : a ≠ []) : addAssign a b ≠ [] := by
  unfold addAssign
  apply trim_ne_nil
  have halen : 1 ≤ a.length := List.length_pos_of_ne_nil ha
  by_cases h : a.length ≤ b.length
  · rw [if_pos h]
    intro hcon
    have := congrArg List.length hcon
    rw [addLoop1_length (by simp; omega)] at this
    simp at this
    omega
  · rw [if_neg h]
    intro hcon
    have := congrArg List.length hcon
    rw [addLoop1_length (by omega), List.length_nil] at this
    omega

theorem addLoop2_lt {l : Limbs} (hh : ∀ x ∈ l, x ≤ Base)
    (ht : ∀ x ∈ l.tail, x < Base)
    (hl : ∀ t, l.getLast? = some t → 2 ≤ l.length → t + 2 ≤ Base)
    (hs : ∀ t, l = [t] → t < Base) :
    ∀ x ∈ addLoop2 l, x < Base := by
  induction l using addLoop2.induct with
  | case1 => simp [addLoop2]
  | case2 x =>
    intro z hz
    simp [addLoop2] at hz
    subst hz
    exact hs z rfl
  | case3 x y rest hx ih =>
    intro z hz
    rw [addLoop2, if_pos hx] at hz
    rcases List.mem_cons.mp hz with h1 | hz'
    · have := hh x (by simp)
      have hB := Base_pos
      omega
    · refine ih ?_ ?_ ?_ ?_ z hz'
      · intro w hw
        rcases List.mem_cons.mp hw with rfl | hw'
        · have := ht y (by simp)
          omega
        · exact le_of_lt (ht w (by simp [hw']))
      · intro w hw
        exact ht w (by simp; right; exact hw)
      · intro t htl hlen
        cases rest with
        | nil => simp at hlen
        | cons r rs =>
          apply hl t
          · simpa using htl
          · simp
      · intro t htl
        cases rest with
        | nil =>
          have hy : y + 1 = t := by simpa using htl
          have h2 := hl y (by simp) (by simp)
          omega
        | cons r rs => simp at htl
  | case4 x y rest hx =>
    intro z hz
    rw [addLoop2, if_neg hx] at hz
    rcases List.mem_cons.mp hz with h1 | hz'
    · omega
    · exact ht z hz'

theorem addLoop1_lt {as bs : Limbs} (hlen : bs.length < as.length)
    (hh : ∀ x ∈ as, x ≤ Base)
    (ht : ∀ x ∈ as.tail, x < Base)
    (hl : ∀ t, as.getLast? = some t → 2 ≤ as.length → t + 2 ≤ Base)
    (hs : ∀ t, as = [t] → t < Base)
    (hb : ∀ x ∈ bs, x < Base) :
    ∀ x ∈ addLoop1 as bs, x < Base := by
  induction bs generalizing as with
  | nil =>
    rw [addLoop1_nil]
    exact addLoop2_lt hh ht hl hs
  | cons b bt ih =>
    cases as with
    | nil => simp at hlen
    | cons a at' =>
      have hlen' : bt.length < at'.length := by simpa using hlen
      have hat : at' ≠ [] := by
        intro h0
        rw [h0] at hlen'
        simp at hlen'
      have hb0 : b < Base := hb b (by simp)
      have hbt : ∀ x ∈ bt, x < Base := fun x hx => hb x (by simp [hx])
      have ha0 : a ≤ Base := hh a (by simp)
      intro z hz
      rw [addLoop1] at hz
      by_cases hsum : Base ≤ a + b
      · rw [if_pos hsum] at hz
        rcases List.mem_cons.mp hz with h1 | hz'
        · have hB := Base_pos
          omega
        · refine ih (by rw [bumpHead_length]; exact hlen') ?_ ?_ ?_ ?_ hbt z hz'
          · intro w hw
            cases at' with
            | nil => exact absurd rfl hat
            | cons p ps =>
              rcases List.mem_cons.mp (by simpa [bumpHead] using hw) with rfl | hw'
              · have := ht p (by simp)
                omega
              · exact le_of_lt (ht w (by simp [hw']))
          · intro w hw
            cases at' with
            | nil => exact absurd rfl hat
            | cons p ps =>
              apply ht w
              simp [bumpHead] at hw
              simp [hw]
          · intro t htl hlen2
            cases at' with
            | nil => exact absurd rfl hat
            | cons p ps =>
              cases ps with
              | nil => simp [bumpHead] at hlen2
              | cons q qs =>
                apply hl t
                · simp [bumpHead] at htl
                  simpa using htl
                · simp
          · intro t htl
            cases at' with
            | nil => exact absurd rfl hat
            | cons p ps =>
              simp [bumpHead] at htl
              obtain ⟨hp, hps⟩ := htl
              subst hps
              have h2 := hl p (by simp) (by simp)
              omega
      · rw [if_neg hsum] at hz
        rcases List.mem_cons.mp hz with h1 | hz'
        · omega
        · refine ih hlen' ?_ ?_ ?_ ?_ hbt z hz'
          · intro w hw
            exact le_of_lt (ht w (by simp [hw]))
          · intro w hw
            apply ht w
            cases at' with
            | nil => exact absurd rfl hat
            | cons p ps =>
              simp at hw ⊢
              tauto
          · intro t htl hlen2
            cases at' with
            | nil => exact absurd rfl hat
            | cons p ps =>
              cases ps with
              | nil => simp at hlen2
              | cons q qs =>
                apply hl t
                · simpa using htl
                · simp
          · intro t htl
            subst htl
            have h2 := hl t (by simp) (by simp)
            omega

theorem addAssign_wf {a b : Limbs} (ha : a ≠ []) (hwa : ∀ x ∈ a, x < Base)
    (hwb : ∀ x ∈ b, x < Base) (hlen : a.length ≤ b.length) :
    LimbsWF (addAssign a b) := by
  refine ⟨addAssign_ne_nil ha, ?_⟩
  intro x hx
  unfold addAssign at hx
  rw [if_pos hlen] at hx
  have hk : 1 ≤ b.length + 1 - a.length := by omega
  set as := a ++ List.replicate (b.length + 1 - a.length) 0 with has
  have hmem : ∀ z ∈ as, z < Base := by
    intro z hz
    rw [has] at hz
    rcases List.mem_append.mp hz with hz' | hz'
    · exact hwa z hz'
    · have := List.eq_of_mem_replicate hz'
      subst this
      exact Base_pos
  refine addLoop1_lt ?_ ?_ ?_ ?_ ?_ hwb x (trim_mem hx)
  · rw [has]
    simp
    omega
  · intro z hz
    exact le_of_lt (hmem z hz)
  · intro z hz
    exact hmem z (List.mem_of_mem_tail hz)
  · intro t htl hlen2
    have hlast : as.getLast? = some 0 := by
      rw [has, List.getLast?_append, List.getLast?_replicate, if_neg (by omega)]
      simp
    rw [hlast] at htl
    have ht0 : t = 0 := by
      injection htl with h'
      omega
    subst ht0
    unfold Base
    omega
  · intro t htl
    exact hmem t (by rw [htl]; simp)

end UnsignedInteger

/-! ### Correctness of subtraction -/

namespace UnsignedInteger

theorem wordMod_big : Base + Base < wordMod := by decide

theorem subLoop2_of_head_lt {x : ℕ} {xs : Limbs} (h : x < Base) :
    subLoop2 (x :: xs) = x :: xs := by
  cases xs with
  | nil => rw [subLoop2, if_neg (by omega)]
  | cons y ys => rw [subLoop2, if_neg (by omega)]

theorem subLoop2_of_wf {l : Limbs} (h : ∀ z ∈ l, z < Base) : subLoop2 l = l := by
  cases l with
  | nil => simp [subLoop2]
  | cons x xs => exact subLoop2_of_head_lt (h x (by simp))

theorem u32sub_zero_one : u32sub 0 1 = wordMod - 1 := by decide

theorem subLoop2_dec :
    ∀ (as : Limbs), (∀ z ∈ as, z < Base) →
      ∃ out ≤ 1, (0 : ℤ) ≤ out ∧
        ((valL (subLoop2 (decHead as)) : ℤ)
            = valL as - 1 + out * (Base : ℤ) ^ as.length)
        ∧ (∀ z ∈ subLoop2 (decHead as), z < Base)
        ∧ (subLoop2 (decHead as)).length = as.length := by
  intro as
  induction as with
  | nil =>
    intro _
    refine ⟨1, le_refl 1, by omega, ?_, by simp [decHead, subLoop2], by simp [decHead, subLoop2]⟩
    simp [decHead, subLoop2, valL_nil]
  | cons x xs ih =>
    intro hwf
    have hx : x < Base := hwf x (by simp)
    have hxs : ∀ z ∈ xs, z < Base := fun z hz => hwf z (by simp [hz])
    have hB := Base_pos
    have hWB := wordMod_big
    simp only [decHead]
    by_cases hx1 : 1 ≤ x
    · rw [u32sub_of_le hx1 (by omega), subLoop2_of_head_lt (by omega)]
      refine ⟨0, by omega, by omega, ?_, ?_, by simp⟩
      · simp only [valL_cons]
        have hc1 : ((x - 1 : ℕ) : ℤ) = (x : ℤ) - 1 := by omega
        push_cast [hc1]
        ring
      · intro z hz
        rcases List.mem_cons.mp hz with h1 | hz'
        · omega
        · exact hxs z hz'
    · have hx0 : x = 0 := by omega
      subst hx0
      rw [u32sub_zero_one]
      have hmod : (wordMod - 1 + Base) % wordMod = Base - 1 := by decide
      cases xs with
      | nil =>
        have heval : subLoop2 [wordMod - 1] = [(wordMod - 1 + Base) % wordMod] := by
          simp only [subLoop2]
          rw [if_pos (by omega)]
        rw [heval, hmod]
        refine ⟨1, le_refl 1, by omega, ?_, ?_, by simp⟩
        · simp only [valL_cons, valL_nil, List.length_cons, List.length_nil, pow_one]
          have hc1 : ((Base - 1 : ℕ) : ℤ) = (Base : ℤ) - 1 := by omega
          push_cast [hc1]
          ring
        · intro z hz
          simp at hz
          omega
      | cons y ys =>
        have heval : subLoop2 ((wordMod - 1) :: y :: ys)
            = ((wordMod - 1 + Base) % wordMod) :: subLoop2 (u32sub y 1 :: ys) := by
          rw [subLoop2, if_pos (by omega)]
        rw [heval, hmod]
        have hstep : (u32sub y 1 :: ys) = decHead (y :: ys) := by simp [decHead]
        rw [hstep]
        obtain ⟨out, hout, houtnn, hval, hdig, hlen⟩ := ih hxs
        refine ⟨out, hout, houtnn, ?_, ?_, ?_⟩
        · simp only [valL_cons, List.length_cons]
          have hc1 : ((Base - 1 : ℕ) : ℤ) = (Base : ℤ) - 1 := by omega
          push_cast [hc1]
          rw [hval]
          simp only [valL_cons, List.length_cons]
          push_cast
          rw [pow_succ]
          ring
        · intro z hz
          rcases List.mem_cons.mp hz with h1 | hz'
          · omega
          · exact hdig z hz'
        · simp [hlen]

theorem subLoop1_nil_eq (l : Limbs) : subLoop1 l [] = subLoop2 l := by
  cases l <;> simp [subLoop1]

theorem subLoop1_both :
    ∀ (bs as : Limbs), (∀ z ∈ as, z < Base) → (∀ z ∈ bs, z < Base) →
      bs.length ≤ as.length →
      (∃ out ≤ 1, (0 : ℤ) ≤ out ∧
        ((valL (subLoop1 as bs) : ℤ)
            = valL as - valL bs + out * (Base : ℤ) ^ as.length)
        ∧ (∀ z ∈ subLoop1 as bs, z < Base)
        ∧ (subLoop1 as bs).length = as.length) ∧
      (∃ out ≤ 1, (0 : ℤ) ≤ out ∧
        ((valL (subLoop1 (decHead as) bs) : ℤ)
            = valL as - valL bs - 1 + out * (Base : ℤ) ^ as.length)
        ∧ (∀ z ∈ subLoop1 (decHead as) bs, z < Base)
        ∧ (subLoop1 (decHead as) bs).length = as.length) := by
  intro bs
  induction bs with
  | nil =>
    intro as hwa _ _
    constructor
    · rw [subLoop1_nil_eq, subLoop2_of_wf hwa]
      exact ⟨0, by omega, by omega, by simp [valL_nil], hwa, rfl⟩
    · rw [subLoop1_nil_eq]
      obtain ⟨out, hout, houtnn, hval, hdig, hlen⟩ := subLoop2_dec as hwa
      exact ⟨out, hout, houtnn, by rw [hval]; simp [valL_nil], hdig, hlen⟩
  | cons b bt ih =>
    intro as hwa hwb hlen
    cases as with
    | nil => simp at hlen
    | cons a at' =>
      have ha : a < Base := hwa a (by simp)
      have hat : ∀ z ∈ at', z < Base := fun z hz => hwa z (by simp [hz])
      have hb : b < Base := hwb b (by simp)
      have hbt : ∀ z ∈ bt, z < Base := fun z hz => hwb z (by simp [hz])
      have hlen' : bt.length ≤ at'.length := by simpa using hlen
      have hB := Base_pos
      have hWB := wordMod_big
      obtain ⟨⟨outA, houtA, houtAnn, hvalA, hdigA, hlenA⟩,
        ⟨outB, houtB, houtBnn, hvalB, hdigB, hlenB⟩⟩ := ih at' hat hbt hlen'
      constructor
      · -- entry without incoming borrow
        by_cases hba : b ≤ a
        · have hd : u32sub a b = a - b := u32sub_of_le hba (by omega)
          rw [subLoop1, if_neg (by rw [hd]; omega), hd]
          refine ⟨outA, houtA, houtAnn, ?_, ?_, by simp [hlenA]⟩
          · simp only [valL_cons, List.length_cons]
            have hc1 : ((a - b : ℕ) : ℤ) = (a : ℤ) - b := by omega
            push_cast [hc1]
            rw [hvalA]
            push_cast
            rw [pow_succ]
            ring
          · intro z hz
            rcases List.mem_cons.mp hz with h1 | hz'
            · omega
            · exact hdigA z hz'
        · push_neg at hba
          have hd : u32sub a b = a + wordMod - b := u32sub_of_gt hba (by omega)
          rw [subLoop1, if_pos (by rw [hd]; omega), hd]
          have hmod : (a + wordMod - b + Base) % wordMod = a + Base - b := by
            have h2 : a + wordMod - b + Base = (a + Base - b) + wordMod := by omega
            rw [h2, Nat.add_mod_right]
            exact Nat.mod_eq_of_lt (by omega)
          rw [hmod]
          refine ⟨outB, houtB, houtBnn, ?_, ?_, by simp [hlenB]⟩
          · simp only [valL_cons, List.length_cons]
            have hc1 : ((a + Base - b : ℕ) : ℤ) = (a : ℤ) + Base - b := by omega
            push_cast [hc1]
            rw [hvalB]
            push_cast
            rw [pow_succ]
            ring
          · intro z hz
            rcases List.mem_cons.mp hz with h1 | hz'
            · omega
            · exact hdigB z hz'
      · -- entry with incoming borrow
        simp only [decHead]
        by_cases hx1 : 1 ≤ a
        · rw [u32sub_of_le hx1 (by omega)]
          by_cases hba : b ≤ a - 1
          · have hd : u32sub (a - 1) b = a - 1 - b := u32sub_of_le hba (by omega)
            rw [subLoop1, if_neg (by rw [hd]; omega), hd]
            refine ⟨outA, houtA, houtAnn, ?_, ?_, by simp [hlenA]⟩
            · simp only [valL_cons, List.length_cons]
              have hc1 : ((a - 1 - b : ℕ) : ℤ) = (a : ℤ) - 1 - b := by omega
              push_cast [hc1]
              rw [hvalA]
              push_cast
              rw [pow_succ]
              ring
            · intro z hz
              rcases List.mem_cons.mp hz with h1 | hz'
              · omega
              · exact hdigA z hz'
          · push_neg at hba
            have hd : u32sub (a - 1) b = a - 1 + wordMod - b := u32sub_of_gt hba (by omega)
            rw [subLoop1, if_pos (by rw [hd]; omega), hd]
            have hmod : (a - 1 + wordMod - b + Base) % wordMod = a + Base - b - 1 := by
              have h2 : a - 1 + wordMod - b + Base = (a + Base - b - 1) + wordMod := by
                omega
              rw [h2, Nat.add_mod_right]
              exact Nat.mod_eq_of_lt (by omega)
            rw [hmod]
            refine ⟨outB, houtB, houtBnn, ?_, ?_, by simp [hlenB]⟩
            · simp only [valL_cons, List.length_cons]
              have hc1 : ((a + Base - b - 1 : ℕ) : ℤ) = (a : ℤ) + Base - b - 1 := by
                omega
              push_cast [hc1]
              rw [hvalB]
              push_cast
              rw [pow_succ]
              ring
            · intro z hz
              rcases List.mem_cons.mp hz with h1 | hz'
              · omega
              · exact hdigB z hz'
        · have ha0 : a = 0 := by omega
          subst ha0
          rw [u32sub_zero_one]
          have hd : u32sub (wordMod - 1) b = wordMod - 1 - b :=
            u32sub_of_le (by omega) (by omega)
          rw [subLoop1, if_pos (by rw [hd]; omega), hd]
          have hmod : (wordMod - 1 - b + Base) % wordMod = Base - b - 1 := by
            have h2 : wordMod - 1 - b + Base = (Base - b - 1) + wordMod := by omega
            rw [h2, Nat.add_mod_right]
            exact Nat.mod_eq_of_lt (by omega)
          rw [hmod]
          refine ⟨outB, houtB, houtBnn, ?_, ?_, by simp [hlenB]⟩
          · simp only [valL_cons, List.length_cons]
            have hc1 : ((Base - b - 1 : ℕ) : ℤ) = (Base : ℤ) - b - 1 := by omega
            push_cast [hc1]
            rw [hvalB]
            push_cast
            rw [pow_succ]
            ring
          · intro z hz
            rcases List.mem_cons.mp hz with h1 | hz'
            · omega
            · exact hdigB z hz'

theorem length_le_of_val_le {a b : Limbs} (hwa : LimbsWF a) (hca : Canonical a)
    (hwb : LimbsWF b) (hcb : Canonical b) (h : valL b ≤ valL a) :
    b.length ≤ a.length := by
  by_contra hcon
  push_neg at hcon
  have h1 : valL a < Base ^ a.length := valL_lt_base_pow hwa.2
  have h2 : Base ^ (b.length - 1) ≤ valL b := by
    apply canonical_val_lower hwb hcb
    have : 1 ≤ a.length := List.length_pos_of_ne_nil hwa.1
    omega
  have h3 : Base ^ a.length ≤ Base ^ (b.length - 1) :=
    Nat.pow_le_pow_right Base_pos (by omega)
  omega

theorem subAssign_ok {a b : Limbs} (hwa : LimbsWF a) (hca : Canonical a)
    (hwb : LimbsWF b) (hcb : Canonical b) (h : valL b ≤ valL a) :
    ∃ r, subAssign a b = .ok r ∧ valL r = valL a - valL b ∧ LimbsWF r ∧ Canonical r := by
  have hge : ge a b = true := (ge_correct hwa hca hwb hcb).mpr h
  have hlen : b.length ≤ a.length := length_le_of_val_le hwa hca hwb hcb h
  obtain ⟨⟨out, hout, houtnn, hval, hdig, hlenr⟩, _⟩ := subLoop1_both b a hwa.2 hwb.2 hlen
  have hout0 : out = 0 := by
    by_contra hcon
    have hout1 : out = 1 := by omega
    subst hout1
    have hlt : valL (subLoop1 a b) < Base ^ a.length := by
      have := @valL_lt_base_pow (subLoop1 a b) hdig
      rwa [hlenr] at this
    have hgez : (valL b : ℤ) ≤ (valL a : ℤ) := by exact_mod_cast h
    rw [one_mul] at hval
    have hcast : ((valL (subLoop1 a b) : ℕ) : ℤ) < ((Base ^ a.length : ℕ) : ℤ) := by
      exact_mod_cast hlt
    push_cast at hcast
    omega
  subst hout0
  simp only [zero_mul, add_zero] at hval
  have hvnat : valL (subLoop1 a b) = valL a - valL b := by omega
  refine ⟨trim (subLoop1 a b), ?_, ?_, ?_, ?_⟩
  · unfold subAssign
    rw [hge]
    simp
  · rw [valL_trim, hvnat]
  · refine ⟨trim_ne_nil ?_, fun x hx => hdig x (trim_mem hx)⟩
    intro hcon
    have := congrArg List.length hcon
    rw [hlenr, List.length_nil] at this
    have h1 : 1 ≤ a.length := List.length_pos_of_ne_nil hwa.1
    omega
  · exact trim_canonical _

theorem subAssign_error {a b : Limbs} (hwa : LimbsWF a) (hca : Canonical a)
    (hwb : LimbsWF b) (hcb : Canonical b) (h : valL a < valL b) :
    subAssign a b = .error .domain := by
  have hge : ge a b = false := by
    cases hg : ge a b
    · rfl
    · have := (ge_correct hwa hca hwb hcb).mp hg
      omega
  unfold subAssign
  rw [hge]
  simp

end UnsignedInteger

/-! ### Correctness of increment and decrement -/

theorem canonical_of_getLast {d : Limbs} (hne : d ≠ [])
    (h : ∀ t, d.getLast? = some t → t ≠ 0) : Canonical d := by
  rcases List.eq_nil_or_concat d with h0 | ⟨l, a, h0⟩
  · exact absurd h0 hne
  · rw [List.concat_eq_append] at h0
    subst h0
    have ha : a ≠ 0 := h a (by simp)
    have hra : l ++ [a] = (a :: l.reverse).reverse := by simp
    rw [hra]
    exact canonical_of_rev_head_ne ha

theorem canonical_getLast_ne {d : Limbs} (hc : Canonical d) (hlen : 2 ≤ d.length) :
    ∀ t, d.getLast? = some t → t ≠ 0 := by
  intro t htl
  rcases List.eq_nil_or_concat d with h0 | ⟨l, a, h0⟩
  · subst h0
    simp at hlen
  · rw [List.concat_eq_append] at h0
    subst h0
    have hta : t = a := by
      have h2 : (l ++ [a]).getLast? = some a := by simp
      rw [h2] at htl
      injection htl with h'
      exact h'.symm
    subst hta
    have hl : l ≠ [] := by
      intro h0
      subst h0
      simp at hlen
    have hra : l ++ [t] = (t :: l.reverse).reverse := by simp
    rw [hra] at hc
    exact canonical_rev_head_ne hc (by simpa using hl)

namespace UnsignedInteger

theorem incGo_spec :
    ∀ l : Limbs, l ≠ [] → (∀ x ∈ l, x ≤ Base) → (∀ x ∈ l.tail, x < Base) →
      (∀ t, l.getLast? = some t → 2 ≤ l.length → 1 ≤ t) →
      (∀ t, l = [t] → 1 ≤ t) →
      valL (incGo l) = valL l ∧ (∀ x ∈ incGo l, x < Base)
        ∧ (∀ t, (incGo l).getLast? = some t → 1 ≤ t)
        ∧ incGo l ≠ [] := by
  intro l
  induction l using incGo.induct with
  | case1 =>
    intro hne _ _ _ _
    exact absurd rfl hne
  | case2 x hx =>
    intro _ hh ht hlast hsing
    have hxB : x ≤ Base := hh x (by simp)
    have hxeq : x = Base := by omega
    have hout : incGo [x] = [x - Base, 1] := by
      rw [incGo]
      simp only [if_pos hx]
    rw [hout]
    refine ⟨?_, ?_, ?_, by simp⟩
    · simp [valL_cons, valL_nil, hxeq]
    · intro z hz
      have hB := one_lt_Base
      simp at hz
      rcases hz with h1 | h1 <;> omega
    · intro t htl
      simp at htl
      omega
  | case3 x hx =>
    intro _ hh ht hlast hsing
    have hout : incGo [x] = [x] := by
      rw [incGo]
      simp only [if_neg hx]
    rw [hout]
    refine ⟨rfl, ?_, ?_, by simp⟩
    · intro z hz
      simp at hz
      subst hz
      omega
    · intro t htl
      have hx1 := hsing x rfl
      simp at htl
      omega
  | case4 x y rest hx ih =>
    intro _ hh ht hlast hsing
    have hxB : x ≤ Base := hh x (by simp)
    have hxeq : x = Base := by omega
    have hy : y < Base := ht y (by simp)
    have hout : incGo (x :: y :: rest) = (x - Base) :: incGo ((y + 1) :: rest) := by
      rw [incGo, if_pos hx]
    rw [hout]
    have hrec := ih (by simp)
      (by
        intro z hz
        rcases List.mem_cons.mp hz with h1 | h1
        · omega
        · exact hh z (by simp [h1]))
      (by
        intro z hz
        exact ht z (by simp; right; exact hz))
      (by
        intro t htl hlen
        cases rest with
        | nil => simp at hlen
        | cons r rs =>
          apply hlast t
          · rw [List.getLast?_cons_cons] at htl ⊢
            exact htl
          · simp)
      (by
        intro t htl
        cases rest with
        | nil =>
          have h2 : y + 1 = t := by simpa using htl
          omega
        | cons r rs => simp at htl)
    obtain ⟨hval, hdig, hlast', hne'⟩ := hrec
    refine ⟨?_, ?_, ?_, by simp⟩
    · rw [valL_cons, hval]
      simp only [valL_cons]
      have hB := Base_pos
      ring_nf
      omega
    · intro z hz
      rcases List.mem_cons.mp hz with h1 | h1
      · have hB := Base_pos
        omega
      · exact hdig z h1
    · intro t htl
      cases hgi : incGo ((y + 1) :: rest) with
      | nil => exact absurd hgi hne'
      | cons w ws =>
        rw [hgi, List.getLast?_cons_cons] at htl
        apply hlast' t
        rw [hgi]
        exact htl
  | case5 x y rest hx =>
    intro _ hh ht hlast hsing
    have hout : incGo (x :: y :: rest) = x :: y :: rest := by
      rw [incGo, if_neg hx]
    rw [hout]
    refine ⟨rfl, ?_, ?_, by simp⟩
    · intro z hz
      rcases List.mem_cons.mp hz with h1 | h1
      · omega
      · exact ht z h1
    · intro t htl
      apply hlast t htl
      simp

theorem incLimbs_spec {a : Limbs} (hwf : LimbsWF a) (hca : Canonical a) :
    valL (incLimbs a) = valL a + 1 ∧ LimbsWF (incLimbs a) ∧ Canonical (incLimbs a) := by
  obtain ⟨hne, hdig⟩ := hwf
  cases a with
  | nil => exact absurd rfl hne
  | cons x xs =>
    have hx : x < Base := hdig x (by simp)
    have hxs : ∀ z ∈ xs, z < Base := fun z hz => hdig z (by simp [hz])
    rw [show incLimbs (x :: xs) = incGo ((x + 1) :: xs) from rfl]
    have hrec := incGo_spec ((x + 1) :: xs) (by simp)
      (by
        intro z hz
        rcases List.mem_cons.mp hz with h1 | h1
        · omega
        · exact le_of_lt (hxs z h1))
      (by
        intro z hz
        exact hxs z hz)
      (by
        intro t htl hlen
        cases xs with
        | nil => simp at hlen
        | cons p ps =>
          have htl2 : (x :: p :: ps).getLast? = some t := by
            rw [List.getLast?_cons_cons] at htl ⊢
            exact htl
          have := canonical_getLast_ne hca (by simp) t htl2
          omega)
      (by
        intro t htl
        injection htl with h3 h4
        omega)
    obtain ⟨hval, hdig', hlast', hne'⟩ := hrec
    refine ⟨?_, ⟨hne', hdig'⟩, ?_⟩
    · rw [hval]
      simp only [valL_cons]
      ring
    · apply canonical_of_getLast hne'
      intro t htl
      have := hlast' t htl
      omega

theorem decGo_spec :
    ∀ (xs : Limbs) (x : ℕ), x < Base → (∀ z ∈ xs, z < Base) →
      1 ≤ valL (x :: xs) →
      valL (decGo (u32sub x 1 :: xs)) = valL (x :: xs) - 1
        ∧ (∀ z ∈ decGo (u32sub x 1 :: xs), z < Base)
        ∧ (decGo (u32sub x 1 :: xs)).length = xs.length + 1 := by
  intro xs
  induction xs with
  | nil =>
    intro x hx hxs hval
    have hx1 : 1 ≤ x := by
      by_contra hcon
      have hx0 : x = 0 := by omega
      subst hx0
      simp [valL_cons, valL_nil] at hval
    rw [u32sub_of_le hx1 (by have := wordMod_big; omega)]
    rw [show decGo [x - 1] = [x - 1] from by simp [decGo]]
    refine ⟨?_, ?_, by simp⟩
    · simp only [valL_cons, valL_nil]
      omega
    · intro z hz
      simp at hz
      omega
  | cons y ys ih =>
    intro x hx hxs hval
    have hy : y < Base := hxs y (by simp)
    have hys : ∀ z ∈ ys, z < Base := fun z hz => hxs z (by simp [hz])
    have hB := Base_pos
    have hWB := wordMod_big
    by_cases hx1 : 1 ≤ x
    · rw [u32sub_of_le hx1 (by omega)]
      rw [show decGo ((x - 1) :: y :: ys) = (x - 1) :: y :: ys from by
        rw [decGo, if_neg (by omega)]]
      refine ⟨?_, ?_, by simp⟩
      · simp only [valL_cons]
        omega
      · intro z hz
        rcases List.mem_cons.mp hz with h1 | h1
        · omega
        · exact hxs z h1
    · have hx0 : x = 0 := by omega
      subst hx0
      rw [u32sub_zero_one]
      have hvys : 1 ≤ valL (y :: ys) := by
        by_contra hcon
        have h0 : valL (y :: ys) = 0 := by omega
        rw [valL_cons, h0] at hval
        simp at hval
      have hrec := ih y hy hys hvys
      rw [show decGo ((wordMod - 1) :: y :: ys)
          = ((wordMod - 1 + Base) % wordMod) :: decGo (u32sub y 1 :: ys) from by
        rw [decGo, if_pos (by omega)]]
      have hmod : (wordMod - 1 + Base) % wordMod = Base - 1 := by decide
      rw [hmod]
      obtain ⟨hv, hd, hl⟩ := hrec
      refine ⟨?_, ?_, by simp [hl]⟩
      · rw [valL_cons, hv]
        simp only [valL_cons]
        rw [valL_cons] at hvys
        have hBval : Base = 100000000 := rfl
        rw [hBval] at hvys ⊢
        omega
      · intro z hz
        rcases List.mem_cons.mp hz with h1 | h1
        · omega
        · exact hd z h1

theorem decLimbs_spec {a : Limbs} (hwf : LimbsWF a) (hv : valL a ≠ 0) :
    ∃ r, decLimbs a = .ok r ∧ valL r = valL a - 1
      ∧ (∀ z ∈ r, z < Base) ∧ r.length = a.length ∧ r ≠ [] := by
  obtain ⟨hne, hdig⟩ := hwf
  cases a with
  | nil => exact absurd rfl hne
  | cons x xs =>
    have hx : x < Base := hdig x (by simp)
    have hxs : ∀ z ∈ xs, z < Base := fun z hz => hdig z (by simp [hz])
    have hval1 : 1 ≤ valL (x :: xs) := by omega
    obtain ⟨hv', hd', hl'⟩ := decGo_spec xs x hx hxs hval1
    refine ⟨decGo (u32sub x 1 :: xs), ?_, hv', hd', by simp [hl'], ?_⟩
    · unfold decLimbs
      rw [toBool_of_val_ne hv]
      simp [decLoop]
    · intro hcon
      have h2 := congrArg List.length hcon
      rw [hl'] at h2
      simp at h2

end UnsignedInteger


/-! ### Correctness of multiplication -/

namespace UnsignedInteger

theorem list_range_map_sum (n : ℕ) (f : ℕ → ℕ) :
    ((List.range n).map f).sum = ∑ j ∈ Finset.range n, f j := by
  induction n with
  | zero => simp
  | succ k ih => rw [List.range_succ, Finset.sum_range_succ]; simp [ih]

theorem colSum_eq (a b : Limbs) (k : ℕ) :
    colSum a b k = ∑ j ∈ Finset.range b.length,
      if j ≤ k ∧ k - j < a.length then a.getD (k - j) 0 * b.getD j 0 else 0 := by
  rw [colSum, list_range_map_sum]

theorem valL_eq_sum (d : Limbs) :
    valL d = ∑ i ∈ Finset.range d.length, d.getD i 0 * Base ^ i := by
  induction d with
  | nil => simp [valL_nil]
  | cons x xs ih =>
    rw [valL_cons, ih, List.length_cons, Finset.sum_range_succ']
    simp only [List.getD_cons_succ, List.getD_cons_zero, pow_zero, mul_one, pow_succ]
    rw [Finset.mul_sum, Nat.add_comm]
    congr 1
    apply Finset.sum_congr rfl
    intro i _
    ring

theorem mul_eq_sum_colSum (a b : Limbs) :
    valL a * valL b
      = ∑ k ∈ Finset.range (a.length + b.length - 1), colSum a b k * Base ^ k := by
  induction a with
  | nil => simp [valL_nil, colSum]
  | cons x xs ih =>
    by_cases hb : b.length = 0
    · have hbn : b = [] := List.length_eq_zero.mp hb
      subst hbn
      simp [valL_nil, colSum]
    · have hm : 1 ≤ b.length := by omega
      have hsplit : ∀ k, colSum (x :: xs) b k
          = (if k < b.length then x * b.getD k 0 else 0)
            + ∑ j ∈ Finset.range b.length,
                if j < k ∧ k - j - 1 < xs.length then xs.getD (k - j - 1) 0 * b.getD j 0
                else 0 := by
        intro k
        rw [colSum_eq]
        have h1 : (if k < b.length then x * b.getD k 0 else 0)
            = ∑ j ∈ Finset.range b.length, if j = k then x * b.getD j 0 else 0 := by
          rw [Finset.sum_ite_eq' (Finset.range b.length) k fun j => x * b.getD j 0]
          simp [Finset.mem_range]
        rw [h1, ← Finset.sum_add_distrib]
        apply Finset.sum_congr rfl
        intro j hj
        simp only [List.length_cons]
        rcases Nat.lt_trichotomy j k with hlt | heq | hgt
        · have h2 : j ≠ k := by omega
          rw [if_neg h2, zero_add]
          obtain ⟨t, ht⟩ : ∃ t, k - j = t + 1 := ⟨k - j - 1, by omega⟩
          have ht2 : k - j - 1 = t := by omega
          rw [ht2, ht, List.getD_cons_succ]
          exact if_congr (by omega) rfl rfl
        · subst heq
          simp
        · have h1 : ¬ j ≤ k := by omega
          have h2 : j ≠ k := by omega
          have h3 : ¬ j < k := by omega
          simp [h1, h2, h3]
      have hlen : (x :: xs).length + b.length - 1 = (xs.length + b.length - 1) + 1 := by
        simp only [List.length_cons]
        omega
      rw [hlen]
      have hT : ∀ k, colSum (x :: xs) b k * Base ^ k
          = (if k < b.length then x * b.getD k 0 * Base ^ k else 0)
            + (∑ j ∈ Finset.range b.length,
                if j < k ∧ k - j - 1 < xs.length then xs.getD (k - j - 1) 0 * b.getD j 0
                else 0) * Base ^ k := by
        intro k
        rw [hsplit k, Nat.add_mul]
        congr 1
        by_cases hc : k < b.length
        · rw [if_pos hc, if_pos hc]
        · rw [if_neg hc, if_neg hc, Nat.zero_mul]
      rw [Finset.sum_congr rfl fun k _ => hT k, Finset.sum_add_distrib]
      have hpart1 : (∑ k ∈ Finset.range ((xs.length + b.length - 1) + 1),
          if k < b.length then x * b.getD k 0 * Base ^ k else 0) = x * valL b := by
        rw [← Finset.sum_subset (Finset.range_subset.mpr (by omega : b.length ≤ (xs.length + b.length - 1) + 1))
          (fun k _ hk => by rw [if_neg (by simp at hk; omega)])]
        rw [valL_eq_sum b, Finset.mul_sum]
        apply Finset.sum_congr rfl
        intro k hk
        rw [if_pos (Finset.mem_range.mp hk), Nat.mul_assoc]
      have hpart2 : (∑ k ∈ Finset.range ((xs.length + b.length - 1) + 1),
          (∑ j ∈ Finset.range b.length,
            if j < k ∧ k - j - 1 < xs.length then xs.getD (k - j - 1) 0 * b.getD j 0
            else 0) * Base ^ k) = Base * (valL xs * valL b) := by
        rw [Finset.sum_range_succ']
        have hz : (∑ j ∈ Finset.range b.length,
            if j < 0 ∧ 0 - j - 1 < xs.length then xs.getD (0 - j - 1) 0 * b.getD j 0
            else 0) * Base ^ 0 = 0 := by
          simp
        rw [hz, Nat.add_zero, ih, Finset.mul_sum]
        apply Finset.sum_congr rfl
        intro k _
        rw [colSum_eq]
        have hinner : (∑ j ∈ Finset.range b.length,
            if j < k + 1 ∧ k + 1 - j - 1 < xs.length then xs.getD (k + 1 - j - 1) 0 * b.getD j 0
            else 0) = ∑ j ∈ Finset.range b.length,
            if j ≤ k ∧ k - j < xs.length then xs.getD (k - j) 0 * b.getD j 0 else 0 := by
          apply Finset.sum_congr rfl
          intro j _
          have h1 : k + 1 - j - 1 = k - j := by omega
          rw [h1]
          exact if_congr (by omega) rfl rfl
        rw [hinner, pow_succ]
        ring
      rw [hpart1, hpart2, valL_cons, Nat.add_mul, Nat.mul_assoc]

theorem schoolbookLoop_spec (a b : Limbs) :
    ∀ (count i carry : ℕ),
      carry + (∑ j ∈ Finset.range count, colSum a b (i + j) * Base ^ j) < Base * Base ^ count →
      valL (schoolbookLoop a b i count carry)
        = carry + (∑ j ∈ Finset.range count, colSum a b (i + j) * Base ^ j)
      ∧ ∀ z ∈ schoolbookLoop a b i count carry, z < Base := by
  intro count
  induction count with
  | zero =>
    intro i carry hlt
    simp only [Finset.range_zero, Finset.sum_empty, Nat.add_zero] at hlt ⊢
    rw [Base, pow_zero, Nat.mul_one] at hlt
    rw [schoolbookLoop]
    by_cases hc : carry ≠ 0
    · rw [if_pos hc]
      refine ⟨?_, ?_⟩
      · rw [valL_cons, valL_nil, Nat.mul_zero, Nat.add_zero, u32]
        rw [Nat.mod_eq_of_lt (by rw [wordMod]; omega)]
      · intro z hz
        simp at hz
        subst hz
        rw [u32, Nat.mod_eq_of_lt (by rw [wordMod]; omega), Base]
        omega
    · rw [if_neg hc]
      push_neg at hc
      subst hc
      exact ⟨rfl, by simp⟩
  | succ n ihn =>
    intro i carry hlt
    have hB := Base_pos
    have hsum : (∑ j ∈ Finset.range (n + 1), colSum a b (i + j) * Base ^ j)
        = colSum a b i + Base * ∑ j ∈ Finset.range n, colSum a b (i + 1 + j) * Base ^ j := by
      rw [Finset.sum_range_succ']
      simp only [pow_zero, Nat.mul_one, Nat.add_zero]
      rw [Nat.add_comm, Finset.mul_sum]
      congr 1
      apply Finset.sum_congr rfl
      intro j _
      have h1 : i + (j + 1) = i + 1 + j := by omega
      rw [h1, pow_succ]
      ring
    rw [hsum] at hlt
    have hdiv : (carry + colSum a b i) / Base
          + (∑ j ∈ Finset.range n, colSum a b (i + 1 + j) * Base ^ j)
        = (carry + colSum a b i
            + Base * ∑ j ∈ Finset.range n, colSum a b (i + 1 + j) * Base ^ j) / Base := by
      rw [Nat.mul_comm Base, Nat.add_mul_div_right _ _ hB]
    have hrec := ihn (i + 1) ((carry + colSum a b i) / Base) (by
      rw [hdiv, Nat.div_lt_iff_lt_mul hB]
      calc carry + colSum a b i
            + Base * ∑ j ∈ Finset.range n, colSum a b (i + 1 + j) * Base ^ j
          < Base * Base ^ (n + 1) := by omega
        _ = Base * Base ^ n * Base := by ring
      )
    obtain ⟨hval, hdig⟩ := hrec
    rw [show schoolbookLoop a b i (n + 1) carry
        = (carry + colSum a b i) % Base
          :: schoolbookLoop a b (i + 1) n ((carry + colSum a b i) / Base) from rfl]
    refine ⟨?_, ?_⟩
    · rw [valL_cons, hval, hsum, Nat.mul_add, ← Nat.add_assoc, ← Nat.add_assoc,
        Nat.mod_add_div]
    · intro z hz
      rcases List.mem_cons.mp hz with h1 | h1
      · subst h1
        exact Nat.mod_lt _ hB
      · exact hdig z h1


theorem schoolbookMul_spec {a b : Limbs} (hane : a ≠ []) (hbne : b ≠ [])
    (ha : ∀ x ∈ a, x < Base) (hb : ∀ x ∈ b, x < Base) :
    valL (schoolbookMul a b) = valL a * valL b ∧ LimbsWF (schoolbookMul a b)
      ∧ Canonical (schoolbookMul a b) := by
  have hB := Base_pos
  have hprod : valL a * valL b < Base * Base ^ (a.length + b.length - 1) := by
    have h1 : valL a < Base ^ a.length := valL_lt_base_pow ha
    have h2 : valL b < Base ^ b.length := valL_lt_base_pow hb
    have hlen1 : 1 ≤ a.length := List.length_pos.mpr hane
    have hlen2 : 1 ≤ b.length := List.length_pos.mpr hbne
    calc valL a * valL b ≤ valL a * Base ^ b.length := Nat.mul_le_mul (le_refl _) (le_of_lt h2)
      _ < Base ^ a.length * Base ^ b.length := by
          exact mul_lt_mul_of_pos_right h1 (pow_pos hB _)
      _ = Base * Base ^ (a.length + b.length - 1) := by
          rw [← pow_add, ← pow_succ']
          congr 1
          omega
  have hhyp : (0 : ℕ) + (∑ j ∈ Finset.range (a.length + b.length - 1),
      colSum a b (0 + j) * Base ^ j) < Base * Base ^ (a.length + b.length - 1) := by
    simp only [Nat.zero_add]
    rw [← mul_eq_sum_colSum]
    exact hprod
  obtain ⟨hval, hdig⟩ := schoolbookLoop_spec a b (a.length + b.length - 1) 0 0 hhyp
  have hvl : valL (schoolbookLoop a b 0 (a.length + b.length - 1) 0) = valL a * valL b := by
    rw [hval]
    simp only [Nat.zero_add]
    rw [← mul_eq_sum_colSum]
  have hne : schoolbookLoop a b 0 (a.length + b.length - 1) 0 ≠ [] := by
    have hlen1 : 1 ≤ a.length := List.length_pos.mpr hane
    have hlen2 : 1 ≤ b.length := List.length_pos.mpr hbne
    obtain ⟨c, hc⟩ : ∃ c, a.length + b.length - 1 = c + 1 :=
      ⟨a.length + b.length - 2, by omega⟩
    rw [hc]
    rw [show schoolbookLoop a b 0 (c + 1) 0
        = (0 + colSum a b 0) % Base
          :: schoolbookLoop a b 1 c ((0 + colSum a b 0) / Base) from rfl]
    simp
  refine ⟨?_, ⟨?_, ?_⟩, ?_⟩
  · rw [schoolbookMul, valL_trim, hvl]
  · exact trim_ne_nil hne
  · intro z hz
    exact hdig z (trim_mem hz)
  · exact trim_canonical _

theorem transformMultiply_eq_canonLimbs (a b : Limbs) :
    transformMultiply a b = canonLimbs (valL a * valL b) := rfl

theorem mulAssign_ok_spec {a b p : Limbs} (hwa : LimbsWF a) (hwb : LimbsWF b)
    (h : mulAssign a b = .ok p) :
    valL p = valL a * valL b ∧ LimbsWF p ∧ Canonical p := by
  rw [mulAssign] at h
  split_ifs at h with h1 h2 h3
  · have hp : p = schoolbookMul a b := by
      injection h with h'
      exact h'.symm
    subst hp
    exact schoolbookMul_spec hwa.1 hwb.1 hwa.2 hwb.2
  · have hp : p = transformMultiply a b := by
      injection h with h'
      exact h'.symm
    subst hp
    rw [transformMultiply_eq_canonLimbs]
    exact ⟨valL_canonLimbs _, canonLimbs_wf _, canonLimbs_canonical _⟩

end UnsignedInteger


/-! ### Correctness of the division correction loops -/


theorem exceptBind_ok {e a b : Type} (x : a) (f : a → Except e b) :
    (Except.ok x >>= f) = f x := rfl

theorem exceptBind_error {e a b : Type} (err : e) (f : a → Except e b) :
    ((Except.error err : Except e a) >>= f) = Except.error err := rfl

namespace UnsignedInteger

theorem incGo_val :
    ∀ l : Limbs, l ≠ [] → (∀ x ∈ l, x ≤ Base) → (∀ x ∈ l.tail, x < Base) →
      valL (incGo l) = valL l ∧ (∀ x ∈ incGo l, x < Base) ∧ incGo l ≠ [] := by
  intro l
  induction l using incGo.induct with
  | case1 =>
    intro hne _ _
    exact absurd rfl hne
  | case2 x hx =>
    intro _ hh _
    have hxB : x ≤ Base := hh x (by simp)
    have hxeq : x = Base := by omega
    have hout : incGo [x] = [x - Base, 1] := by
      rw [incGo]
      simp only [if_pos hx]
    rw [hout]
    refine ⟨by simp [valL_cons, valL_nil, hxeq], ?_, by simp⟩
    intro z hz
    have hB := one_lt_Base
    simp at hz
    rcases hz with h1 | h1 <;> omega
  | case3 x hx =>
    intro _ hh _
    have hout : incGo [x] = [x] := by
      rw [incGo]
      simp only [if_neg hx]
    rw [hout]
    refine ⟨rfl, ?_, by simp⟩
    intro z hz
    simp at hz
    omega
  | case4 x y rest hx ih =>
    intro _ hh ht
    have hxB : x ≤ Base := hh x (by simp)
    have hxeq : x = Base := by omega
    have hy : y < Base := ht y (by simp)
    have hout : incGo (x :: y :: rest) = (x - Base) :: incGo ((y + 1) :: rest) := by
      rw [incGo, if_pos hx]
    rw [hout]
    have hrec := ih (by simp)
      (by
        intro z hz
        rcases List.mem_cons.mp hz with h1 | h1
        · omega
        · exact hh z (by simp [h1]))
      (by
        intro z hz
        exact ht z (by simp; right; exact hz))
    obtain ⟨hval, hdig, hne'⟩ := hrec
    refine ⟨?_, ?_, by simp⟩
    · rw [valL_cons, hval]
      simp only [valL_cons]
      have hB := Base_pos
      ring_nf
      omega
    · intro z hz
      rcases List.mem_cons.mp hz with h1 | h1
      · have hB := Base_pos
        omega
      · exact hdig z h1
  | case5 x y rest hx =>
    intro _ hh ht
    have hout : incGo (x :: y :: rest) = x :: y :: rest := by
      rw [incGo, if_neg hx]
    rw [hout]
    refine ⟨rfl, ?_, by simp⟩
    intro z hz
    rcases List.mem_cons.mp hz with h1 | h1
    · omega
    · exact ht z h1

theorem incLimbs_val {a : Limbs} (hwf : LimbsWF a) :
    valL (incLimbs a) = valL a + 1 ∧ LimbsWF (incLimbs a) := by
  obtain ⟨hne, hdig⟩ := hwf
  cases a with
  | nil => exact absurd rfl hne
  | cons x xs =>
    have hx : x < Base := hdig x (by simp)
    have hxs : ∀ z ∈ xs, z < Base := fun z hz => hdig z (by simp [hz])
    rw [show incLimbs (x :: xs) = incGo ((x + 1) :: xs) from rfl]
    have hrec := incGo_val ((x + 1) :: xs) (by simp)
      (by
        intro z hz
        rcases List.mem_cons.mp hz with h1 | h1
        · omega
        · exact le_of_lt (hxs z h1))
      (by
        intro z hz
        exact hxs z hz)
    obtain ⟨hval, hdig', hne'⟩ := hrec
    refine ⟨?_, hne', hdig'⟩
    rw [hval]
    simp only [valL_cons]
    ring

theorem decLimbs_ok {a r : Limbs} (hwf : LimbsWF a) (hv : valL a ≠ 0)
    (h : decLimbs a = .ok r) :
    valL r = valL a - 1 ∧ LimbsWF r ∧ r.length = a.length := by
  obtain ⟨r', h1, h2, h3, h4, h5⟩ := decLimbs_spec hwf hv
  rw [h] at h1
  injection h1 with h1'
  subst h1'
  exact ⟨h2, ⟨h5, h3⟩, h4⟩

theorem correctionLoopA_ok {x y : Limbs} (hwx : LimbsWF x) (hcx : Canonical x)
    (hwy : LimbsWF y) :
    ∀ (fuel : ℕ) (quot q' : Limbs), LimbsWF quot →
      correctionLoopA x y fuel quot = .ok q' →
      LimbsWF q' ∧ valL q' * valL y ≤ valL x := by
  intro fuel
  induction fuel with
  | zero =>
    intro quot q' _ h
    simp [correctionLoopA] at h
  | succ n ih =>
    intro quot q' hwq h
    rw [correctionLoopA] at h
    cases hp : mulAssign quot y with
    | error e =>
      rw [hp, exceptBind_error] at h
      exact absurd h (by simp)
    | ok p =>
      rw [hp, exceptBind_ok] at h
      obtain ⟨hpv, hwp, hcp⟩ := mulAssign_ok_spec hwq hwy hp
      by_cases hgt : gt p x = true
      · rw [if_pos hgt] at h
        have hgtv : valL x < valL p := (gt_correct hwp hcp hwx hcx).mp hgt
        cases hd : decLimbs quot with
        | error e =>
          rw [hd, exceptBind_error] at h
          exact absurd h (by simp)
        | ok q2 =>
          rw [hd, exceptBind_ok] at h
          have hqnz : valL quot ≠ 0 := by
            intro h0
            rw [h0, Nat.zero_mul] at hpv
            omega
          obtain ⟨hdv, hdw, _⟩ := decLimbs_ok hwq hqnz hd
          exact ih q2 q' hdw h
      · rw [if_neg hgt] at h
        injection h with h'
        subst h'
        refine ⟨hwq, ?_⟩
        have hnlt : ¬ valL x < valL p := fun hc => hgt ((gt_correct hwp hcp hwx hcx).mpr hc)
        omega

theorem correctionLoopB_ok {y : Limbs} (hwy : LimbsWF y) (hcy : Canonical y) :
    ∀ (fuel : ℕ) (quot rem q r : Limbs), LimbsWF quot → LimbsWF rem → Canonical rem →
      correctionLoopB y fuel quot rem = .ok (q, r) →
      valL q * valL y + valL r = valL quot * valL y + valL rem
        ∧ valL r < valL y ∧ LimbsWF q ∧ LimbsWF r ∧ Canonical r := by
  intro fuel
  induction fuel with
  | zero =>
    intro quot rem q r _ _ _ h
    simp [correctionLoopB] at h
  | succ n ih =>
    intro quot rem q r hwq hwr hcr h
    rw [correctionLoopB] at h
    by_cases hge : ge rem y = true
    · rw [if_pos hge] at h
      have hgev : valL y ≤ valL rem := (ge_correct hwr hcr hwy hcy).mp hge
      obtain ⟨rem2, hs, hs2, hs3, hs4⟩ := subAssign_ok hwr hcr hwy hcy hgev
      rw [hs, exceptBind_ok] at h
      obtain ⟨hiv, hiw⟩ := incLimbs_val hwq
      obtain ⟨h1, h2, h3, h4, h5⟩ := ih (incLimbs quot) rem2 q r hiw hs3 hs4 h
      refine ⟨?_, h2, h3, h4, h5⟩
      rw [h1, hiv, hs2, Nat.add_mul, Nat.one_mul]
      omega
    · rw [if_neg hge] at h
      injection h with h'
      rw [Prod.mk.injEq] at h'
      obtain ⟨h1, h2⟩ := h'
      subst h1
      subst h2
      have hnlt : ¬ valL y ≤ valL rem := fun hc => hge ((ge_correct hwr hcr hwy hcy).mpr hc)
      exact ⟨rfl, by omega, hwq, hwr, hcr⟩

end UnsignedInteger


/-! ### Correctness of the limb shifts -/


namespace UnsignedInteger

theorem rightShift_wf {a : Limbs} (hwf : LimbsWF a) (k : ℕ) :
    LimbsWF (rightShift a k) ∧ Canonical (rightShift a k) := by
  by_cases hl : a.length ≤ k
  · rw [rightShift, if_pos hl]
    refine ⟨⟨by simp, ?_⟩, canonical_singleton 0⟩
    intro z hz
    simp at hz
    subst hz
    exact Base_pos
  · rw [rightShift, if_neg hl]
    refine ⟨⟨trim_ne_nil ?_, ?_⟩, trim_canonical _⟩
    · intro hcon
      rw [List.drop_eq_nil_iff_le] at hcon
      exact hl hcon
    · intro z hz
      exact hwf.2 z (List.drop_subset k a (trim_mem hz))

theorem rightShift_val {a : Limbs} (h : ∀ x ∈ a, x < Base) (k : ℕ) :
    valL (rightShift a k) = valL a / Base ^ k := by
  by_cases hl : a.length ≤ k
  · rw [rightShift, if_pos hl]
    have h1 : valL a < Base ^ a.length := valL_lt_base_pow h
    have h2 : Base ^ a.length ≤ Base ^ k := Nat.pow_le_pow_right Base_pos hl
    rw [Nat.div_eq_of_lt (by omega)]
    simp [valL_cons, valL_nil]
  · rw [rightShift, if_neg hl, valL_trim]
    push_neg at hl
    have hsplit : valL a = valL (a.take k) + Base ^ k * valL (a.drop k) := by
      conv_lhs => rw [← List.take_append_drop k a]
      rw [valL_append, List.length_take, Nat.min_eq_left (le_of_lt hl)]
    have htake : valL (a.take k) < Base ^ k := by
      calc valL (a.take k) < Base ^ (a.take k).length :=
            valL_lt_base_pow fun z hz => h z (List.take_subset k a hz)
        _ ≤ Base ^ k := by
            apply Nat.pow_le_pow_right Base_pos
            rw [List.length_take]
            omega
    rw [hsplit, Nat.add_mul_div_left _ _ (pow_pos Base_pos k),
      Nat.div_eq_of_lt htake, Nat.zero_add]

theorem leftShift_val (a : Limbs) (k : ℕ) :
    valL (leftShift a k) = Base ^ k * valL a := by
  rw [leftShift]
  split_ifs with h
  · rcases h with h1 | h1
    · have ha : a = [] := List.length_eq_zero.mp h1
      subst ha
      simp [valL_nil]
    · subst h1
      simp
  · rw [valL_append, valL_replicate_zero, List.length_replicate, Nat.zero_add]

theorem leftShift_wf {a : Limbs} (hwf : LimbsWF a) (k : ℕ) :
    LimbsWF (leftShift a k) := by
  rw [leftShift]
  split_ifs with h
  · exact hwf
  · refine ⟨by simp [hwf.1], ?_⟩
    intro z hz
    rcases List.mem_append.mp hz with h1 | h1
    · rw [List.eq_of_mem_replicate h1]
      exact Base_pos
    · exact hwf.2 z h1

end UnsignedInteger


/-! ### The digit-and-carry step of the long-division subtraction -/


theorem int_neg_tmod (k b : ℤ) : (-k).tmod b = -(k.tmod b) := by
  simp [Int.tmod_def]
  ring

theorem int_emod_eq (a b : ℤ) : a.emod b = a % b := rfl

namespace UnsignedInteger

theorem valL_set :
    ∀ (l : Limbs) (i v : ℕ), i < l.length →
      valL (l.set i v) + l.getD i 0 * Base ^ i = valL l + v * Base ^ i := by
  intro l
  induction l with
  | nil =>
    intro i v h
    simp at h
  | cons x xs ih =>
    intro i v h
    cases i with
    | zero =>
      simp only [List.set_cons_zero, List.getD_cons_zero, pow_zero, Nat.mul_one]
      rw [valL_cons, valL_cons]
      omega
    | succ i =>
      simp only [List.set_cons_succ, List.getD_cons_succ]
      rw [valL_cons, valL_cons]
      have h' : i < xs.length := by
        simp at h
        omega
      have h2 := congrArg (Base * ·) (ih i v h')
      simp only [pow_succ] at *
      ring_nf at h2 ⊢
      omega

theorem carryStep (qhat y r : ℕ) (c : ℤ) (hy : y < Base) (hr : r < Base)
    (hclo : -(qhat : ℤ) ≤ c) (hchi : c ≤ 0) :
    ∀ d0 : ℕ,
      d0 = (((c - (qhat : ℤ) * (y : ℤ) + (r : ℤ)).tmod (Base : ℤ)).emod (wordMod : ℤ)).toNat →
    ∀ dc : ℕ × ℤ,
      dc = (if Base ≤ d0 then
          ((d0 + Base) % wordMod, (c - (qhat : ℤ) * (y : ℤ) + (r : ℤ)).tdiv (Base : ℤ) - 1)
        else (d0, (c - (qhat : ℤ) * (y : ℤ) + (r : ℤ)).tdiv (Base : ℤ))) →
      dc.1 < Base ∧ ((dc.1 : ℤ) + dc.2 * (Base : ℤ) = c - (qhat : ℤ) * (y : ℤ) + (r : ℤ))
        ∧ -(qhat : ℤ) ≤ dc.2 ∧ dc.2 ≤ 0 := by
  intro d0 hd0 dc hdc
  have hBZ : (Base : ℤ) = 100000000 := rfl
  have hWZ : (wordMod : ℤ) = 4294967296 := rfl
  have hBv : Base = 100000000 := rfl
  have hWv : wordMod = 4294967296 := rfl
  set c1 : ℤ := c - (qhat : ℤ) * (y : ℤ) + (r : ℤ) with hc1
  have hqy : (qhat : ℤ) * (y : ℤ) ≤ (qhat : ℤ) * ((Base : ℤ) - 1) := by
    apply mul_le_mul_of_nonneg_left _ (by positivity)
    omega
  have hqy0 : (0 : ℤ) ≤ (qhat : ℤ) * (y : ℤ) := by positivity
  have hlo : -((qhat : ℤ) * (Base : ℤ)) ≤ c1 := by
    rw [hc1]
    have hr0 : (0 : ℤ) ≤ (r : ℤ) := by positivity
    nlinarith
  have hhi : c1 < (Base : ℤ) := by
    rw [hc1]
    omega
  by_cases hpos : 0 ≤ c1
  · have htm : c1.tmod (Base : ℤ) = c1 := Int.tmod_eq_of_lt hpos hhi
    have hem : c1.emod (wordMod : ℤ) = c1 := Int.emod_eq_of_lt hpos (by omega)
    have htd : c1.tdiv (Base : ℤ) = 0 := Int.tdiv_eq_zero_of_lt hpos hhi
    have hd0v : (d0 : ℤ) = c1 := by
      rw [hd0, htm, hem, Int.toNat_of_nonneg hpos]
    rw [if_neg (by omega)] at hdc
    subst hdc
    refine ⟨by omega, ?_, ?_, ?_⟩
    · simp only [htd]
      omega
    · simp only [htd]
      omega
    · simp only [htd]
      omega
  · push_neg at hpos
    have hk' : ∃ k : ℕ, c1 = -(k : ℤ) ∧ 1 ≤ k := by
      refine ⟨(-c1).toNat, by omega, by omega⟩
    obtain ⟨k, hc1k, hk1⟩ := hk'
    have hkBn : (k : ℤ) ≤ (qhat : ℤ) * 100000000 := by
      rw [hc1k] at hlo
      rw [hBZ] at hlo
      omega
    have htm : c1.tmod (Base : ℤ) = -((k % Base : ℕ) : ℤ) := by
      rw [hc1k, int_neg_tmod, Int.ofNat_tmod]
    have htd : c1.tdiv (Base : ℤ) = -((k / Base : ℕ) : ℤ) := by
      rw [hc1k, Int.neg_tdiv, Int.ofNat_tdiv]
    have hmodlt : k % Base < Base := Nat.mod_lt _ Base_pos
    by_cases hk0 : k % Base = 0
    · have hd0z : d0 = 0 := by
        rw [hd0, htm, hk0]
        simp
        rw [int_emod_eq, hWZ]
        omega
      rw [if_neg (by omega)] at hdc
      subst hdc
      refine ⟨by omega, ?_, ?_, ?_⟩
      · simp only [htd]
        rw [hd0z, hc1k]
        rw [hBv] at hk0 ⊢
        omega
      · simp only [htd]
        rw [hBv]
        omega
      · simp only [htd]
        rw [hBv]
        omega
    · have hd0v : d0 = wordMod - k % Base := by
        have hem2 : (-(((k % Base : ℕ) : ℤ))).emod (wordMod : ℤ)
            = (wordMod : ℤ) - ((k % Base : ℕ) : ℤ) := by
          rw [int_emod_eq]
          have h1 : (-(((k % Base : ℕ) : ℤ)) + (wordMod : ℤ) * 1) % (wordMod : ℤ)
              = (-(((k % Base : ℕ) : ℤ))) % (wordMod : ℤ) :=
            Int.add_mul_emod_self_left _ _ _
          rw [← h1, mul_one, Int.emod_eq_of_lt (by rw [hBv, hWZ]; omega)
            (by rw [hBv] at hk0 ⊢; rw [hWZ]; omega)]
          ring
        rw [hd0, htm, hem2, hBv, hWv]
        omega
      rw [if_pos (by rw [hd0v, hBv, hWv]; omega)] at hdc
      subst hdc
      have hd1v : (d0 + Base) % wordMod = Base - k % Base := by
        rw [hd0v, hBv, hWv]
        omega
      refine ⟨?_, ?_, ?_, ?_⟩
      · simp only
        rw [hd1v, hBv]
        rw [hBv] at hk0
        omega
      · simp only [htd]
        rw [hd1v, hc1k]
        rw [hBv] at hk0 ⊢
        omega
      · simp only [htd]
        rw [hBv] at hk0 ⊢
        omega
      · simp only [htd]
        rw [hBv]
        omega

end UnsignedInteger


/-! ### Correctness of the long-division subtraction -/


namespace UnsignedInteger

theorem getD_lt_base {d : Limbs} (h : ∀ z ∈ d, z < Base) (i : ℕ) : d.getD i 0 < Base := by
  by_cases hi : i < d.length
  · rw [List.getD_eq_getElem d 0 hi]
    exact h _ (List.getElem_mem hi)
  · rw [List.getD_eq_default d 0 (by omega)]
    exact Base_pos

theorem performSubGo_cons (pos qhat i : ℕ) (y : ℕ) (ys : List ℕ) (rem : Limbs) (c : ℤ)
    (hy : y < Base) (hr : rem.getD (pos + i) 0 < Base)
    (hclo : -(qhat : ℤ) ≤ c) (hchi : c ≤ 0) :
    ∃ d : ℕ, ∃ c2 : ℤ,
      performSubGo pos qhat i (y :: ys) rem c
          = performSubGo pos qhat (i + 1) ys (rem.set (pos + i) d) c2
        ∧ d < Base
        ∧ ((d : ℤ) + c2 * (Base : ℤ) = c - (qhat : ℤ) * (y : ℤ) + (rem.getD (pos + i) 0 : ℤ))
        ∧ -(qhat : ℤ) ≤ c2 ∧ c2 ≤ 0 := by
  have hstep := carryStep qhat y (rem.getD (pos + i) 0) c hy hr hclo hchi _ rfl _ rfl
  exact ⟨_, _, rfl, hstep.1, hstep.2.1, hstep.2.2.1, hstep.2.2.2⟩

theorem performSubGo_spec (pos qhat : ℕ) :
    ∀ (ys : List ℕ) (i : ℕ) (rem : Limbs) (c : ℤ),
      (∀ z ∈ ys, z < Base) → (∀ z ∈ rem, z < Base) →
      -(qhat : ℤ) ≤ c → c ≤ 0 →
      pos + i + ys.length ≤ rem.length →
      (∀ z ∈ (performSubGo pos qhat i ys rem c).1, z < Base)
        ∧ (performSubGo pos qhat i ys rem c).1.length = rem.length
        ∧ -(qhat : ℤ) ≤ (performSubGo pos qhat i ys rem c).2
        ∧ (performSubGo pos qhat i ys rem c).2 ≤ 0
        ∧ ((valL (performSubGo pos qhat i ys rem c).1 : ℤ)
            = (valL rem : ℤ) - (qhat : ℤ) * (valL ys : ℤ) * (Base : ℤ) ^ (pos + i)
              - (performSubGo pos qhat i ys rem c).2 * (Base : ℤ) ^ (pos + i + ys.length)
              + c * (Base : ℤ) ^ (pos + i))
        ∧ rem.drop (pos + i + ys.length)
            = (performSubGo pos qhat i ys rem c).1.drop (pos + i + ys.length) := by
  intro ys
  induction ys with
  | nil =>
    intro i rem c hys hrem hclo hchi hlen
    rw [show performSubGo pos qhat i [] rem c = (rem, c) from rfl]
    refine ⟨hrem, rfl, hclo, hchi, ?_, rfl⟩
    simp only [valL_nil, List.length_nil, Nat.add_zero]
    push_cast
    ring
  | cons y ys ih =>
    intro i rem c hys hrem hclo hchi hlen
    have hy : y < Base := hys y (by simp)
    have hr : rem.getD (pos + i) 0 < Base := getD_lt_base hrem _
    obtain ⟨d, c2, hunf, hd, hid, hlo2, hhi2⟩ :=
      performSubGo_cons pos qhat i y ys rem c hy hr hclo hchi
    rw [hunf]
    have hilen : pos + i < rem.length := by
      simp only [List.length_cons] at hlen
      omega
    have hrec := ih (i + 1) (rem.set (pos + i) d) c2
      (fun z hz => hys z (by simp [hz]))
      (by
        intro z hz
        rcases List.mem_or_eq_of_mem_set hz with h1 | h1
        · exact hrem z h1
        · omega)
      hlo2 hhi2
      (by
        rw [List.length_set]
        simp only [List.length_cons] at hlen
        omega)
    obtain ⟨hdig', hlen', hlo', hhi', hval', hdrop'⟩ := hrec
    have hsetval := valL_set rem (pos + i) d hilen
    have hsetZ : (valL (rem.set (pos + i) d) : ℤ) + (rem.getD (pos + i) 0 : ℤ) * (Base : ℤ) ^ (pos + i)
        = (valL rem : ℤ) + (d : ℤ) * (Base : ℤ) ^ (pos + i) := by
      exact_mod_cast hsetval
    refine ⟨hdig', by rw [hlen', List.length_set], hlo', hhi', ?_, ?_⟩
    · rw [hval']
      rw [show valL (y :: ys) = y + Base * valL ys from valL_cons y ys]
      have harr1 : pos + (i + 1) = pos + i + 1 := by omega
      have harr2 : pos + (i + 1) + ys.length = pos + i + (y :: ys).length := by
        simp only [List.length_cons]
        omega
      rw [harr2, harr1]
      push_cast
      linear_combination hsetZ + (Base : ℤ) ^ (pos + i) * hid
    · have harr2 : pos + (i + 1) + ys.length = pos + i + (y :: ys).length := by
        simp only [List.length_cons]
        omega
      rw [harr2] at hdrop'
      rw [← hdrop']
      rw [List.drop_set]
      rw [if_pos (by simp only [List.length_cons]; omega)]

theorem valL_take_drop (d : Limbs) (k : ℕ) (hk : k ≤ d.length) :
    valL d = valL (d.take k) + Base ^ k * valL (d.drop k) := by
  conv_lhs => rw [← List.take_append_drop k d]
  rw [valL_append, List.length_take, Nat.min_eq_left hk]

theorem valL_take_lt {d : Limbs} (h : ∀ z ∈ d, z < Base) (k : ℕ) :
    valL (d.take k) < Base ^ k := by
  calc valL (d.take k) < Base ^ (d.take k).length :=
        valL_lt_base_pow fun z hz => h z (List.take_subset k d hz)
    _ ≤ Base ^ k := Nat.pow_le_pow_right Base_pos (by rw [List.length_take]; omega)

theorem getD_eq_drop_head (d : Limbs) (n : ℕ) (hn : n < d.length) :
    d.drop n = d.getD n 0 :: d.drop (n + 1) := by
  rw [List.drop_eq_getElem_cons hn]
  congr 1
  rw [List.getD_eq_getElem d 0 hn]

theorem drop_getD_zero (d : Limbs) (n : ℕ) : (d.drop n).getD 0 0 = d.getD n 0 := by
  by_cases hn : n < d.length
  · rw [getD_eq_drop_head d n hn, List.getD_cons_zero]
  · rw [List.drop_eq_nil_of_le (by omega), List.getD_eq_default d 0 (by omega)]
    rfl

set_option maxHeartbeats 1000000 in
theorem performSubtraction_spec {rem Y : Limbs} (pos qhat : ℕ)
    (hY : ∀ z ∈ Y, z < Base) (hrem : ∀ z ∈ rem, z < Base)
    (hlen : pos + Y.length ≤ rem.length)
    (hqW : qhat < wordMod)
    (hup : valL (rem.drop (pos + Y.length + 1)) = 0)
    (hge : qhat * valL Y * Base ^ pos ≤ valL rem) :
    valL (performSubtraction rem pos Y qhat) = valL rem - qhat * valL Y * Base ^ pos
      ∧ (∀ z ∈ performSubtraction rem pos Y qhat, z < Base)
      ∧ (performSubtraction rem pos Y qhat).length = rem.length := by
  have hBv : Base = 100000000 := rfl
  have hWv : wordMod = 4294967296 := rfl
  have hWZ : ((wordMod : ℕ) : ℤ) = 4294967296 := rfl
  obtain ⟨hdig, hlen1, hclo, hchi, hval, hdrop⟩ :=
    performSubGo_spec pos qhat Y 0 rem 0 hY hrem (by omega) (le_refl 0) (by omega)
  simp only [Nat.add_zero, Nat.zero_add, zero_mul, add_zero] at hval hdrop
  set rc := performSubGo pos qhat 0 Y rem 0 with hrc
  have hPS : performSubtraction rem pos Y qhat
      = if rc.2 ≠ 0 then
          rc.1.set (pos + Y.length)
            ((rc.1.getD (pos + Y.length) 0 + ((rc.2).emod (wordMod : ℤ)).toNat) % wordMod)
        else rc.1 := rfl
  have hM : ((qhat * valL Y * Base ^ pos : ℕ) : ℤ)
      = (qhat : ℤ) * (valL Y : ℤ) * (Base : ℤ) ^ pos := by
    push_cast
    ring
  by_cases hcf : rc.2 = 0
  · rw [hPS, if_neg (by simpa using hcf)]
    refine ⟨?_, hdig, hlen1⟩
    rw [hcf, zero_mul, sub_zero] at hval
    omega
  · have hgeZ : ((qhat * valL Y * Base ^ pos : ℕ) : ℤ) ≤ (valL rem : ℤ) := by
      exact_mod_cast hge
    rw [hM] at hgeZ
    have hP : (0 : ℤ) < (Base : ℤ) ^ (pos + Y.length) :=
      pow_pos (by exact_mod_cast Base_pos) _
    by_cases hEdge : pos + Y.length < rem.length
    · have ht : rc.1.getD (pos + Y.length) 0 = rem.getD (pos + Y.length) 0 := by
        have h1 := congrArg (fun l => List.getD l 0 0) hdrop
        simp only at h1
        rw [drop_getD_zero, drop_getD_zero] at h1
        exact h1.symm
      have hdrop1 : rem.drop (pos + Y.length + 1) = rc.1.drop (pos + Y.length + 1) := by
        have h2 := congrArg (List.drop 1) hdrop
        simp only [List.drop_drop] at h2
        exact h2
      have hdec_rem : valL rem = valL (rem.take (pos + Y.length))
          + Base ^ (pos + Y.length)
            * (rem.getD (pos + Y.length) 0 + Base * valL (rem.drop (pos + Y.length + 1))) := by
        rw [valL_take_drop rem (pos + Y.length) (by omega), getD_eq_drop_head rem _ hEdge,
          valL_cons]
      have hdec_rc : valL rc.1 = valL (rc.1.take (pos + Y.length))
          + Base ^ (pos + Y.length)
            * (rem.getD (pos + Y.length) 0 + Base * valL (rem.drop (pos + Y.length + 1))) := by
        rw [valL_take_drop rc.1 (pos + Y.length) (by omega), getD_eq_drop_head rc.1 _ (by omega),
          ht, hdrop1, valL_cons]
      rw [hup] at hdec_rem hdec_rc
      rw [Nat.mul_zero, Nat.add_zero] at hdec_rem hdec_rc
      have hlowlt : valL (rc.1.take (pos + Y.length)) < Base ^ (pos + Y.length) :=
        valL_take_lt hdig _
      have hlow : (valL (rc.1.take (pos + Y.length)) : ℤ)
          = (valL (rem.take (pos + Y.length)) : ℤ)
            - (qhat : ℤ) * (valL Y : ℤ) * (Base : ℤ) ^ pos
            - rc.2 * (Base : ℤ) ^ (pos + Y.length) := by
      
        have hc1 : (valL rc.1 : ℤ) = (valL (rc.1.take (pos + Y.length)) : ℤ)
            + (Base : ℤ) ^ (pos + Y.length) * (rem.getD (pos + Y.length) 0 : ℤ) := by
          exact_mod_cast hdec_rc
        have hc2 : (valL rem : ℤ) = (valL (rem.take (pos + Y.length)) : ℤ)
            + (Base : ℤ) ^ (pos + Y.length) * (rem.getD (pos + Y.length) 0 : ℤ) := by
          exact_mod_cast hdec_rem
        rw [hc1] at hval
        rw [hc2] at hval
        linear_combination hval
      have hgeZ2 : (qhat : ℤ) * (valL Y : ℤ) * (Base : ℤ) ^ pos
          ≤ (valL (rem.take (pos + Y.length)) : ℤ)
            + (Base : ℤ) ^ (pos + Y.length) * (rem.getD (pos + Y.length) 0 : ℤ) := by
        have hc2 : (valL rem : ℤ) = (valL (rem.take (pos + Y.length)) : ℤ)
            + (Base : ℤ) ^ (pos + Y.length) * (rem.getD (pos + Y.length) 0 : ℤ) := by
          exact_mod_cast hdec_rem
        rw [hc2] at hgeZ
        exact hgeZ
      have hlowltZ : (valL (rc.1.take (pos + Y.length)) : ℤ) < (Base : ℤ) ^ (pos + Y.length) := by
        exact_mod_cast hlowlt
      have hstep1 : -rc.2 * (Base : ℤ) ^ (pos + Y.length)
          < ((rem.getD (pos + Y.length) 0 : ℤ) + 1) * (Base : ℤ) ^ (pos + Y.length) := by
        linarith [hlow, hgeZ2, hlowltZ,
          (by positivity : (0 : ℤ) ≤ (valL (rem.take (pos + Y.length)) : ℤ))]
      have ht1 : -rc.2 < (rem.getD (pos + Y.length) 0 : ℤ) + 1 :=
        lt_of_mul_lt_mul_right hstep1 (le_of_lt hP)
      have hcfge : -rc.2 ≤ (rem.getD (pos + Y.length) 0 : ℤ) := by omega
      rw [hPS, if_pos hcf]
      have hqWZ : (qhat : ℤ) < 4294967296 := by exact_mod_cast (by rw [hWv] at hqW; exact hqW)
      have hemod : (rc.2.emod (wordMod : ℤ)) = rc.2 + (wordMod : ℤ) := by
        rw [int_emod_eq]
        have h1 : (rc.2 + (wordMod : ℤ) * 1) % (wordMod : ℤ) = rc.2 % (wordMod : ℤ) :=
          Int.add_mul_emod_self_left _ _ _
        rw [← h1, mul_one, Int.emod_eq_of_lt (by rw [hWZ]; omega)
          (by rw [hWZ]; omega)]
      have htB : rem.getD (pos + Y.length) 0 < Base := getD_lt_base hrem _
      have hfZ : ((-rc.2).toNat : ℤ) = -rc.2 := Int.toNat_of_nonneg (by omega)
      have hemodN : (rc.2.emod (wordMod : ℤ)).toNat = wordMod - (-rc.2).toNat := by
        rw [hemod]
        omega
      have hft : (-rc.2).toNat ≤ rem.getD (pos + Y.length) 0 := by omega
      have htB : rem.getD (pos + Y.length) 0 < Base := getD_lt_base hrem _
      have hnd : (rc.1.getD (pos + Y.length) 0 + (rc.2.emod (wordMod : ℤ)).toNat) % wordMod
          = rem.getD (pos + Y.length) 0 - (-rc.2).toNat := by
        rw [ht, hemodN]
        rw [hBv] at htB
        rw [hWv]
        rw [hWv] at hqW
        omega
      rw [hnd]
      have hsv := valL_set rc.1 (pos + Y.length)
        (rem.getD (pos + Y.length) 0 - (-rc.2).toNat) (by omega)
      rw [ht] at hsv
      refine ⟨?_, ?_, ?_⟩
      · have hsvZ : (valL (rc.1.set (pos + Y.length)
              (rem.getD (pos + Y.length) 0 - (-rc.2).toNat)) : ℤ)
            + (rem.getD (pos + Y.length) 0 : ℤ) * (Base : ℤ) ^ (pos + Y.length)
            = (valL rc.1 : ℤ)
              + ((rem.getD (pos + Y.length) 0 - (-rc.2).toNat : ℕ) : ℤ)
                * (Base : ℤ) ^ (pos + Y.length) := by
          exact_mod_cast hsv
        have hcsub : ((rem.getD (pos + Y.length) 0 - (-rc.2).toNat : ℕ) : ℤ)
            = (rem.getD (pos + Y.length) 0 : ℤ) - ((-rc.2).toNat : ℤ) := by
          omega
        rw [hcsub] at hsvZ
        have hfP : ((-rc.2).toNat : ℤ) * (Base : ℤ) ^ (pos + Y.length)
            = -rc.2 * (Base : ℤ) ^ (pos + Y.length) := by
          rw [hfZ]
        have hAZ : (valL (rc.1.set (pos + Y.length)
              (rem.getD (pos + Y.length) 0 - (-rc.2).toNat)) : ℤ)
            = (valL rem : ℤ) - (qhat : ℤ) * (valL Y : ℤ) * (Base : ℤ) ^ pos := by
          linear_combination hsvZ + hval - hfP
        rw [← hM] at hAZ
        omega
      · intro z hz
        rcases List.mem_or_eq_of_mem_set hz with h1 | h1
        · exact hdig z h1
        · omega
      · rw [List.length_set, hlen1]
    · exfalso
      have hlt : valL rc.1 < Base ^ (pos + Y.length) := by
        calc valL rc.1 < Base ^ rc.1.length := valL_lt_base_pow hdig
          _ ≤ Base ^ (pos + Y.length) := Nat.pow_le_pow_right Base_pos (by omega)
      have hltZ : (valL rc.1 : ℤ) < (Base : ℤ) ^ (pos + Y.length) := by exact_mod_cast hlt
      have hremZ : (0 : ℤ) ≤ (valL rem : ℤ) := by positivity
      have hstep1 : -rc.2 * (Base : ℤ) ^ (pos + Y.length)
          < 1 * (Base : ℤ) ^ (pos + Y.length) := by
        linarith [hval, hgeZ, hltZ, hremZ]
      have hlt1 : -rc.2 < 1 := lt_of_mul_lt_mul_right hstep1 (le_of_lt hP)
      omega

end UnsignedInteger


/-! ### The three-limb estimates of the long division -/


namespace UnsignedInteger

theorem valL_take_drop_any (d : Limbs) (k : ℕ) :
    valL d = valL (d.take k) + Base ^ k * valL (d.drop k) := by
  by_cases hk : k ≤ d.length
  · exact valL_take_drop d k hk
  · rw [List.take_of_length_le (by omega), List.drop_eq_nil_of_le (by omega), valL_nil,
      Nat.mul_zero, Nat.add_zero]

theorem valL_drop_succ (d : Limbs) (n : ℕ) :
    valL (d.drop n) = d.getD n 0 + Base * valL (d.drop (n + 1)) := by
  by_cases hn : n < d.length
  · rw [getD_eq_drop_head d n hn, valL_cons]
  · rw [List.drop_eq_nil_of_le (by omega), List.drop_eq_nil_of_le (by omega),
      List.getD_eq_default d 0 (by omega), valL_nil]
    simp

theorem est_eq (d : Limbs) (h : ℕ) :
    getEstimatedValue d h d.length
      = 10 * Base * d.getD (h + 1) 0 + 10 * d.getD h 0
        + (if h ≠ 0 then d.getD (h - 1) 0 else 0) / (Base / 10) := by
  rw [getEstimatedValue]
  by_cases hc : h + 1 < d.length
  · rw [if_pos hc]
  · have hgd : d.getD (h + 1) 0 = 0 := List.getD_eq_default d 0 (by omega)
    rw [if_neg hc, hgd]

theorem est_den_upper {d : Limbs} (hd : ∀ z ∈ d, z < Base) (hne : d ≠ []) :
    10 * valL d ≤ (getEstimatedValue d (d.length - 1) d.length + 1) * Base ^ (d.length - 1) := by
  have hBv : Base = 100000000 := rfl
  have hlen : 1 ≤ d.length := List.length_pos.mpr hne
  by_cases hm : d.length = 1
  · obtain ⟨y, hy⟩ := List.length_eq_one.mp hm
    subst hy
    have h1 : List.length [y] = 1 := rfl
    rw [h1]
    have hest : getEstimatedValue [y] (1 - 1) 1 = 10 * y := by
      simp [getEstimatedValue]
    rw [hest, show (1 : ℕ) - 1 = 0 from rfl]
    simp only [valL_cons, valL_nil, Nat.mul_zero, Nat.add_zero, pow_zero, Nat.mul_one]
    omega
  · have hm2 : 2 ≤ d.length := by omega
    rw [est_eq]
    have he1 : d.getD (d.length - 1 + 1) 0 = 0 :=
      List.getD_eq_default d 0 (by omega)
    rw [he1, Nat.mul_zero, Nat.zero_add, if_pos (by omega)]
    have hdec := valL_take_drop_any d (d.length - 2)
    rw [valL_drop_succ d (d.length - 2), valL_drop_succ d (d.length - 2 + 1),
      List.drop_eq_nil_of_le (show d.length ≤ d.length - 2 + 1 + 1 by omega), valL_nil] at hdec
    have harr1 : d.length - 2 + 1 = d.length - 1 := by omega
    have harr2 : d.length - 1 - 1 = d.length - 2 := by omega
    rw [harr1] at hdec
    rw [harr2]
    have hlow : valL (d.take (d.length - 2)) < Base ^ (d.length - 2) := valL_take_lt hd _
    set y2 := d.getD (d.length - 2) 0 with hy2
    set y1 := d.getD (d.length - 1) 0 with hy1
    set P := Base ^ (d.length - 2) with hP
    have hpow : Base ^ (d.length - 1) = P * Base := by
      rw [hP, ← pow_succ]
      congr 1
      omega
    rw [hpow, hdec]
    have hkey : 10 * y2 + 10 ≤ (y2 / (Base / 10) + 1) * Base := by
      rw [hBv] at *
      omega
    have hkeyP : (10 * y2 + 10) * P ≤ ((y2 / (Base / 10) + 1) * Base) * P :=
      Nat.mul_le_mul_right P hkey
    have hlowP : 10 * valL (d.take (d.length - 2)) + 10 ≤ 10 * P := by omega
    ring_nf
    ring_nf at hkeyP hlowP
    linarith [hkeyP, hlowP]

theorem est_num_lower (d : Limbs) (h : ℕ) :
    getEstimatedValue d h d.length * Base ^ h ≤ 10 * valL d := by
  have hBv : Base = 100000000 := rfl
  rw [est_eq]
  by_cases h0 : h = 0
  · subst h0
    rw [if_neg (by omega), Nat.zero_div, Nat.add_zero, pow_zero, Nat.mul_one]
    have hdec := valL_take_drop_any d 0
    rw [valL_drop_succ d 0, valL_drop_succ d 1] at hdec
    rw [show d.take 0 = [] from rfl, valL_nil, pow_zero, one_mul, Nat.zero_add] at hdec
    rw [show (1 : ℕ) + 1 = 2 from rfl] at hdec
    simp only [Nat.zero_add]
    rw [hdec]
    have expand2 : 10 * (d.getD 0 0 + Base * (d.getD 1 0 + Base * valL (d.drop 2)))
        = 10 * d.getD 0 0 + 10 * (Base * d.getD 1 0) + 10 * (Base ^ 2 * valL (d.drop 2)) := by
      ring
    have expand1 : 10 * Base * d.getD 1 0 + 10 * d.getD 0 0
        = 10 * (Base * d.getD 1 0) + 10 * d.getD 0 0 := by
      ring
    rw [expand1, expand2]
    omega
  · rw [if_pos h0]
    set P := Base ^ (h - 1) with hP
    have hpow1 : Base ^ h = P * Base := by
      rw [hP, ← pow_succ]
      congr 1
      omega
    have hdec := valL_take_drop_any d (h - 1)
    rw [valL_drop_succ d (h - 1), valL_drop_succ d (h - 1 + 1),
      valL_drop_succ d (h - 1 + 1 + 1)] at hdec
    have ha1 : h - 1 + 1 = h := by omega
    have ha2 : h - 1 + 1 + 1 = h + 1 := by omega
    rw [ha2, ha1] at hdec
    rw [← hP] at hdec
    have hkey3 : d.getD (h - 1) 0 / (Base / 10) * Base ≤ 10 * d.getD (h - 1) 0 := by
      rw [hBv]
      omega
    rw [hdec, hpow1]
    have expand1 : (10 * Base * d.getD (h + 1) 0 + 10 * d.getD h 0
          + d.getD (h - 1) 0 / (Base / 10)) * (P * Base)
        = 10 * (Base ^ 2 * P * d.getD (h + 1) 0) + 10 * (Base * P * d.getD h 0)
          + (d.getD (h - 1) 0 / (Base / 10) * Base) * P := by
      ring
    have expand2 : 10 * (valL (d.take (h - 1))
          + P * (d.getD (h - 1) 0 + Base * (d.getD h 0
            + Base * (d.getD (h + 1) 0 + Base * valL (d.drop (h + 1 + 1))))))
        = 10 * valL (d.take (h - 1)) + 10 * (P * d.getD (h - 1) 0)
          + 10 * (Base * P * d.getD h 0) + 10 * (Base ^ 2 * P * d.getD (h + 1) 0)
          + 10 * (Base ^ 3 * P * valL (d.drop (h + 1 + 1))) := by
      ring
    rw [expand1, expand2]
    have h3 : (d.getD (h - 1) 0 / (Base / 10) * Base) * P ≤ (10 * d.getD (h - 1) 0) * P :=
      Nat.mul_le_mul_right P hkey3
    have h4 : (10 * d.getD (h - 1) 0) * P = 10 * (P * d.getD (h - 1) 0) := by
      ring
    rw [h4] at h3
    omega

theorem est_num_upper2 {d : Limbs} (hd : ∀ z ∈ d, z < Base) (h : ℕ)
    (hub : valL d < Base ^ (h + 2)) :
    10 * valL d < (getEstimatedValue d h d.length + 1) * Base ^ h := by
  have hBv : Base = 100000000 := rfl
  have h1 := valL_take_drop_any d (h + 2)
  have hXz : valL (d.drop (h + 2)) = 0 := by
    by_contra hc
    have h2 : 1 ≤ valL (d.drop (h + 2)) := by omega
    have h3 : Base ^ (h + 2) * 1 ≤ Base ^ (h + 2) * valL (d.drop (h + 2)) :=
      Nat.mul_le_mul_left _ h2
    omega
  rw [est_eq]
  by_cases h0 : h = 0
  · subst h0
    rw [if_neg (by omega), Nat.zero_div, Nat.add_zero, pow_zero, Nat.mul_one]
    have hdec := valL_take_drop_any d 0
    rw [valL_drop_succ d 0, valL_drop_succ d 1] at hdec
    rw [show d.take 0 = [] from rfl, valL_nil, pow_zero, one_mul, Nat.zero_add] at hdec
    rw [show (1 : ℕ) + 1 = 0 + 2 from rfl] at hdec
    rw [hXz, Nat.mul_zero, Nat.add_zero] at hdec
    simp only [Nat.zero_add]
    rw [hdec]
    have expand1 : 10 * (d.getD 0 0 + Base * d.getD 1 0)
        = 10 * d.getD 0 0 + 10 * (Base * d.getD 1 0) := by
      ring
    have expand2 : 10 * Base * d.getD 1 0 + 10 * d.getD 0 0 + 1
        = 10 * (Base * d.getD 1 0) + 10 * d.getD 0 0 + 1 := by
      ring
    rw [expand1, expand2]
    omega
  · rw [if_pos h0]
    set P := Base ^ (h - 1) with hP
    have hpow1 : Base ^ h = P * Base := by
      rw [hP, ← pow_succ]
      congr 1
      omega
    have hdec := valL_take_drop_any d (h - 1)
    rw [valL_drop_succ d (h - 1), valL_drop_succ d (h - 1 + 1),
      valL_drop_succ d (h - 1 + 1 + 1)] at hdec
    have ha1 : h - 1 + 1 = h := by omega
    have ha2 : h - 1 + 1 + 1 = h + 1 := by omega
    rw [ha2, ha1] at hdec
    rw [show h + 1 + 1 = h + 2 from rfl, hXz, Nat.mul_zero, Nat.add_zero, ← hP] at hdec
    have hlow : valL (d.take (h - 1)) < P := valL_take_lt hd _
    have hkey : 10 * d.getD (h - 1) 0 + 10
        ≤ (d.getD (h - 1) 0 / (Base / 10) + 1) * Base := by
      rw [hBv]
      omega
    rw [hdec, hpow1]
    have expand1 : 10 * (valL (d.take (h - 1))
          + P * (d.getD (h - 1) 0 + Base * (d.getD h 0 + Base * d.getD (h + 1) 0)))
        = 10 * valL (d.take (h - 1)) + 10 * (P * d.getD (h - 1) 0)
          + 10 * (Base * P * d.getD h 0) + 10 * (Base ^ 2 * P * d.getD (h + 1) 0) := by
      ring
    have expand2 : (10 * Base * d.getD (h + 1) 0 + 10 * d.getD h 0
          + d.getD (h - 1) 0 / (Base / 10) + 1) * (P * Base)
        = 10 * (Base ^ 2 * P * d.getD (h + 1) 0) + 10 * (Base * P * d.getD h 0)
          + (d.getD (h - 1) 0 / (Base / 10) + 1) * Base * P := by
      ring
    rw [expand1, expand2]
    have h3 : (10 * d.getD (h - 1) 0 + 10) * P
        ≤ ((d.getD (h - 1) 0 / (Base / 10) + 1) * Base) * P :=
      Nat.mul_le_mul_right P hkey
    have h4 : (10 * d.getD (h - 1) 0 + 10) * P
        = 10 * (P * d.getD (h - 1) 0) + 10 * P := by
      ring
    have h5 : ((d.getD (h - 1) 0 / (Base / 10) + 1) * Base) * P
        = (d.getD (h - 1) 0 / (Base / 10) + 1) * Base * P := by
      ring
    rw [h4, h5] at h3
    omega

end UnsignedInteger


/-! ### The final window comparison of the long division -/


namespace UnsignedInteger

theorem window_sum_lt {g : ℕ → ℕ} (hg : ∀ j, g j < Base) :
    ∀ d, (∑ j ∈ Finset.range d, g j * Base ^ j) < Base ^ d := by
  intro d
  induction d with
  | zero => simp [Base_pos]
  | succ k ih =>
    rw [Finset.sum_range_succ]
    have h2 : (g k + 1) * Base ^ k ≤ Base * Base ^ k :=
      Nat.mul_le_mul_right _ (hg k)
    have h3 : (g k + 1) * Base ^ k = g k * Base ^ k + Base ^ k := by ring
    have h4 : Base * Base ^ k = Base ^ (k + 1) := by rw [← pow_succ']
    omega

theorem windowCompareGo_correct {rem Y : Limbs} (pos : ℕ)
    (hrem : ∀ z ∈ rem, z < Base) (hY : ∀ z ∈ Y, z < Base) :
    ∀ d, (windowCompareGo rem pos Y d = true
      ↔ (∑ j ∈ Finset.range d, Y.getD j 0 * Base ^ j)
        ≤ ∑ j ∈ Finset.range d, rem.getD (pos + j) 0 * Base ^ j) := by
  intro d
  induction d with
  | zero => simp [windowCompareGo]
  | succ k ih =>
    rw [windowCompareGo, Finset.sum_range_succ, Finset.sum_range_succ]
    by_cases hne : rem.getD (pos + k) 0 = Y.getD k 0
    · rw [if_neg (not_not_intro hne), ih, hne]
      omega
    · rw [if_pos hne]
      simp only [decide_eq_true_eq]
      have h1 : (∑ j ∈ Finset.range k, Y.getD j 0 * Base ^ j) < Base ^ k :=
        window_sum_lt (fun j => getD_lt_base hY j) k
      have h2 : (∑ j ∈ Finset.range k, rem.getD (pos + j) 0 * Base ^ j) < Base ^ k :=
        window_sum_lt (fun j => getD_lt_base hrem (pos + j)) k
      constructor
      · intro h
        have h3 : (Y.getD k 0 + 1) * Base ^ k ≤ rem.getD (pos + k) 0 * Base ^ k :=
          Nat.mul_le_mul_right _ (by omega)
        have h4 : (Y.getD k 0 + 1) * Base ^ k = Y.getD k 0 * Base ^ k + Base ^ k := by ring
        omega
      · intro h
        by_contra hc
        have hlt : rem.getD (pos + k) 0 < Y.getD k 0 := by omega
        have h3 : (rem.getD (pos + k) 0 + 1) * Base ^ k ≤ Y.getD k 0 * Base ^ k :=
          Nat.mul_le_mul_right _ (by omega)
        have h4 : (rem.getD (pos + k) 0 + 1) * Base ^ k
            = rem.getD (pos + k) 0 * Base ^ k + Base ^ k := by ring
        omega

theorem valL_drop_window (d : Limbs) (pos : ℕ) :
    ∀ m, valL (d.drop pos) = (∑ j ∈ Finset.range m, d.getD (pos + j) 0 * Base ^ j)
      + Base ^ m * valL (d.drop (pos + m)) := by
  intro m
  induction m with
  | zero => simp
  | succ k ih =>
    rw [ih, Finset.sum_range_succ, valL_drop_succ d (pos + k),
      show pos + (k + 1) = pos + k + 1 from rfl]
    ring

theorem upper_digit_zero {d : Limbs} {k : ℕ} (h : valL d < Base ^ k) :
    ∀ j, k ≤ j → d.getD j 0 = 0 := by
  intro j hj
  have h1 := @valL_le_of_getD d j
  by_contra hc
  have h2 : 1 ≤ d.getD j 0 := by omega
  have h3 : Base ^ k ≤ Base ^ j := Nat.pow_le_pow_right Base_pos hj
  have h4 : Base ^ j * 1 ≤ Base ^ j * d.getD j 0 := Nat.mul_le_mul_left _ h2
  have h5 : Base ^ j * d.getD j 0 = d.getD j 0 * Base ^ j := by ring
  omega

end UnsignedInteger


/-! ### The estimation loop of the long division -/


namespace UnsignedInteger

theorem innerLoop_spec {Y : Limbs} (pos n : ℕ)
    (hYdig : ∀ z ∈ Y, z < Base) (hYne : Y ≠ []) (hV1 : 1 ≤ valL Y) :
    ∀ (fuel : ℕ) (rem : Limbs) (qd : ℕ),
      (∀ z ∈ rem, z < Base) → rem.length = n → pos + Y.length ≤ n →
      valL rem + qd * valL Y * Base ^ pos < valL Y * Base ^ (pos + 1) →
      valL rem < fuel →
      (∀ z ∈ (innerLoop Y pos n fuel rem qd).1, z < Base)
        ∧ (innerLoop Y pos n fuel rem qd).1.length = n
        ∧ valL (innerLoop Y pos n fuel rem qd).1
            + (innerLoop Y pos n fuel rem qd).2 * valL Y * Base ^ pos
          = valL rem + qd * valL Y * Base ^ pos
        ∧ getEstimatedValue (innerLoop Y pos n fuel rem qd).1 (pos + Y.length - 1) n
          ≤ getEstimatedValue Y (Y.length - 1) Y.length := by
  intro fuel
  induction fuel with
  | zero =>
    intro rem qd _ _ _ _ hfuel
    omega
  | succ fuel ih =>
    intro rem qd hdig hn hlen hinv hfuel
    have hm1 : 1 ≤ Y.length := List.length_pos.mpr hYne
    have hunf : innerLoop Y pos n (fuel + 1) rem qd
        = if (getEstimatedValue rem (pos + Y.length - 1) n /
              (getEstimatedValue Y (Y.length - 1) Y.length + 1)) % wordMod = 0
          then (rem, qd)
          else innerLoop Y pos n fuel
            (performSubtraction rem pos Y
              ((getEstimatedValue rem (pos + Y.length - 1) n /
                (getEstimatedValue Y (Y.length - 1) Y.length + 1)) % wordMod))
            ((qd + (getEstimatedValue rem (pos + Y.length - 1) n /
                (getEstimatedValue Y (Y.length - 1) Y.length + 1)) % wordMod) % wordMod) := rfl
    have hN : valL rem < valL Y * Base ^ (pos + 1) := by omega
    have hVB1 : 1 ≤ valL Y * Base ^ pos := by
      have := pow_pos Base_pos pos
      exact Nat.mul_pos hV1 this
    -- the three estimate facts
    have h1 : (getEstimatedValue rem (pos + Y.length - 1) n /
          (getEstimatedValue Y (Y.length - 1) Y.length + 1))
        * (getEstimatedValue Y (Y.length - 1) Y.length + 1)
        ≤ getEstimatedValue rem (pos + Y.length - 1) n :=
      Nat.div_mul_le_self _ _
    have h2 : 10 * valL Y
        ≤ (getEstimatedValue Y (Y.length - 1) Y.length + 1) * Base ^ (Y.length - 1) :=
      est_den_upper hYdig hYne
    have h3 : getEstimatedValue rem (pos + Y.length - 1) n * Base ^ (pos + Y.length - 1)
        ≤ 10 * valL rem := by
      have := est_num_lower rem (pos + Y.length - 1)
      rwa [hn] at this
    have hqle : (getEstimatedValue rem (pos + Y.length - 1) n /
          (getEstimatedValue Y (Y.length - 1) Y.length + 1)) * (valL Y * Base ^ pos)
        ≤ valL rem := by
      set qraw := getEstimatedValue rem (pos + Y.length - 1) n /
        (getEstimatedValue Y (Y.length - 1) Y.length + 1) with hqraw
      set eN := getEstimatedValue rem (pos + Y.length - 1) n with heN
      set eY := getEstimatedValue Y (Y.length - 1) Y.length with heY
      have e2 : (10 * valL Y) * Base ^ pos ≤ ((eY + 1) * Base ^ (Y.length - 1)) * Base ^ pos :=
        Nat.mul_le_mul_right _ h2
      have e2q : qraw * ((10 * valL Y) * Base ^ pos)
          ≤ qraw * (((eY + 1) * Base ^ (Y.length - 1)) * Base ^ pos) :=
        Nat.mul_le_mul_left _ e2
      have e1 : qraw * (eY + 1) * (Base ^ (Y.length - 1) * Base ^ pos)
          ≤ eN * (Base ^ (Y.length - 1) * Base ^ pos) :=
        Nat.mul_le_mul_right _ h1
      have e3 : eN * Base ^ (pos + Y.length - 1)
          = eN * (Base ^ (Y.length - 1) * Base ^ pos) := by
        have harr : pos + Y.length - 1 = Y.length - 1 + pos := by omega
        rw [harr, pow_add]
      have hchain : 10 * (qraw * (valL Y * Base ^ pos)) ≤ 10 * valL rem := by
        calc 10 * (qraw * (valL Y * Base ^ pos))
            = qraw * ((10 * valL Y) * Base ^ pos) := by ring
          _ ≤ qraw * (((eY + 1) * Base ^ (Y.length - 1)) * Base ^ pos) := e2q
          _ = qraw * (eY + 1) * (Base ^ (Y.length - 1) * Base ^ pos) := by ring
          _ ≤ eN * (Base ^ (Y.length - 1) * Base ^ pos) := e1
          _ = eN * Base ^ (pos + Y.length - 1) := e3.symm
          _ ≤ 10 * valL rem := h3
      omega
    have hqrawB : (getEstimatedValue rem (pos + Y.length - 1) n /
          (getEstimatedValue Y (Y.length - 1) Y.length + 1)) < Base := by
      by_contra hc
      push_neg at hc
      have hc2 : Base * (valL Y * Base ^ pos)
          ≤ (getEstimatedValue rem (pos + Y.length - 1) n /
              (getEstimatedValue Y (Y.length - 1) Y.length + 1)) * (valL Y * Base ^ pos) :=
        Nat.mul_le_mul_right _ hc
      have hc3 : valL Y * Base ^ (pos + 1) = Base * (valL Y * Base ^ pos) := by
        rw [pow_succ]
        ring
      omega
    have hBW : Base < wordMod := by decide
    have hmod : (getEstimatedValue rem (pos + Y.length - 1) n /
          (getEstimatedValue Y (Y.length - 1) Y.length + 1)) % wordMod
        = getEstimatedValue rem (pos + Y.length - 1) n /
          (getEstimatedValue Y (Y.length - 1) Y.length + 1) :=
      Nat.mod_eq_of_lt (by omega)
    rw [hmod] at hunf
    by_cases hq0 : (getEstimatedValue rem (pos + Y.length - 1) n /
        (getEstimatedValue Y (Y.length - 1) Y.length + 1)) = 0
    · rw [hunf, if_pos hq0]
      refine ⟨hdig, hn, rfl, ?_⟩
      show getEstimatedValue rem (pos + Y.length - 1) n
        ≤ getEstimatedValue Y (Y.length - 1) Y.length
      by_contra hc
      push_neg at hc
      have : 1 ≤ getEstimatedValue rem (pos + Y.length - 1) n /
          (getEstimatedValue Y (Y.length - 1) Y.length + 1) :=
        (Nat.one_le_div_iff (by omega)).mpr (by omega)
      omega
    · rw [hunf, if_neg hq0]
      set qh := getEstimatedValue rem (pos + Y.length - 1) n /
        (getEstimatedValue Y (Y.length - 1) Y.length + 1) with hqh
      have hq1 : 1 ≤ qh := by omega
      have hup : valL (rem.drop (pos + Y.length + 1)) = 0 := by
        have hVm : valL Y < Base ^ Y.length := valL_lt_base_pow hYdig
        have hNb : valL rem < Base ^ (pos + Y.length + 1) := by
          have hc3 : valL Y * Base ^ (pos + 1) ≤ Base ^ Y.length * Base ^ (pos + 1) := by
            have := Nat.mul_le_mul_right (Base ^ (pos + 1)) (le_of_lt hVm)
            omega
          have hc4 : Base ^ Y.length * Base ^ (pos + 1) = Base ^ (pos + Y.length + 1) := by
            rw [← pow_add]
            congr 1
            omega
          omega
        have hdec := valL_take_drop_any rem (pos + Y.length + 1)
        by_contra hc
        have h2 : 1 ≤ valL (rem.drop (pos + Y.length + 1)) := by omega
        have h3 : Base ^ (pos + Y.length + 1) * 1
            ≤ Base ^ (pos + Y.length + 1) * valL (rem.drop (pos + Y.length + 1)) :=
          Nat.mul_le_mul_left _ h2
        omega
      have hgeq : qh * valL Y * Base ^ pos ≤ valL rem := by
        have : qh * (valL Y * Base ^ pos) = qh * valL Y * Base ^ pos := by ring
        omega
      obtain ⟨hsv, hsd, hsl⟩ := performSubtraction_spec pos qh hYdig hdig
        (by omega) (by omega) hup hgeq
      have hqd2 : (qd + qh) % wordMod = qd + qh := by
        apply Nat.mod_eq_of_lt
        have hsum : (qd + qh) * (valL Y * Base ^ pos)
            ≤ qd * (valL Y * Base ^ pos) + valL rem := by
          have hexp : (qd + qh) * (valL Y * Base ^ pos)
              = qd * (valL Y * Base ^ pos) + qh * (valL Y * Base ^ pos) := by ring
          omega
        have hqdB : qd + qh < Base := by
          by_contra hc
          push_neg at hc
          have hc2 : Base * (valL Y * Base ^ pos) ≤ (qd + qh) * (valL Y * Base ^ pos) :=
            Nat.mul_le_mul_right _ hc
          have hc3 : valL Y * Base ^ (pos + 1) = Base * (valL Y * Base ^ pos) := by
            rw [pow_succ]
            ring
          have hinv2 : qd * (valL Y * Base ^ pos) = qd * valL Y * Base ^ pos := by ring
          omega
        omega
      rw [hqd2]
      have hrec := ih (performSubtraction rem pos Y qh) (qd + qh) hsd (by omega)
        hlen
        (by
          rw [hsv]
          have hexp : (qd + qh) * valL Y * Base ^ pos
              = qd * valL Y * Base ^ pos + qh * valL Y * Base ^ pos := by ring
          omega)
        (by
          rw [hsv]
          have hq1' : valL Y * Base ^ pos ≤ qh * valL Y * Base ^ pos := by
            have := Nat.mul_le_mul_right (valL Y * Base ^ pos) hq1
            have hexp : qh * (valL Y * Base ^ pos) = qh * valL Y * Base ^ pos := by ring
            omega
          omega)
      obtain ⟨ha, hb, hc, hd⟩ := hrec
      refine ⟨ha, hb, ?_, hd⟩
      rw [hc, hsv]
      have hexp : (qd + qh) * valL Y * Base ^ pos
          = qd * valL Y * Base ^ pos + qh * valL Y * Base ^ pos := by ring
      omega

end UnsignedInteger


/-! ### One quotient position of the long division -/


namespace UnsignedInteger

theorem est_den_small {Y : Limbs} (hYdig : ∀ z ∈ Y, z < Base) :
    getEstimatedValue Y (Y.length - 1) Y.length < 10 * Base := by
  rw [est_eq]
  have h1 : Y.getD (Y.length - 1 + 1) 0 = 0 := List.getD_eq_default _ _ (by omega)
  rw [h1, Nat.mul_zero, Nat.zero_add]
  have h2 : Y.getD (Y.length - 1) 0 < Base := getD_lt_base hYdig _
  have h3 : (if Y.length - 1 ≠ 0 then Y.getD (Y.length - 1 - 1) 0 else 0) < Base := by
    split_ifs
    · exact getD_lt_base hYdig _
    · exact Base_pos
  have hBv : Base = 100000000 := rfl
  rw [hBv] at h2 h3 ⊢
  omega

theorem positionStep_spec {Y : Limbs} (pos n : ℕ)
    (hYdig : ∀ z ∈ Y, z < Base) (hYne : Y ≠ []) (hYc : Canonical Y) (hV1 : 1 ≤ valL Y)
    (rem quot : Limbs)
    (hdig : ∀ z ∈ rem, z < Base) (hn : rem.length = n) (hlen : pos + Y.length ≤ n)
    (hbound : valL rem < valL Y * Base ^ (pos + 1)) :
    ∃ q1 : ℕ,
      (positionStep Y n pos rem quot).2 = quot.set pos q1 ∧ q1 < Base
        ∧ valL (positionStep Y n pos rem quot).1 + q1 * valL Y * Base ^ pos = valL rem
        ∧ valL (positionStep Y n pos rem quot).1 < valL Y * Base ^ pos
        ∧ (∀ z ∈ (positionStep Y n pos rem quot).1, z < Base)
        ∧ (positionStep Y n pos rem quot).1.length = n := by
  have hm1 : 1 ≤ Y.length := List.length_pos.mpr hYne
  have hBm1V : Base ^ (Y.length - 1) ≤ valL Y := by
    by_cases h : 1 < Y.length
    · exact canonical_val_lower ⟨hYne, hYdig⟩ hYc h
    · have h2 : Y.length = 1 := by omega
      rw [h2]
      simpa using hV1
  set rq := innerLoop Y pos n (valL rem + 1) rem 0 with hrq
  have hunf : positionStep Y n pos rem quot
      = (if windowCompareGo rq.1 pos Y Y.length then performSubtraction rq.1 pos Y 1 else rq.1,
         quot.set pos
           (if windowCompareGo rq.1 pos Y Y.length then (rq.2 + 1) % wordMod else rq.2)) := rfl
  obtain ⟨hd1, hl1, hv1, hest⟩ := innerLoop_spec pos n hYdig hYne hV1 (valL rem + 1) rem 0
    hdig hn hlen (by simpa using hbound) (Nat.lt_succ_self _)
  rw [← hrq] at hd1 hl1 hv1 hest
  simp only [Nat.zero_mul, Nat.add_zero] at hv1
  have hR1le : valL rq.1 ≤ valL rem := by omega
  have hVBpos : 1 ≤ valL Y * Base ^ pos := Nat.mul_pos hV1 (pow_pos Base_pos pos)
  have hq2B : rq.2 < Base := by
    by_contra hc
    push_neg at hc
    have hc2 : Base * (valL Y * Base ^ pos) ≤ rq.2 * (valL Y * Base ^ pos) :=
      Nat.mul_le_mul_right _ hc
    have hc3 : valL Y * Base ^ (pos + 1) = Base * (valL Y * Base ^ pos) := by
      rw [pow_succ]
      ring
    have hc4 : rq.2 * (valL Y * Base ^ pos) = rq.2 * valL Y * Base ^ pos := by ring
    omega
  -- remainder upper bound from the estimate exit
  have hRub : valL rq.1 < Base ^ (pos + Y.length + 1) := by
    have hVm : valL Y < Base ^ Y.length := valL_lt_base_pow hYdig
    have hc3 : valL Y * Base ^ (pos + 1) ≤ Base ^ Y.length * Base ^ (pos + 1) := by
      have := Nat.mul_le_mul_right (Base ^ (pos + 1)) (le_of_lt hVm)
      omega
    have hc4 : Base ^ Y.length * Base ^ (pos + 1) = Base ^ (pos + Y.length + 1) := by
      rw [← pow_add]
      congr 1
      omega
    omega
  have hXz : valL (rq.1.drop (pos + Y.length + 1)) = 0 := by
    have hdec := valL_take_drop_any rq.1 (pos + Y.length + 1)
    by_contra hc
    have h2 : 1 ≤ valL (rq.1.drop (pos + Y.length + 1)) := by omega
    have h3 : Base ^ (pos + Y.length + 1) * 1
        ≤ Base ^ (pos + Y.length + 1) * valL (rq.1.drop (pos + Y.length + 1)) :=
      Nat.mul_le_mul_left _ h2
    omega
  have htop : rq.1.getD (pos + Y.length) 0 = 0 := by
    by_contra hc
    have hc1 : 1 ≤ rq.1.getD (pos + Y.length) 0 := by omega
    have heq := est_eq rq.1 (pos + Y.length - 1)
    rw [hl1] at heq
    have harr : pos + Y.length - 1 + 1 = pos + Y.length := by omega
    rw [harr] at heq
    have hC : 10 * Base * rq.1.getD (pos + Y.length) 0
        ≤ getEstimatedValue rq.1 (pos + Y.length - 1) n := by
      rw [heq]
      exact le_trans (Nat.le_add_right _ _) (Nat.le_add_right _ _)
    have hge10B : 10 * Base ≤ 10 * Base * rq.1.getD (pos + Y.length) 0 := by
      calc 10 * Base = 10 * Base * 1 := by ring
        _ ≤ 10 * Base * rq.1.getD (pos + Y.length) 0 := Nat.mul_le_mul_left _ hc1
    have hsmall := est_den_small hYdig
    omega
  have hWz : valL (rq.1.drop (pos + Y.length)) = 0 := by
    rw [valL_drop_succ rq.1 (pos + Y.length), htop, Nat.zero_add, hXz, Nat.mul_zero]
  have hR1lt : valL rq.1 < Base ^ (pos + Y.length) := by
    have hdec := valL_take_drop_any rq.1 (pos + Y.length)
    rw [hWz, Nat.mul_zero, Nat.add_zero] at hdec
    rw [hdec]
    exact valL_take_lt hd1 _
  -- remainder < 2 Y B^pos
  have hR2 : valL rq.1 * 10 < valL Y * Base ^ pos * 20 := by
    have hu2 := est_num_upper2 hd1 (pos + Y.length - 1)
      (by
        have harr : pos + Y.length - 1 + 2 = pos + Y.length + 1 := by omega
        rw [harr]
        exact hRub)
    have hYlow := est_num_lower Y (Y.length - 1)
    have hestm : (getEstimatedValue rq.1 (pos + Y.length - 1) rq.1.length + 1)
          * Base ^ (pos + Y.length - 1)
        ≤ (getEstimatedValue Y (Y.length - 1) Y.length + 1) * Base ^ (pos + Y.length - 1) := by
      apply Nat.mul_le_mul_right
      rw [hl1]
      omega
    have hsplit : Base ^ (pos + Y.length - 1) = Base ^ (Y.length - 1) * Base ^ pos := by
      rw [← pow_add]
      congr 1
      omega
    have hexp : (getEstimatedValue Y (Y.length - 1) Y.length + 1)
          * Base ^ (pos + Y.length - 1)
        = (getEstimatedValue Y (Y.length - 1) Y.length * Base ^ (Y.length - 1)) * Base ^ pos
          + Base ^ (Y.length - 1) * Base ^ pos := by
      rw [hsplit]
      ring
    have hc5 : (getEstimatedValue Y (Y.length - 1) Y.length * Base ^ (Y.length - 1))
          * Base ^ pos ≤ (10 * valL Y) * Base ^ pos :=
      Nat.mul_le_mul_right _ hYlow
    have hc6 : Base ^ (Y.length - 1) * Base ^ pos ≤ valL Y * Base ^ pos :=
      Nat.mul_le_mul_right _ hBm1V
    have hc7 : (10 * valL Y) * Base ^ pos + valL Y * Base ^ pos
        ≤ valL Y * Base ^ pos * 11 := by
      have : (10 * valL Y) * Base ^ pos + valL Y * Base ^ pos
          = valL Y * Base ^ pos * 11 := by ring
      omega
    have hfin : 10 * valL rq.1 < valL Y * Base ^ pos * 11 := by omega
    omega
  set doFix := windowCompareGo rq.1 pos Y Y.length with hdoFix
  by_cases hfix : doFix = true
  · -- window ≥ divisor: one extra subtraction
    have hwc := (windowCompareGo_correct pos hd1 hYdig Y.length).mp hfix
    have hwin := valL_drop_window rq.1 pos Y.length
    rw [hWz, Nat.mul_zero, Nat.add_zero] at hwin
    have hYsum : (∑ j ∈ Finset.range Y.length, Y.getD j 0 * Base ^ j) = valL Y :=
      (valL_eq_sum Y).symm
    rw [hYsum] at hwc
    have hdecR : valL rq.1 = valL (rq.1.take pos) + Base ^ pos * valL (rq.1.drop pos) :=
      valL_take_drop_any rq.1 pos
    have hge1 : 1 * valL Y * Base ^ pos ≤ valL rq.1 := by
      rw [Nat.one_mul]
      have h2 : valL Y * Base ^ pos ≤ valL (rq.1.drop pos) * Base ^ pos :=
        Nat.mul_le_mul_right _ (by omega)
      have h3 : valL (rq.1.drop pos) * Base ^ pos = Base ^ pos * valL (rq.1.drop pos) := by
        ring
      omega
    obtain ⟨hsv, hsd, hsl⟩ := performSubtraction_spec pos 1 hYdig hd1
      (by omega) (by decide) hXz hge1
    rw [Nat.one_mul] at hsv
    rw [Nat.one_mul] at hge1
    have hq21 : (rq.2 + 1) % wordMod = rq.2 + 1 := by
      apply Nat.mod_eq_of_lt
      have : Base < wordMod := by decide
      omega
    refine ⟨rq.2 + 1, ?_, ?_, ?_, ?_, ?_, ?_⟩
    · rw [hunf]
      simp only [hdoFix] at hfix ⊢
      rw [if_pos hfix, hq21]
    · -- q1 < Base: from the value identity below
      by_contra hc
      push_neg at hc
      have hc2 : Base * (valL Y * Base ^ pos) ≤ (rq.2 + 1) * (valL Y * Base ^ pos) :=
        Nat.mul_le_mul_right _ hc
      have hc3 : valL Y * Base ^ (pos + 1) = Base * (valL Y * Base ^ pos) := by
        rw [pow_succ]
        ring
      have hc4 : (rq.2 + 1) * (valL Y * Base ^ pos)
          = rq.2 * (valL Y * Base ^ pos) + valL Y * Base ^ pos := by ring
      have hc5 : rq.2 * (valL Y * Base ^ pos) = rq.2 * valL Y * Base ^ pos := by ring
      omega
    · rw [hunf]
      simp only [hdoFix] at hfix ⊢
      rw [if_pos hfix, hsv]
      have hexp : (rq.2 + 1) * valL Y * Base ^ pos
          = rq.2 * valL Y * Base ^ pos + valL Y * Base ^ pos := by ring
      omega
    · rw [hunf]
      simp only [hdoFix] at hfix ⊢
      rw [if_pos hfix, hsv]
      omega
    · rw [hunf]
      simp only [hdoFix] at hfix ⊢
      rw [if_pos hfix]
      exact hsd
    · rw [hunf]
      simp only [hdoFix] at hfix ⊢
      rw [if_pos hfix, hsl, hl1]
  · -- window < divisor: no fixup
    have hfix' : doFix = false := by
      cases h : doFix
      · rfl
      · exact absurd h hfix
    have hwc : ¬ (∑ j ∈ Finset.range Y.length, Y.getD j 0 * Base ^ j)
        ≤ ∑ j ∈ Finset.range Y.length, rq.1.getD (pos + j) 0 * Base ^ j := by
      intro hcon
      have := (windowCompareGo_correct pos hd1 hYdig Y.length).mpr hcon
      rw [← hdoFix] at this
      rw [this] at hfix'
      exact absurd hfix' (by simp)
    push_neg at hwc
    have hwin := valL_drop_window rq.1 pos Y.length
    rw [hWz, Nat.mul_zero, Nat.add_zero] at hwin
    have hYsum : (∑ j ∈ Finset.range Y.length, Y.getD j 0 * Base ^ j) = valL Y :=
      (valL_eq_sum Y).symm
    rw [hYsum] at hwc
    have hdecR : valL rq.1 = valL (rq.1.take pos) + Base ^ pos * valL (rq.1.drop pos) :=
      valL_take_drop_any rq.1 pos
    have hlow : valL (rq.1.take pos) < Base ^ pos := valL_take_lt hd1 _
    refine ⟨rq.2, ?_, hq2B, ?_, ?_, ?_, ?_⟩
    · rw [hunf]
      simp only [hdoFix] at hfix' ⊢
      rw [if_neg (by rw [hfix']; simp)]
    · rw [hunf]
      simp only [hdoFix] at hfix' ⊢
      rw [if_neg (by rw [hfix']; simp)]
      have hexp : rq.2 * valL Y * Base ^ pos = rq.2 * (valL Y * Base ^ pos) := by ring
      omega
    · rw [hunf]
      simp only [hdoFix] at hfix' ⊢
      rw [if_neg (by rw [hfix']; simp)]
      -- valL rq.1 = low + B^pos * W with W ≤ V - 1
      have hWV : valL (rq.1.drop pos) + 1 ≤ valL Y := by omega
      have h2 : Base ^ pos * valL (rq.1.drop pos) + Base ^ pos
          ≤ Base ^ pos * valL Y := by
        have h3 : Base ^ pos * (valL (rq.1.drop pos) + 1) ≤ Base ^ pos * valL Y :=
          Nat.mul_le_mul_left _ hWV
        have h4 : Base ^ pos * (valL (rq.1.drop pos) + 1)
            = Base ^ pos * valL (rq.1.drop pos) + Base ^ pos := by ring
        omega
      have h5 : Base ^ pos * valL Y = valL Y * Base ^ pos := by ring
      omega
    · rw [hunf]
      simp only [hdoFix] at hfix' ⊢
      rw [if_neg (by rw [hfix']; simp)]
      exact hd1
    · rw [hunf]
      simp only [hdoFix] at hfix' ⊢
      rw [if_neg (by rw [hfix']; simp)]
      exact hl1

end UnsignedInteger


/-! ### Correctness of the long division -/


namespace UnsignedInteger

theorem getD_replicate_zero (k j : ℕ) : (List.replicate k 0).getD j 0 = 0 := by
  rw [List.getD_eq_getElem?_getD, List.getElem?_replicate]
  split_ifs <;> rfl

theorem outerLoop_spec {Y : Limbs} (n : ℕ)
    (hYdig : ∀ z ∈ Y, z < Base) (hYne : Y ≠ []) (hYc : Canonical Y) (hV1 : 1 ≤ valL Y) :
    ∀ (pos : ℕ) (rem quot : Limbs),
      (∀ z ∈ rem, z < Base) → rem.length = n → pos + Y.length ≤ n →
      valL rem < valL Y * Base ^ (pos + 1) →
      (∀ z ∈ quot, z < Base) → pos < quot.length →
      (∀ j, j ≤ pos → quot.getD j 0 = 0) →
      (∀ z ∈ (outerLoop Y n pos rem quot).1, z < Base)
        ∧ (outerLoop Y n pos rem quot).1.length = n
        ∧ (∀ z ∈ (outerLoop Y n pos rem quot).2, z < Base)
        ∧ (outerLoop Y n pos rem quot).2.length = quot.length
        ∧ valL (outerLoop Y n pos rem quot).2 * valL Y + valL (outerLoop Y n pos rem quot).1
          = valL quot * valL Y + valL rem
        ∧ valL (outerLoop Y n pos rem quot).1 < valL Y := by
  intro pos
  induction pos with
  | zero =>
    intro rem quot hdig hn hlen hbound hqd hql hqz
    rw [show outerLoop Y n 0 rem quot = positionStep Y n 0 rem quot from rfl]
    obtain ⟨q1, hq1, hq1B, hval, hlt, hrd, hrl⟩ :=
      positionStep_spec 0 n hYdig hYne hYc hV1 _ quot hdig hn hlen hbound
    rw [hq1]
    have hset := valL_set quot 0 q1 hql
    rw [hqz 0 (le_refl 0)] at hset
    rw [Nat.zero_mul, Nat.add_zero] at hset
    refine ⟨hrd, hrl, ?_, ?_, ?_, ?_⟩
    · intro z hz
      rcases List.mem_or_eq_of_mem_set hz with h1 | h1
      · exact hqd z h1
      · omega
    · rw [List.length_set]
    · rw [hset]
      rw [pow_zero] at hval ⊢
      have hexp : (valL quot + q1 * 1) * valL Y
          = valL quot * valL Y + q1 * valL Y * 1 := by ring
      omega
    · rw [pow_zero] at hlt
      omega
  | succ pos ih =>
    intro rem quot hdig hn hlen hbound hqd hql hqz
    rw [show outerLoop Y n (pos + 1) rem quot
        = outerLoop Y n pos (positionStep Y n (pos + 1) rem quot).1
            (positionStep Y n (pos + 1) rem quot).2 from rfl]
    obtain ⟨q1, hq1, hq1B, hval, hlt, hrd, hrl⟩ :=
      positionStep_spec (pos + 1) n hYdig hYne hYc hV1 _ quot hdig hn hlen hbound
    have hset := valL_set quot (pos + 1) q1 hql
    rw [hqz (pos + 1) (le_refl _)] at hset
    rw [Nat.zero_mul, Nat.add_zero] at hset
    have hrec := ih (positionStep Y n (pos + 1) rem quot).1
      (positionStep Y n (pos + 1) rem quot).2 hrd hrl (by omega) hlt
      (by
        rw [hq1]
        intro z hz
        rcases List.mem_or_eq_of_mem_set hz with h1 | h1
        · exact hqd z h1
        · omega)
      (by rw [hq1, List.length_set]; omega)
      (by
        rw [hq1]
        intro j hj
        have hne : pos + 1 ≠ j := by omega
        rw [List.getD_eq_getElem?_getD, List.getElem?_set_ne hne,
          ← List.getD_eq_getElem?_getD]
        exact hqz j (by omega))
    obtain ⟨ha, hb, hc, hd, he, hf⟩ := hrec
    refine ⟨ha, hb, hc, ?_, ?_, hf⟩
    · rw [hd, hq1, List.length_set]
    · rw [he, hq1, hset]
      have hexp : (valL quot + q1 * Base ^ (pos + 1)) * valL Y
          = valL quot * valL Y + q1 * valL Y * Base ^ (pos + 1) := by ring
      omega

theorem bruteforceDivisionAndModulus_spec {x Y : Limbs}
    (hwx : LimbsWF x) (hcx : Canonical x)
    (hwY : LimbsWF Y) (hcY : Canonical Y) (hY0 : valL Y ≠ 0) :
    valL (bruteforceDivisionAndModulus x Y).1 * valL Y
        + valL (bruteforceDivisionAndModulus x Y).2 = valL x
      ∧ valL (bruteforceDivisionAndModulus x Y).2 < valL Y
      ∧ LimbsWF (bruteforceDivisionAndModulus x Y).1
      ∧ Canonical (bruteforceDivisionAndModulus x Y).1
      ∧ LimbsWF (bruteforceDivisionAndModulus x Y).2
      ∧ Canonical (bruteforceDivisionAndModulus x Y).2 := by
  rw [bruteforceDivisionAndModulus]
  by_cases hlt : lt x Y = true
  · rw [if_pos hlt]
    have hvlt := (lt_correct hwx hcx hwY hcY).mp hlt
    refine ⟨?_, hvlt, ?_, canonical_singleton 0, hwx, hcx⟩
    · simp [valL_cons, valL_nil]
    · refine ⟨by simp, ?_⟩
      intro z hz
      simp at hz
      subst hz
      exact Base_pos
  · rw [if_neg hlt]
    simp only
    have hge : valL Y ≤ valL x := by
      by_contra hc
      push_neg at hc
      exact hlt ((lt_correct hwx hcx hwY hcY).mpr hc)
    have hV1 : 1 ≤ valL Y := by omega
    have hmn : Y.length ≤ x.length := length_le_of_val_le hwx hcx hwY hcY hge
    have hm1 : 1 ≤ Y.length := List.length_pos.mpr hwY.1
    have hn1 : 1 ≤ x.length := List.length_pos.mpr hwx.1
    have hbound : valL x < valL Y * Base ^ (x.length - Y.length + 1) := by
      have hx : valL x < Base ^ x.length := valL_lt_base_pow hwx.2
      have hBm1V : Base ^ (Y.length - 1) ≤ valL Y := by
        by_cases h : 1 < Y.length
        · exact canonical_val_lower hwY hcY h
        · have h2 : Y.length = 1 := by omega
          rw [h2]
          simpa using hV1
      have h3 : Base ^ (Y.length - 1) * Base ^ (x.length - Y.length + 1)
          ≤ valL Y * Base ^ (x.length - Y.length + 1) :=
        Nat.mul_le_mul_right _ hBm1V
      have h4 : Base ^ (Y.length - 1) * Base ^ (x.length - Y.length + 1)
          = Base ^ x.length := by
        rw [← pow_add]
        congr 1
        omega
      omega
    obtain ⟨ha, hb, hc, hd, he, hf⟩ := outerLoop_spec x.length hwY.2 hwY.1 hcY hV1
      (x.length - Y.length) x (List.replicate (x.length - Y.length + 1) 0)
      hwx.2 rfl (by omega) hbound
      (by
        intro z hz
        rw [List.eq_of_mem_replicate hz]
        exact Base_pos)
      (by rw [List.length_replicate]; omega)
      (fun j _ => getD_replicate_zero _ j)
    rw [List.length_replicate] at hd
    refine ⟨?_, ?_, ?_, trim_canonical _, ?_, trim_canonical _⟩
    · rw [valL_trim, valL_trim, he, valL_replicate_zero, Nat.zero_mul, Nat.zero_add]
    · rw [valL_trim]
      exact hf
    · refine ⟨trim_ne_nil ?_, ?_⟩
      · intro hcon
        have := congrArg List.length hcon
        rw [hd, List.length_nil] at this
        omega
      · intro z hz
        exact hc z (trim_mem hz)
    · refine ⟨trim_ne_nil ?_, ?_⟩
      · intro hcon
        have := congrArg List.length hcon
        rw [hb, List.length_nil] at this
        omega
      · intro z hz
        exact ha z (trim_mem hz)

end UnsignedInteger


/-! ### Well-formedness through the reciprocal computation -/


namespace UnsignedInteger

theorem ge_length {a b : Limbs} (h : ge a b = true) : b.length ≤ a.length := by
  rw [ge] at h
  simp at h
  rcases h with h1 | ⟨h1, _⟩ <;> omega

theorem subAssign_ok_wf {a b r : Limbs} (ha : a ≠ [])
    (hwa : ∀ z ∈ a, z < Base) (hwb : ∀ z ∈ b, z < Base)
    (h : subAssign a b = .ok r) : LimbsWF r ∧ Canonical r := by
  rw [subAssign] at h
  by_cases hge : ge a b = true
  · rw [hge] at h
    simp only [if_pos] at h
    have hlen : b.length ≤ a.length := ge_length hge
    obtain ⟨⟨out, _, _, _, hdig, hlenr⟩, _⟩ := subLoop1_both b a hwa hwb hlen
    injection h with h'
    subst h'
    refine ⟨⟨trim_ne_nil ?_, ?_⟩, trim_canonical _⟩
    · intro hcon
      have h2 := congrArg List.length hcon
      rw [hlenr, List.length_nil] at h2
      have : 1 ≤ a.length := List.length_pos.mpr ha
      omega
    · intro z hz
      exact hdig z (trim_mem hz)
  · rw [Bool.not_eq_true] at hge
    rw [hge] at h
    simp at h

theorem leftShift_ne_nil {a : Limbs} (ha : a ≠ []) (k : ℕ) : leftShift a k ≠ [] := by
  rw [leftShift]
  split_ifs
  · exact ha
  · simp [ha]

theorem replicate_append_wf (p : ℕ) : LimbsWF (List.replicate p 0 ++ [1]) := by
  refine ⟨by simp, ?_⟩
  intro z hz
  rcases List.mem_append.mp hz with h1 | h1
  · rw [List.eq_of_mem_replicate h1]
    exact Base_pos
  · simp at h1
    subst h1
    exact one_lt_Base

theorem replicate_append_canonical (p : ℕ) : Canonical (List.replicate p 0 ++ [1]) := by
  apply canonical_of_getLast (by simp)
  intro t ht
  simp at ht
  omega

theorem valL_replicate_append (p : ℕ) : valL (List.replicate p 0 ++ [1]) = Base ^ p := by
  rw [valL_append, valL_replicate_zero, List.length_replicate, Nat.zero_add]
  simp [valL_cons, valL_nil]

theorem computeInverseF_wf :
    ∀ (fuel : ℕ) (Y : Limbs) (p : ℕ) (R : Limbs),
      LimbsWF Y → Canonical Y → valL Y ≠ 0 →
      computeInverseF fuel Y p = .ok R → LimbsWF R := by
  intro fuel
  induction fuel with
  | zero =>
    intro Y p R _ _ _ h
    simp [computeInverseF] at h
  | succ fuel ih =>
    intro Y p R hwY hcY hY0 h
    simp only [computeInverseF] at h
    by_cases hcond : Y.length < BruteforceThreshold ∨ p < Y.length + BruteforceThreshold
    · rw [if_pos hcond] at h
      injection h with h'
      subst h'
      exact (bruteforceDivisionAndModulus_spec (replicate_append_wf p)
        (replicate_append_canonical p) hwY hcY hY0).2.2.1
    · rw [if_neg hcond] at h
      push_neg at hcond
      obtain ⟨hT1, hT2⟩ := hcond
      set hp := (p - Y.length + 5) / 2 with hhp
      set sb := if Y.length < hp then 0 else Y.length - hp with hsb
      have hsb1 : sb ≤ Y.length - 1 := by
        rw [hsb]
        split_ifs with hc
        · omega
        · have hhp1 : 1 ≤ hp := by
            rw [hhp, BruteforceThreshold] at *
            omega
          omega
      have htrunc_wf := rightShift_wf hwY sb
      have htrunc0 : valL (rightShift Y sb) ≠ 0 := by
        rw [rightShift_val hwY.2]
        have hlenY : 1 ≤ Y.length := List.length_pos.mpr hwY.1
        have hYlow : Base ^ sb ≤ valL Y := by
          calc Base ^ sb ≤ Base ^ (Y.length - 1) :=
                Nat.pow_le_pow_right Base_pos hsb1
            _ ≤ valL Y := by
                by_cases h1 : 1 < Y.length
                · exact canonical_val_lower hwY hcY h1
                · have h2 : Y.length = 1 := by omega
                  rw [h2]
                  simpa using Nat.one_le_iff_ne_zero.mpr hY0
        have := (Nat.one_le_div_iff (pow_pos Base_pos sb)).mpr hYlow
        omega
      cases hinv : computeInverseF fuel (rightShift Y sb) (hp + (rightShift Y sb).length) with
      | error e =>
        rw [hinv, exceptBind_error] at h
        exact absurd h (by simp)
      | ok inv =>
        rw [hinv, exceptBind_ok] at h
        have hinvwf : LimbsWF inv :=
          ih (rightShift Y sb) (hp + (rightShift Y sb).length) inv
            htrunc_wf.1 htrunc_wf.2 htrunc0 hinv
        cases hp1 : mulAssign Y inv with
        | error e =>
          rw [hp1, exceptBind_error] at h
          exact absurd h (by simp)
        | ok p1 =>
          rw [hp1, exceptBind_ok] at h
          have hp1wf : LimbsWF p1 := (mulAssign_ok_spec hwY hinvwf hp1).2.1
          cases hp2 : mulAssign p1 inv with
          | error e =>
            rw [hp2, exceptBind_error] at h
            exact absurd h (by simp)
          | ok p2 =>
            rw [hp2, exceptBind_ok] at h
            have hp2wf : LimbsWF p2 := (mulAssign_ok_spec hp1wf hinvwf hp2).2.1
            cases hsub : subAssign
                (leftShift (addAssign inv inv) (p - (hp + (rightShift Y sb).length) - sb))
                (rightShift p2 (2 * (hp + (rightShift Y sb).length + sb) - p)) with
            | error e =>
              rw [hsub, exceptBind_error] at h
              exact absurd h (by simp)
            | ok result =>
              rw [hsub, exceptBind_ok] at h
              have haddwf : LimbsWF (addAssign inv inv) :=
                addAssign_wf hinvwf.1 hinvwf.2 hinvwf.2 (le_refl _)
              have hlswf : LimbsWF (leftShift (addAssign inv inv)
                  (p - (hp + (rightShift Y sb).length) - sb)) :=
                leftShift_wf haddwf _
              have hrswf := rightShift_wf hp2wf (2 * (hp + (rightShift Y sb).length + sb) - p)
              obtain ⟨hreswf, hresc⟩ := subAssign_ok_wf hlswf.1 hlswf.2 hrswf.1.2 hsub
              have hres0 : valL result ≠ 0 := by
                intro h0
                have htb : toBool result = false := by
                  cases htb2 : toBool result
                  · rfl
                  · exact absurd h0 ((toBool_correct hreswf hresc).mp htb2)
                rw [decLimbs, htb] at h
                simp at h
              obtain ⟨_, hRwf, _⟩ := decLimbs_ok hreswf hres0 h
              exact hRwf

end UnsignedInteger


/-! ### Correctness of divisionAndModulus on success

The Newton path multiplies large intermediates through `mulAssign`, so
from here on the results hold under the declared idealisation of
`transformMultiply` above. -/


namespace UnsignedInteger

theorem divisionAndModulus_ok {x y : Limbs} {qr : Limbs × Limbs}
    (hwx : LimbsWF x) (hcx : Canonical x)
    (hwy : LimbsWF y) (hcy : Canonical y) (hy0 : valL y ≠ 0)
    (h : divisionAndModulus x y = .ok qr) :
    valL qr.1 * valL y + valL qr.2 = valL x ∧ valL qr.2 < valL y
      ∧ LimbsWF qr.1 ∧ LimbsWF qr.2 ∧ Canonical qr.2 := by
  obtain ⟨q, r⟩ := qr
  simp only [divisionAndModulus] at h
  by_cases hlt : lt x y = true
  · rw [if_pos hlt] at h
    injection h with h'
    rw [Prod.mk.injEq] at h'
    obtain ⟨h1, h2⟩ := h'
    subst h1
    subst h2
    have hvlt := (lt_correct hwx hcx hwy hcy).mp hlt
    refine ⟨by simp [valL_cons, valL_nil], hvlt, ?_, hwx, hcx⟩
    refine ⟨by simp, ?_⟩
    intro z hz
    simp at hz
    subst hz
    exact Base_pos
  · rw [if_neg hlt] at h
    by_cases hbf : x.length < BruteforceThreshold ∨ y.length < BruteforceThreshold
    · rw [if_pos hbf] at h
      injection h with h'
      have hq : q = (bruteforceDivisionAndModulus x y).1 := by
        rw [h']
      have hr : r = (bruteforceDivisionAndModulus x y).2 := by
        rw [h']
      subst hq
      subst hr
      obtain ⟨h1, h2, h3, _, h5, h6⟩ := bruteforceDivisionAndModulus_spec hwx hcx hwy hcy hy0
      exact ⟨h1, h2, h3, h5, h6⟩
    · rw [if_neg hbf] at h
      set pb := x.length - y.length + 5 with hpb
      set sb := if y.length < pb then 0 else y.length - pb with hsb
      set ad0 := rightShift y sb with had0
      set ad := if sb ≠ 0 then incLimbs ad0 else ad0 with had
      set ip := pb + ad.length with hip
      have had0wf := rightShift_wf hwy sb
      have hadwf : LimbsWF ad ∧ Canonical ad ∧ valL ad ≠ 0 := by
        rw [had]
        split_ifs with hsb0
        · obtain ⟨hv, hw, hcn⟩ := incLimbs_spec had0wf.1 had0wf.2
          refine ⟨hw, hcn, ?_⟩
          rw [hv]
          omega
        · refine ⟨had0wf.1, had0wf.2, ?_⟩
          push_neg at hsb0
          rw [had0, rightShift_val hwy.2, hsb0, pow_zero, Nat.div_one]
          exact hy0
      cases hi : computeInverse ad ip with
      | error e =>
        rw [hi, exceptBind_error] at h
        exact absurd h (by simp)
      | ok inv =>
        rw [hi, exceptBind_ok] at h
        have hinvwf : LimbsWF inv :=
          computeInverseF_wf (ip + 1) ad ip inv hadwf.1 hadwf.2.1 hadwf.2.2 hi
        cases hmp : mulAssign x inv with
        | error e =>
          rw [hmp, exceptBind_error] at h
          exact absurd h (by simp)
        | ok p =>
          rw [hmp, exceptBind_ok] at h
          have hpwf : LimbsWF p := (mulAssign_ok_spec hwx hinvwf hmp).2.1
          have hq0wf := rightShift_wf hpwf (ip + sb)
          cases hla : correctionLoopA x y (valL (rightShift p (ip + sb)) + 1)
              (rightShift p (ip + sb)) with
          | error e =>
            rw [hla, exceptBind_error] at h
            exact absurd h (by simp)
          | ok quot1 =>
            rw [hla, exceptBind_ok] at h
            obtain ⟨hq1wf, hq1le⟩ := correctionLoopA_ok hwx hcx hwy _ _ quot1 hq0wf.1 hla
            cases hmp1 : mulAssign quot1 y with
            | error e =>
              rw [hmp1, exceptBind_error] at h
              exact absurd h (by simp)
            | ok p1 =>
              rw [hmp1, exceptBind_ok] at h
              obtain ⟨hp1v, hp1wf, hp1c⟩ := mulAssign_ok_spec hq1wf hwy hmp1
              have hp1le : valL p1 ≤ valL x := by
                rw [hp1v]
                exact hq1le
              obtain ⟨r0, hr0eq, hr0v, hr0wf, hr0c⟩ :=
                subAssign_ok hwx hcx hp1wf hp1c hp1le
              cases hsub : subAssign x p1 with
              | error e =>
                rw [hsub] at hr0eq
                exact absurd hr0eq (by simp)
              | ok rem0 =>
                rw [hsub, exceptBind_ok] at h
                rw [hsub] at hr0eq
                injection hr0eq with hr0eq'
                subst hr0eq'
                obtain ⟨hbv, hbr, hbq, hbrw, hbrc⟩ :=
                  correctionLoopB_ok hwy hcy (valL rem0 + 1) quot1 rem0 q r
                    hq1wf hr0wf hr0c h
                refine ⟨?_, hbr, hbq, hbrw, hbrc⟩
                simp only
                rw [hbv, hr0v, hp1v]
                omega

end UnsignedInteger


/-! ### Arithmetic core of the Newton reciprocal contract -/


namespace UnsignedInteger

theorem getLast_ne_zero_of_val {d : Limbs} (hc : Canonical d) (h0 : valL d ≠ 0) :
    ∀ t, d.getLast? = some t → t ≠ 0 := by
  intro t ht
  by_cases hlen : 2 ≤ d.length
  · exact canonical_getLast_ne hc hlen t ht
  · cases d with
    | nil => simp at ht
    | cons x xs =>
      have hxs : xs = [] := by
        cases xs with
        | nil => rfl
        | cons y ys => simp at hlen
      subst hxs
      simp at ht
      subst ht
      intro h0'
      apply h0
      rw [valL_cons, valL_nil, h0']
      ring

theorem leftShift_canonical {a : Limbs} (hc : Canonical a) (h0 : valL a ≠ 0) (k : ℕ) :
    Canonical (leftShift a k) := by
  rw [leftShift]
  split_ifs with h
  · exact hc
  · push_neg at h
    have ha : a ≠ [] := by
      intro h'
      subst h'
      simp at h
    apply canonical_of_getLast
    · simp [ha]
    · intro t ht
      have hgl : (List.replicate k 0 ++ a).getLast? = a.getLast? :=
        List.getLast?_append_of_ne_nil _ ha
      rw [hgl] at ht
      exact getLast_ne_zero_of_val hc h0 t ht

/-- Error bound for one Newton step: the squared residual of the refined
reciprocal stays below `Y * Base ^ M`. -/
theorem newton_key (Y a A lo n t' sb j M : ℕ)
    (hY : Y = a * Base ^ sb + lo) (hlo : lo < Base ^ sb)
    (hlo0 : sb = 0 → lo = 0)
    (ha1 : 1 ≤ a)
    (hat : Base ^ t' ≤ a)
    (hYn : Y < Base ^ n) (hM : n + 4 ≤ M)
    (hF1 : A * a ≤ Base ^ j) (hF2 : Base ^ j < (A + 2) * a)
    (hexp : 1 ≤ sb → 2 * sb + 2 * j ≤ 3 * t' + sb + M) :
    ((Base : ℤ) ^ (j + sb) - (Y : ℤ) * (A : ℤ)) ^ 2 < (Y : ℤ) * (Base : ℤ) ^ M := by
  have hBposZ : (0:ℤ) < (Base:ℤ) := by norm_num [Base]
  have hBsb : (0:ℤ) < (Base:ℤ) ^ sb := pow_pos hBposZ sb
  have hYZ : (Y:ℤ) = (a:ℤ) * (Base:ℤ) ^ sb + (lo:ℤ) := by exact_mod_cast hY
  have hdecomp : (Base:ℤ) ^ (j + sb) - (Y:ℤ) * (A:ℤ)
      = (Base:ℤ) ^ sb * ((Base:ℤ) ^ j - (a:ℤ) * A) - (lo:ℤ) * A := by
    rw [hYZ, pow_add]
    ring
  have hF1' : (a:ℤ) * A ≤ (Base:ℤ) ^ j := by
    have h1 : a * A ≤ Base ^ j := by rw [Nat.mul_comm]; exact hF1
    exact_mod_cast h1
  have hE0 : 0 ≤ (Base:ℤ) ^ j - (a:ℤ) * A := by linarith
  have hE2 : (Base:ℤ) ^ j - (a:ℤ) * A ≤ 2 * a - 1 := by
    have h1 : (Base:ℤ) ^ j < ((A:ℤ) + 2) * a := by exact_mod_cast hF2
    have h2 : ((A:ℤ) + 2) * a = (a:ℤ) * A + 2 * a := by ring
    linarith
  have hloZ0 : (0:ℤ) ≤ (lo:ℤ) := Int.natCast_nonneg lo
  have hAZ0 : (0:ℤ) ≤ (A:ℤ) := Int.natCast_nonneg A
  have hloA0 : (0:ℤ) ≤ (lo:ℤ) * A := mul_nonneg hloZ0 hAZ0
  rw [hdecomp]
  by_cases hsign : 0 ≤ (Base:ℤ) ^ sb * ((Base:ℤ) ^ j - (a:ℤ) * A) - (lo:ℤ) * A
  · have hEub : (Base:ℤ) ^ sb * ((Base:ℤ) ^ j - (a:ℤ) * A)
        ≤ (Base:ℤ) ^ sb * (2 * a - 1) :=
      mul_le_mul_of_nonneg_left hE2 (le_of_lt hBsb)
    have hexpand : (Base:ℤ) ^ sb * (2 * (a:ℤ) - 1)
        = 2 * ((a:ℤ) * (Base:ℤ) ^ sb) - (Base:ℤ) ^ sb := by ring
    have hBsb1 : (1:ℤ) ≤ (Base:ℤ) ^ sb := by
      exact_mod_cast Nat.one_le_pow sb Base Base_pos
    have hub : (Base:ℤ) ^ sb * ((Base:ℤ) ^ j - (a:ℤ) * A) - (lo:ℤ) * A
        ≤ 2 * (Y:ℤ) - 1 := by
      have haY : (a:ℤ) * (Base:ℤ) ^ sb ≤ (Y:ℤ) := by rw [hYZ]; linarith
      linarith [hexpand]
    have hsq : ((Base:ℤ) ^ sb * ((Base:ℤ) ^ j - (a:ℤ) * A) - (lo:ℤ) * A) ^ 2
        ≤ (2 * (Y:ℤ) - 1) ^ 2 := pow_le_pow_left hsign hub 2
    have hY1 : (1:ℤ) ≤ (Y:ℤ) := by
      have h1 : 1 ≤ Y := by
        rw [hY]
        have := Nat.one_le_pow sb Base Base_pos
        have h2 : 1 * 1 ≤ a * Base ^ sb := Nat.mul_le_mul ha1 this
        omega
      exact_mod_cast h1
    have h4Y : 4 * (Y:ℤ) < (Base:ℤ) ^ M := by
      have h1 : 4 * Y < Base ^ M := by
        have h2 : (4:ℕ) ≤ Base ^ 4 := by norm_num [Base]
        have h3 : 4 * Base ^ n ≤ Base ^ 4 * Base ^ n := Nat.mul_le_mul_right _ h2
        have h4 : Base ^ 4 * Base ^ n = Base ^ (n + 4) := by
          rw [← pow_add]
          congr 1
          omega
        have h5 : Base ^ (n + 4) ≤ Base ^ M := Nat.pow_le_pow_right Base_pos hM
        omega
      exact_mod_cast h1
    have hstep : (Y:ℤ) * (4 * Y) < (Y:ℤ) * (Base:ℤ) ^ M :=
      mul_lt_mul_of_pos_left h4Y (by linarith)
    have hfin : (2 * (Y:ℤ) - 1) ^ 2 = (Y:ℤ) * (4 * Y) - 4 * Y + 1 := by ring
    linarith
  · push_neg at hsign
    have hflip : ((Base:ℤ) ^ sb * ((Base:ℤ) ^ j - (a:ℤ) * A) - (lo:ℤ) * A) ^ 2
        = ((lo:ℤ) * A - (Base:ℤ) ^ sb * ((Base:ℤ) ^ j - (a:ℤ) * A)) ^ 2 := by ring
    have hprodnn : (0:ℤ) ≤ (Base:ℤ) ^ sb * ((Base:ℤ) ^ j - (a:ℤ) * A) :=
      mul_nonneg (le_of_lt hBsb) hE0
    have hpos : 0 < (lo:ℤ) * A - (Base:ℤ) ^ sb * ((Base:ℤ) ^ j - (a:ℤ) * A) := by
      linarith
    have hle : (lo:ℤ) * A - (Base:ℤ) ^ sb * ((Base:ℤ) ^ j - (a:ℤ) * A)
        ≤ (lo:ℤ) * A := by linarith
    have hsq : ((Base:ℤ) ^ sb * ((Base:ℤ) ^ j - (a:ℤ) * A) - (lo:ℤ) * A) ^ 2
        ≤ ((lo:ℤ) * A) ^ 2 := by
      rw [hflip]
      exact pow_le_pow_left (le_of_lt hpos) hle 2
    have hlo1 : 1 ≤ lo := by
      by_contra h0
      have hlo00 : lo = 0 := by omega
      rw [hlo00] at hpos
      simp at hpos
      linarith
    have hsb1 : 1 ≤ sb := by
      by_contra h0
      have : sb = 0 := by omega
      have := hlo0 this
      omega
    have hexpo := hexp hsb1
    have keyN : (lo * A) ^ 2 < Y * Base ^ M := by
      have hcancel : (lo * A) ^ 2 * a ^ 2 < Y * Base ^ M * a ^ 2 := by
        calc (lo * A) ^ 2 * a ^ 2 = (lo * (A * a)) ^ 2 := by ring
          _ ≤ (lo * Base ^ j) ^ 2 := Nat.pow_le_pow_left (Nat.mul_le_mul_left lo hF1) 2
          _ < (Base ^ sb * Base ^ j) ^ 2 := by
              apply Nat.pow_lt_pow_left _ (by omega)
              exact Nat.mul_lt_mul_of_lt_of_le hlo (le_refl _) (pow_pos Base_pos j)
          _ = Base ^ (2 * sb + 2 * j) := by
              rw [← pow_add, ← pow_mul]
              congr 1
              ring
          _ ≤ Base ^ (3 * t' + sb + M) := Nat.pow_le_pow_right Base_pos hexpo
          _ = (Base ^ t') ^ 3 * (Base ^ sb * Base ^ M) := by
              rw [← pow_mul, ← pow_add, ← pow_add]
              congr 1
              ring
          _ ≤ a ^ 3 * (Base ^ sb * Base ^ M) :=
              Nat.mul_le_mul_right _ (Nat.pow_le_pow_left hat 3)
          _ = a * Base ^ sb * Base ^ M * a ^ 2 := by ring
          _ ≤ Y * Base ^ M * a ^ 2 := by
              apply Nat.mul_le_mul_right
              apply Nat.mul_le_mul_right
              omega
      exact lt_of_mul_lt_mul_right hcancel (Nat.zero_le _)
    have keyZ : ((lo:ℤ) * A) ^ 2 < (Y:ℤ) * (Base:ℤ) ^ M := by exact_mod_cast keyN
    linarith

/-- Assembling the step bound into the reciprocal contract. -/
theorem newton_assemble (Y A D R p K M j sb : ℕ)
    (hKM : K + M = j + sb) (hPM : p + M = 2 * (j + sb))
    (hD1 : D * Base ^ M ≤ Y * A * A) (hD2 : Y * A * A < (D + 1) * Base ^ M)
    (hR : R + 1 + D = Base ^ K * (A + A))
    (hkey : ((Base:ℤ) ^ (j + sb) - (Y:ℤ) * (A:ℤ)) ^ 2 < (Y:ℤ) * (Base:ℤ) ^ M)
    (hY1 : 1 ≤ Y) :
    R * Y ≤ Base ^ p ∧ Base ^ p < (R + 2) * Y := by
  have hBposZ : (0:ℤ) < (Base:ℤ) := by norm_num [Base]
  have hMpos : (0:ℤ) < (Base:ℤ) ^ M := pow_pos hBposZ M
  have hpow1 : (Base:ℤ) ^ K * (Base:ℤ) ^ M = (Base:ℤ) ^ (j + sb) := by
    rw [← pow_add, hKM]
  have hpow2 : (Base:ℤ) ^ p * (Base:ℤ) ^ M = ((Base:ℤ) ^ (j + sb)) ^ 2 := by
    have h1 : p + M = (j + sb) * 2 := by omega
    rw [← pow_add, h1, pow_mul]
  have hRc : (R:ℤ) + 1 + D = (Base:ℤ) ^ K * ((A:ℤ) + A) := by exact_mod_cast hR
  have hRZ : (R:ℤ) = (Base:ℤ) ^ K * ((A:ℤ) + A) - 1 - D := by linarith
  have hD1Z : (D:ℤ) * (Base:ℤ) ^ M ≤ (Y:ℤ) * A * A := by exact_mod_cast hD1
  have hD2Z : (Y:ℤ) * A * A < ((D:ℤ) + 1) * (Base:ℤ) ^ M := by exact_mod_cast hD2
  have hY1Z : (1:ℤ) ≤ (Y:ℤ) := by exact_mod_cast hY1
  have hsq0 : 0 ≤ ((Base:ℤ) ^ (j + sb) - (Y:ℤ) * (A:ℤ)) ^ 2 := sq_nonneg _
  have MI : 2 * (A:ℤ) * (Base:ℤ) ^ (j + sb) * Y - (Y:ℤ) ^ 2 * (A:ℤ) ^ 2
      = ((Base:ℤ) ^ (j + sb)) ^ 2
        - ((Base:ℤ) ^ (j + sb) - (Y:ℤ) * (A:ℤ)) ^ 2 := by ring
  have e1 : ((Y:ℤ) * A * A) * Y = (Y:ℤ) ^ 2 * (A:ℤ) ^ 2 := by ring
  constructor
  · have hmul : ((Y:ℤ) * A * A) * Y < (((D:ℤ) + 1) * (Base:ℤ) ^ M) * Y :=
      mul_lt_mul_of_pos_right hD2Z (by linarith)
    have hexp : (R:ℤ) * Y * (Base:ℤ) ^ M
        = 2 * (A:ℤ) * (Base:ℤ) ^ (j + sb) * Y - ((D:ℤ) + 1) * (Base:ℤ) ^ M * Y := by
      rw [hRZ, ← hpow1]
      ring
    have hlt : (R:ℤ) * Y * (Base:ℤ) ^ M < (Base:ℤ) ^ p * (Base:ℤ) ^ M := by
      rw [hexp, hpow2]
      have h3 : ((D:ℤ) + 1) * (Base:ℤ) ^ M * Y = (((D:ℤ) + 1) * (Base:ℤ) ^ M) * Y := by
        ring
      linarith [MI, hmul, hsq0, e1]
    have h4 : (R:ℤ) * Y < (Base:ℤ) ^ p := lt_of_mul_lt_mul_right hlt (le_of_lt hMpos)
    have h5 : (R:ℤ) * Y ≤ (Base:ℤ) ^ p := le_of_lt h4
    exact_mod_cast h5
  · have hmul : ((D:ℤ) * (Base:ℤ) ^ M) * Y ≤ ((Y:ℤ) * A * A) * Y :=
      mul_le_mul_of_nonneg_right hD1Z (by linarith)
    have hexp : ((R:ℤ) + 2) * Y * (Base:ℤ) ^ M
        = 2 * (A:ℤ) * (Base:ℤ) ^ (j + sb) * Y - (D:ℤ) * (Base:ℤ) ^ M * Y
          + (Y:ℤ) * (Base:ℤ) ^ M := by
      rw [hRZ, ← hpow1]
      ring
    have hlt : (Base:ℤ) ^ p * (Base:ℤ) ^ M < ((R:ℤ) + 2) * Y * (Base:ℤ) ^ M := by
      rw [hexp, hpow2]
      have h3 : (D:ℤ) * (Base:ℤ) ^ M * Y = ((D:ℤ) * (Base:ℤ) ^ M) * Y := by ring
      linarith [MI, hmul, hkey, e1]
    have h4 : (Base:ℤ) ^ p < ((R:ℤ) + 2) * Y := lt_of_mul_lt_mul_right hlt (le_of_lt hMpos)
    exact_mod_cast h4

end UnsignedInteger


/-! ### The reciprocal contract (under the transform idealisation) -/


namespace UnsignedInteger

/-- The contract of `computeInverse` on success: the result is the
reciprocal `Base ^ p / Y`, possibly one low but never more. -/
theorem computeInverseF_contract :
    ∀ (fuel : ℕ) (Y : Limbs) (p : ℕ) (R : Limbs),
      LimbsWF Y → Canonical Y → valL Y ≠ 0 →
      computeInverseF fuel Y p = .ok R →
      valL R * valL Y ≤ Base ^ p ∧ Base ^ p < (valL R + 2) * valL Y := by
  intro fuel
  induction fuel with
  | zero =>
    intro Y p R _ _ _ h
    simp [computeInverseF] at h
  | succ fuel ih =>
    intro Y p R hwY hcY hY0 h
    simp only [computeInverseF] at h
    by_cases hcond : Y.length < BruteforceThreshold ∨ p < Y.length + BruteforceThreshold
    · rw [if_pos hcond] at h
      injection h with h'
      subst h'
      obtain ⟨hid, hrem, _, _, _, _⟩ := bruteforceDivisionAndModulus_spec
        (replicate_append_wf p) (replicate_append_canonical p) hwY hcY hY0
      rw [valL_replicate_append] at hid
      constructor
      · omega
      · have hY1 : 1 ≤ valL Y := Nat.one_le_iff_ne_zero.mpr hY0
        have hq2 : (valL (bruteforceDivisionAndModulus (List.replicate p 0 ++ [1]) Y).1 + 2)
              * valL Y
            = valL (bruteforceDivisionAndModulus (List.replicate p 0 ++ [1]) Y).1 * valL Y
              + 2 * valL Y := by ring
        omega
    · rw [if_neg hcond] at h
      push_neg at hcond
      obtain ⟨hT1, hT2⟩ := hcond
      rw [BruteforceThreshold] at hT1 hT2
      set hf := (p - Y.length + 5) / 2 with hhf
      set sb := if Y.length < hf then 0 else Y.length - hf with hsb
      have hsbe : (sb = 0 ∧ Y.length < hf) ∨ (sb = Y.length - hf ∧ hf ≤ Y.length) := by
        rw [hsb]
        split_ifs with hc
        · exact Or.inl ⟨rfl, hc⟩
        · exact Or.inr ⟨rfl, by omega⟩
      have hsb1 : sb ≤ Y.length - 1 := by
        rcases hsbe with ⟨h1, _⟩ | ⟨h1, _⟩
        · omega
        · have hhf1 : 1 ≤ hf := by rw [hhf]; omega
          omega
      set T := rightShift Y sb with hT
      have hTwf : LimbsWF T ∧ Canonical T := by rw [hT]; exact rightShift_wf hwY sb
      have hva : valL T = valL Y / Base ^ sb := by rw [hT]; exact rightShift_val hwY.2 sb
      have hYhigh : valL Y < Base ^ Y.length := valL_lt_base_pow hwY.2
      have hYlow : Base ^ (Y.length - 1) ≤ valL Y :=
        canonical_val_lower hwY hcY (by omega)
      have hT0 : valL T ≠ 0 := by
        rw [hva]
        have hYsb : Base ^ sb ≤ valL Y := by
          calc Base ^ sb ≤ Base ^ (Y.length - 1) := Nat.pow_le_pow_right Base_pos hsb1
            _ ≤ valL Y := hYlow
        have := (Nat.one_le_div_iff (pow_pos Base_pos sb)).mpr hYsb
        omega
      have hahigh : valL T < Base ^ T.length := valL_lt_base_pow hTwf.1.2
      have halow : Base ^ (T.length - 1) ≤ valL T := by
        by_cases h1 : 1 < T.length
        · exact canonical_val_lower hTwf.1 hTwf.2 h1
        · have h2 : T.length = 1 := by
            have := List.length_pos.mpr hTwf.1.1
            omega
          rw [h2]
          simpa using Nat.one_le_iff_ne_zero.mpr hT0
      have ha2low : Base ^ (Y.length - 1 - sb) ≤ valL T := by
        rw [hva]
        apply (Nat.le_div_iff_mul_le (pow_pos Base_pos sb)).mpr
        have he : Base ^ (Y.length - 1 - sb) * Base ^ sb = Base ^ (Y.length - 1) := by
          rw [← pow_add]
          congr 1
          omega
        rw [he]
        exact hYlow
      have ha2high : valL T < Base ^ (Y.length - sb) := by
        rw [hva]
        apply (Nat.div_lt_iff_lt_mul (pow_pos Base_pos sb)).mpr
        have he : Base ^ (Y.length - sb) * Base ^ sb = Base ^ Y.length := by
          rw [← pow_add]
          congr 1
          omega
        rw [he]
        exact hYhigh
      have ht : T.length = Y.length - sb := by
        have h1 : T.length - 1 < Y.length - sb :=
          (Nat.pow_lt_pow_iff_right one_lt_Base).mp (lt_of_le_of_lt halow ha2high)
        have h2 : Y.length - 1 - sb < T.length :=
          (Nat.pow_lt_pow_iff_right one_lt_Base).mp (lt_of_le_of_lt ha2low hahigh)
        have h3 := List.length_pos.mpr hTwf.1.1
        omega
      cases hinv : computeInverseF fuel T (hf + T.length) with
      | error e =>
        rw [hinv, exceptBind_error] at h
        exact absurd h (by simp)
      | ok inv =>
        rw [hinv, exceptBind_ok] at h
        have hinvwf : LimbsWF inv :=
          computeInverseF_wf fuel T (hf + T.length) inv hTwf.1 hTwf.2 hT0 hinv
        obtain ⟨hC1, hC2⟩ := ih T (hf + T.length) inv hTwf.1 hTwf.2 hT0 hinv
        have hA1 : 1 ≤ valL inv := by
          by_contra h0
          have hA0 : valL inv = 0 := by omega
          rw [hA0] at hC2
          have hhf1 : 1 ≤ hf := by rw [hhf]; omega
          have c1 : Base ^ (hf + T.length) < 2 * valL T := by omega
          have c2 : 2 * valL T < 2 * Base ^ T.length := by omega
          have c3 : 2 * Base ^ T.length ≤ Base ^ (T.length + 1) := by
            rw [pow_succ]
            rw [Nat.mul_comm 2 (Base ^ T.length)]
            exact Nat.mul_le_mul_left _ (by norm_num [Base])
          have c4 : Base ^ (T.length + 1) ≤ Base ^ (hf + T.length) :=
            Nat.pow_le_pow_right Base_pos (by omega)
          omega
        cases hp1 : mulAssign Y inv with
        | error e =>
          rw [hp1, exceptBind_error] at h
          exact absurd h (by simp)
        | ok p1 =>
          rw [hp1, exceptBind_ok] at h
          obtain ⟨hvp1, hp1wf, _⟩ := mulAssign_ok_spec hwY hinvwf hp1
          cases hp2 : mulAssign p1 inv with
          | error e =>
            rw [hp2, exceptBind_error] at h
            exact absurd h (by simp)
          | ok p2 =>
            rw [hp2, exceptBind_ok] at h
            obtain ⟨hvp2, hp2wf, _⟩ := mulAssign_ok_spec hp1wf hinvwf hp2
            rw [hvp1] at hvp2
            cases hsub : subAssign
                (leftShift (addAssign inv inv) (p - (hf + T.length) - sb))
                (rightShift p2 (2 * (hf + T.length + sb) - p)) with
            | error e =>
              rw [hsub, exceptBind_error] at h
              exact absurd h (by simp)
            | ok result =>
              rw [hsub, exceptBind_ok] at h
              set K := p - (hf + T.length) - sb with hK
              set M := 2 * (hf + T.length + sb) - p with hM
              have haddwf : LimbsWF (addAssign inv inv) :=
                addAssign_wf hinvwf.1 hinvwf.2 hinvwf.2 (le_refl _)
              have haddv : valL (addAssign inv inv) = valL inv + valL inv :=
                addAssign_val inv inv
              have hadd0 : valL (addAssign inv inv) ≠ 0 := by
                rw [haddv]
                omega
              have hlswf : LimbsWF (leftShift (addAssign inv inv) K) :=
                leftShift_wf haddwf K
              have hlsc : Canonical (leftShift (addAssign inv inv) K) :=
                leftShift_canonical (addAssign_canonical inv inv) hadd0 K
              have hlsv : valL (leftShift (addAssign inv inv) K)
                  = Base ^ K * (valL inv + valL inv) := by
                rw [leftShift_val, haddv]
              have hrswf := rightShift_wf hp2wf M
              have hrsv : valL (rightShift p2 M)
                  = valL Y * valL inv * valL inv / Base ^ M := by
                rw [rightShift_val hp2wf.2, hvp2]
              have hge : ge (leftShift (addAssign inv inv) K) (rightShift p2 M) = true := by
                rw [subAssign] at hsub
                cases hge2 : ge (leftShift (addAssign inv inv) K) (rightShift p2 M)
                · rw [hge2] at hsub
                  simp at hsub
                · rfl
              have hle := (ge_correct hlswf hlsc hrswf.1 hrswf.2).mp hge
              obtain ⟨r', hr'eq, hr'v, hr'wf, hr'c⟩ :=
                subAssign_ok hlswf hlsc hrswf.1 hrswf.2 hle
              rw [hsub] at hr'eq
              injection hr'eq with hr'eq'
              subst hr'eq'
              have hres0 : valL result ≠ 0 := by
                intro h0
                have htb : toBool result = false := by
                  cases htb2 : toBool result
                  · rfl
                  · exact absurd h0 ((toBool_correct hr'wf hr'c).mp htb2)
                rw [decLimbs, htb] at h
                simp at h
              obtain ⟨hRv, _, _⟩ := decLimbs_ok hr'wf hres0 h
              -- exponent bookkeeping
              have hjs : hf + T.length + sb = hf + Y.length := by omega
              have h2hf : p - Y.length + 4 ≤ 2 * hf ∧ 2 * hf ≤ p - Y.length + 5 := by
                rw [hhf]
                omega
              have hKM : K + M = hf + T.length + sb := by
                rw [hK, hM]
                omega
              have hPM : p + M = 2 * (hf + T.length + sb) := by
                rw [hM]
                omega
              have hM4 : Y.length + 4 ≤ M := by
                rw [hM]
                omega
              -- division facts for the dropped low part
              have hD1 : valL (rightShift p2 M) * Base ^ M
                  ≤ valL Y * valL inv * valL inv := by
                rw [hrsv]
                exact Nat.div_mul_le_self _ _
              have hD2 : valL Y * valL inv * valL inv
                  < (valL (rightShift p2 M) + 1) * Base ^ M := by
                rw [hrsv]
                exact (Nat.div_lt_iff_lt_mul (pow_pos Base_pos M)).mp
                  (Nat.lt_succ_self _)
              -- the exact value of the result
              have hRfin : valL R + 1 + valL (rightShift p2 M)
                  = Base ^ K * (valL inv + valL inv) := by
                set X := Base ^ K * (valL inv + valL inv) with hX
                rw [hlsv] at hr'v hle
                omega
              -- decomposition of Y by the dropped limbs
              have hYd : valL Y = valL T * Base ^ sb + valL Y % Base ^ sb := by
                calc valL Y = Base ^ sb * (valL Y / Base ^ sb) + valL Y % Base ^ sb :=
                      (Nat.div_add_mod _ _).symm
                  _ = valL T * Base ^ sb + valL Y % Base ^ sb := by rw [hva]; ring
              have hlo : valL Y % Base ^ sb < Base ^ sb :=
                Nat.mod_lt _ (pow_pos Base_pos sb)
              have hlo0 : sb = 0 → valL Y % Base ^ sb = 0 := by
                intro h0
                rw [h0, pow_zero, Nat.mod_one]
              have hexp : 1 ≤ sb →
                  2 * sb + 2 * (hf + T.length) ≤ 3 * (T.length - 1) + sb + M := by
                intro hsbp
                rcases hsbe with ⟨h1, _⟩ | ⟨h1, h2⟩
                · omega
                · omega
              have hkey := newton_key (valL Y) (valL T) (valL inv) (valL Y % Base ^ sb)
                Y.length (T.length - 1) sb (hf + T.length) M
                hYd hlo hlo0 (Nat.one_le_iff_ne_zero.mpr hT0) halow hYhigh hM4
                hC1 hC2 hexp
              exact newton_assemble (valL Y) (valL inv) (valL (rightShift p2 M))
                (valL R) p K M (hf + T.length) sb hKM hPM hD1 hD2 hRfin hkey
                (Nat.one_le_iff_ne_zero.mpr hY0)

end UnsignedInteger


/-! ### The signed layer: values of the arithmetic operators and the comparisons

Multiplication, division and modulus reach `mulAssign` on large operands
and so inherit the transform idealisation; the comparisons do not. -/


theorem exceptPure {α : Type} (x : α) : (pure x : Except Err α) = Except.ok x := rfl

namespace UnsignedInteger

theorem valL_zero_mem {d : Limbs} (h : valL d = 0) : ∀ x ∈ d, x = 0 := by
  induction d with
  | nil => simp
  | cons x xs ih =>
    rw [valL_cons] at h
    have hB : Base = 100000000 := rfl
    rw [hB] at h
    have hx : x = 0 ∧ valL xs = 0 := by omega
    intro z hz
    rcases List.mem_cons.mp hz with h1 | h1
    · rw [h1, hx.1]
    · exact ih hx.2 z h1

theorem canonical_val_zero {d : Limbs} (hne : d ≠ []) (hc : Canonical d)
    (h : valL d = 0) : d = [0] := by
  have hall := valL_zero_mem h
  by_cases hlen : 2 ≤ d.length
  · have hsome : d.getLast? = some (d.getLast hne) := List.getLast?_eq_getLast d hne
    have hnz := canonical_getLast_ne hc hlen (d.getLast hne) hsome
    exact absurd (hall _ (List.getLast_mem hne)) hnz
  · cases d with
    | nil => exact absurd rfl hne
    | cons x xs =>
      cases xs with
      | nil =>
        have hx : x = 0 := hall x (by simp)
        rw [hx]
      | cons y ys => simp at hlen

end UnsignedInteger

namespace SignedInteger

theorem intVal_mk (m : Limbs) (s : Bool) :
    intVal (SignedInteger.mk m s) = if s then -(valL m : ℤ) else (valL m : ℤ) := rfl

/-- `SignedInteger::operator-=` on success computes the integer difference
and keeps the sign zero-normalised. -/
theorem sSubAssign_ok {a b c : SignedInteger}
    (hwa : LimbsWF a.absolute) (hca : Canonical a.absolute)
    (hwb : LimbsWF b.absolute) (hcb : Canonical b.absolute)
    (h : SignedInteger.subAssign a b = .ok c) :
    intVal c = intVal a - intVal b ∧ c.absolute ≠ [] ∧ Canonical c.absolute
      ∧ (valL c.absolute = 0 → c.sign = false) := by
  simp only [SignedInteger.subAssign] at h
  by_cases hst : (a.sign != b.sign) = true
  · rw [if_pos hst] at h
    rw [exceptPure, exceptBind_ok, exceptPure] at h
    injection h with h'
    subst h'
    simp only
    have hv := UnsignedInteger.addAssign_val a.absolute b.absolute
    have hcM := UnsignedInteger.addAssign_canonical a.absolute b.absolute
    have hne := @UnsignedInteger.addAssign_ne_nil a.absolute b.absolute hwa.1
    refine ⟨?_, hne, hcM, ?_⟩
    · by_cases hz : valL (UnsignedInteger.addAssign a.absolute b.absolute) = 0
      · have hz2 : valL a.absolute = 0 ∧ valL b.absolute = 0 := by
          rw [hv] at hz
          omega
        have htb : UnsignedInteger.toBool (UnsignedInteger.addAssign a.absolute b.absolute)
            = false := by
          rw [UnsignedInteger.canonical_val_zero hne hcM hz]
          rfl
        rw [intVal_mk, htb, intVal, intVal, hz2.1, hz2.2]
        simp [hz]
      · have htb := UnsignedInteger.toBool_of_val_ne hz
        rw [intVal_mk, htb, intVal, intVal, hv]
        cases hsa : a.sign <;> cases hsb : b.sign <;>
          simp [hsa, hsb] at hst ⊢ <;> push_cast <;> ring
    · intro hz
      have htb : UnsignedInteger.toBool (UnsignedInteger.addAssign a.absolute b.absolute)
          = false := by
        rw [UnsignedInteger.canonical_val_zero hne hcM hz]
        rfl
      simp [htb]
  · rw [if_neg hst] at h
    have hseq : a.sign = b.sign := by
      cases hsa : a.sign <;> cases hsb : b.sign <;> simp [hsa, hsb] at hst ⊢
    by_cases hlt : UnsignedInteger.lt a.absolute b.absolute = true
    · rw [if_pos hlt] at h
      have hvlt := (UnsignedInteger.lt_correct hwa hca hwb hcb).mp hlt
      obtain ⟨m, hmeq, hmv, hmwf, hmc⟩ :=
        UnsignedInteger.subAssign_ok hwb hcb hwa hca (le_of_lt hvlt)
      rw [hmeq, exceptBind_ok, exceptPure, exceptBind_ok, exceptPure] at h
      injection h with h'
      subst h'
      simp only
      have hm0 : valL m ≠ 0 := by omega
      have htb := UnsignedInteger.toBool_of_val_ne hm0
      refine ⟨?_, hmwf.1, hmc, ?_⟩
      · rw [intVal_mk, htb, intVal, intVal, hmv]
        cases hsa : a.sign <;> rw [hsa] at hseq <;>
          simp [hsa, ← hseq] <;> push_cast <;> omega
      · intro hz
        exact absurd hz hm0
    · rw [if_neg hlt] at h
      have hvge : valL b.absolute ≤ valL a.absolute := by
        by_contra h0
        exact hlt ((UnsignedInteger.lt_correct hwa hca hwb hcb).mpr (by omega))
      obtain ⟨m, hmeq, hmv, hmwf, hmc⟩ :=
        UnsignedInteger.subAssign_ok hwa hca hwb hcb hvge
      rw [hmeq, exceptBind_ok, exceptPure, exceptBind_ok, exceptPure] at h
      injection h with h'
      subst h'
      simp only
      refine ⟨?_, hmwf.1, hmc, ?_⟩
      · by_cases hz : valL m = 0
        · have htb : UnsignedInteger.toBool m = false := by
            rw [UnsignedInteger.canonical_val_zero hmwf.1 hmc hz]
            rfl
          have hvv : valL a.absolute = valL b.absolute := by omega
          rw [intVal_mk, htb, intVal, intVal, hvv]
          simp [hseq, hz]
        · have htb := UnsignedInteger.toBool_of_val_ne hz
          rw [intVal_mk, htb, intVal, intVal, hmv]
          cases hsa : a.sign <;> rw [hsa] at hseq <;>
            simp [hsa, ← hseq] <;> push_cast <;> omega
      · intro hz
        have htb : UnsignedInteger.toBool m = false := by
          rw [UnsignedInteger.canonical_val_zero hmwf.1 hmc hz]
          rfl
        simp [htb]

/-- `SignedInteger::operator*=` on success computes the integer product
and keeps the sign zero-normalised. -/
theorem sMulAssign_ok {a b c : SignedInteger}
    (hwa : LimbsWF a.absolute) (hwb : LimbsWF b.absolute)
    (h : SignedInteger.mulAssign a b = .ok c) :
    intVal c = intVal a * intVal b ∧ LimbsWF c.absolute ∧ Canonical c.absolute
      ∧ (valL c.absolute = 0 → c.sign = false) := by
  simp only [SignedInteger.mulAssign] at h
  cases hm : UnsignedInteger.mulAssign a.absolute b.absolute with
  | error e =>
    rw [hm, exceptBind_error] at h
    exact absurd h (by simp)
  | ok m =>
    rw [hm, exceptBind_ok, exceptPure] at h
    injection h with h'
    subst h'
    simp only
    obtain ⟨hmv, hmwf, hmc⟩ := UnsignedInteger.mulAssign_ok_spec hwa hwb hm
    refine ⟨?_, hmwf, hmc, ?_⟩
    · by_cases hz : valL m = 0
      · have htb : UnsignedInteger.toBool m = false := by
          rw [UnsignedInteger.canonical_val_zero hmwf.1 hmc hz]
          rfl
        have hz2 : valL a.absolute = 0 ∨ valL b.absolute = 0 := by
          rw [hmv] at hz
          exact Nat.mul_eq_zero.mp hz
        rw [intVal_mk, htb, intVal, intVal]
        rcases hz2 with h1 | h1 <;> rw [h1] <;>
          cases a.sign <;> cases b.sign <;> simp [hz]
      · have htb := UnsignedInteger.toBool_of_val_ne hz
        rw [intVal_mk, htb, intVal, intVal, hmv]
        cases a.sign <;> cases b.sign <;> simp <;> push_cast <;> ring
    · intro hz
      have htb : UnsignedInteger.toBool m = false := by
        rw [UnsignedInteger.canonical_val_zero hmwf.1 hmc hz]
        rfl
      simp [htb]


end SignedInteger

theorem divAssign_ok_val {x y q : Limbs} (hwx : LimbsWF x) (hcx : Canonical x)
    (hwy : LimbsWF y) (hcy : Canonical y) (hy0 : valL y ≠ 0)
    (h : UnsignedInteger.divAssign x y = .ok q) :
    valL q = valL x / valL y ∧ LimbsWF q := by
  rw [UnsignedInteger.divAssign, if_pos (UnsignedInteger.toBool_of_val_ne hy0)] at h
  cases hdm : UnsignedInteger.divisionAndModulus x y with
  | error e =>
    rw [hdm] at h
    exact absurd h (by simp [Except.map])
  | ok qr =>
    rw [hdm] at h
    have hq : q = qr.1 := by
      simp [Except.map] at h
      exact h.symm
    obtain ⟨hid, hrem, hqwf, _, _⟩ :=
      UnsignedInteger.divisionAndModulus_ok hwx hcx hwy hcy hy0 hdm
    subst hq
    refine ⟨?_, hqwf⟩
    have hy1 : 0 < valL y := Nat.pos_of_ne_zero hy0
    have hx : valL x = valL qr.2 + valL qr.1 * valL y := by omega
    rw [hx, Nat.add_mul_div_right _ _ hy1, Nat.div_eq_of_lt hrem, Nat.zero_add]

namespace SignedInteger

/-- `SignedInteger::operator/=` on success: the magnitude is the quotient of
the magnitudes, the sign the exclusive or of the signs (normalised on a zero
quotient). -/
theorem sDivAssign_ok {a b q : SignedInteger}
    (hwa : LimbsWF a.absolute) (hca : Canonical a.absolute)
    (hwb : LimbsWF b.absolute) (hcb : Canonical b.absolute)
    (hb0 : valL b.absolute ≠ 0)
    (h : SignedInteger.divAssign a b = .ok q) :
    valL q.absolute = valL a.absolute / valL b.absolute ∧ LimbsWF q.absolute
      ∧ intVal q = (if a.sign ^^ b.sign then
          -((valL a.absolute / valL b.absolute : ℕ) : ℤ)
        else ((valL a.absolute / valL b.absolute : ℕ) : ℤ)) := by
  simp only [SignedInteger.divAssign] at h
  rw [if_pos (UnsignedInteger.toBool_of_val_ne hb0)] at h
  cases hd : UnsignedInteger.divAssign a.absolute b.absolute with
  | error e =>
    rw [hd, exceptBind_error] at h
    exact absurd h (by simp)
  | ok m =>
    rw [hd, exceptBind_ok, exceptPure] at h
    injection h with h'
    subst h'
    simp only
    obtain ⟨hmv, hmwf⟩ := divAssign_ok_val hwa hca hwb hcb hb0 hd
    refine ⟨hmv, hmwf, ?_⟩
    by_cases hz : valL m = 0
    · rw [intVal_mk, ← hmv, hz]
      simp
    · have htb := UnsignedInteger.toBool_of_val_ne hz
      rw [intVal_mk, htb, ← hmv]
      simp

/-- `SignedInteger::operator%=` on success: the remainder is the remainder
of the magnitudes carrying the dividend's sign. -/
theorem sModAssign_ok {a b r : SignedInteger}
    (hwa : LimbsWF a.absolute) (hca : Canonical a.absolute)
    (hwb : LimbsWF b.absolute) (hcb : Canonical b.absolute)
    (hb0 : valL b.absolute ≠ 0)
    (h : SignedInteger.modAssign a b = .ok r) :
    intVal r = (if a.sign then -((valL a.absolute % valL b.absolute : ℕ) : ℤ)
      else ((valL a.absolute % valL b.absolute : ℕ) : ℤ)) := by
  simp only [SignedInteger.modAssign] at h
  rw [if_pos (UnsignedInteger.toBool_of_val_ne hb0)] at h
  cases hd : SignedInteger.divAssign a b with
  | error e =>
    rw [hd, exceptBind_error] at h
    exact absurd h (by simp)
  | ok q =>
    rw [hd, exceptBind_ok] at h
    obtain ⟨hqv, hqwf, hqi⟩ := sDivAssign_ok hwa hca hwb hcb hb0 hd
    cases hm : SignedInteger.mulAssign q b with
    | error e =>
      rw [hm, exceptBind_error] at h
      exact absurd h (by simp)
    | ok p =>
      rw [hm, exceptBind_ok] at h
      obtain ⟨hpi, hpwf, hpc, _⟩ := sMulAssign_ok hqwf hwb hm
      obtain ⟨hri, _, _, _⟩ := sSubAssign_ok hwa hca hpwf hpc h
      rw [hri, hpi, hqi]
      have hZ := Int.ediv_add_emod ((valL a.absolute : ℤ)) ((valL b.absolute : ℤ))
      rw [intVal, intVal]
      cases hsa : a.sign <;> cases hsb : b.sign <;> simp [hsa, hsb] <;> push_cast <;>
        first
          | linear_combination hZ
          | linear_combination -hZ

/-- `SignedInteger::operator==` decides equality of the represented
integers. -/
theorem sbeq_correct {a b : SignedInteger} (hwa : WFS a) (hwb : WFS b) :
    SignedInteger.beq a b = true ↔ intVal a = intVal b := by
  obtain ⟨hwa1, hwa2, hwa3⟩ := hwa
  obtain ⟨hwb1, hwb2, hwb3⟩ := hwb
  rw [SignedInteger.beq]
  simp only [Bool.and_eq_true, beq_iff_eq, UnsignedInteger.beq_correct]
  constructor
  · rintro ⟨h1, h2⟩
    rw [intVal, intVal, h1, h2]
  · intro h
    cases hsa : a.sign <;> cases hsb : b.sign <;>
      rw [intVal, intVal, hsa, hsb] at h <;> simp at h
    · exact ⟨rfl, canonical_val_inj hwa1 hwa2 hwb1 hwb2 (by omega)⟩
    · exfalso
      have hb0n : valL b.absolute = 0 := by omega
      rw [hwb3 hb0n] at hsb
      exact Bool.noConfusion hsb
    · exfalso
      have ha0n : valL a.absolute = 0 := by omega
      rw [hwa3 ha0n] at hsa
      exact Bool.noConfusion hsa
    · exact ⟨rfl, canonical_val_inj hwa1 hwa2 hwb1 hwb2 (by omega)⟩

/-- `SignedInteger::operator<` decides the order of the represented
integers. -/
theorem slt_correct {a b : SignedInteger} (hwa : WFS a) (hwb : WFS b) :
    SignedInteger.slt a b = true ↔ intVal a < intVal b := by
  obtain ⟨hwa1, hwa2, hwa3⟩ := hwa
  obtain ⟨hwb1, hwb2, hwb3⟩ := hwb
  rw [SignedInteger.slt, intVal, intVal]
  cases hsa : a.sign <;> cases hsb : b.sign
  · simp
    rw [UnsignedInteger.lt_correct hwa1 hwa2 hwb1 hwb2]
  · simp
    omega
  · simp
    have hva : valL a.absolute ≠ 0 := by
      intro h0
      rw [hwa3 h0] at hsa
      exact Bool.noConfusion hsa
    omega
  · simp
    rw [UnsignedInteger.gt_correct hwa1 hwa2 hwb1 hwb2]

end SignedInteger


/-! ### Decimal strings: digit characters and canonical representations -/


/-- Decimal value of a character string (most significant digit first). -/
def sval (s : List Char) : ℕ := Nat.ofDigits 10 (s.reverse.map digitVal)

theorem sval_nil : sval [] = 0 := rfl

theorem sval_append (u v : List Char) :
    sval (u ++ v) = sval v + 10 ^ v.length * sval u := by
  rw [sval, List.reverse_append, List.map_append, Nat.ofDigits_append]
  simp [sval]

theorem isDigit_toNat {c : Char} (h : c.isDigit = true) :
    48 ≤ c.toNat ∧ c.toNat ≤ 57 := by
  simp [Char.isDigit] at h
  obtain ⟨h1, h2⟩ := h
  exact ⟨h1, h2⟩

theorem digitVal_lt_10 {c : Char} (h : c.isDigit = true) : digitVal c < 10 := by
  obtain ⟨h1, h2⟩ := isDigit_toNat h
  rw [digitVal]
  omega

theorem char_ofNat_digitVal {c : Char} (h : c.isDigit = true) :
    Char.ofNat (48 + digitVal c) = c := by
  obtain ⟨h1, h2⟩ := isDigit_toNat h
  have he : 48 + digitVal c = c.toNat := by
    rw [digitVal]
    omega
  rw [he]
  exact Char.ofNat_toNat c

theorem digit_char_isDigit {k : ℕ} (h : k < 10) :
    (Char.ofNat (48 + k)).isDigit = true := by
  interval_cases k <;> decide

theorem digitVal_digit_char {k : ℕ} (h : k < 10) :
    digitVal (Char.ofNat (48 + k)) = k := by
  interval_cases k <;> decide

theorem digit_char_ne_zero {k : ℕ} (h : k < 10) (hk : k ≠ 0) :
    Char.ofNat (48 + k) ≠ '0' := by
  interval_cases k <;>
    first
      | exact absurd rfl hk
      | decide

theorem nonzero_digit_val {c : Char} (h : c.isDigit = true) (h0 : c ≠ '0') :
    digitVal c ≠ 0 := by
  intro hz
  apply h0
  have hcc := char_ofNat_digitVal h
  rw [hz] at hcc
  rw [← hcc]

theorem ofDigits_zeros {L : List ℕ} (h : ∀ d ∈ L, d = 0) : Nat.ofDigits 10 L = 0 := by
  induction L with
  | nil => rfl
  | cons x xs ih =>
    rw [Nat.ofDigits_cons, h x (by simp), ih fun d hd => h d (by simp [hd])]

namespace UnsignedInteger

theorem natChars_ne_nil (n : ℕ) : natChars n ≠ [] := by
  rw [natChars]
  split_ifs with h
  · simp
  · simp [Nat.digits_ne_nil_iff_ne_zero.mpr h]

theorem natChars_digits (n : ℕ) : ∀ c ∈ natChars n, c.isDigit = true := by
  rw [natChars]
  split_ifs with h
  · intro c hc
    simp at hc
    rw [hc]
    decide
  · intro c hc
    rw [List.mem_map] at hc
    obtain ⟨d, hd, hcd⟩ := hc
    rw [← hcd]
    exact digit_char_isDigit
      (Nat.digits_lt_base (by norm_num) (List.mem_reverse.mp hd))

theorem sval_natChars (n : ℕ) : sval (natChars n) = n := by
  rw [natChars]
  split_ifs with h
  · rw [h]
    rfl
  · rw [sval, List.reverse_map, List.reverse_reverse, List.map_map]
    have hmap : (Nat.digits 10 n).map (digitVal ∘ fun d => Char.ofNat (48 + d))
        = (Nat.digits 10 n).map id := by
      apply List.map_congr_left
      intro d hd
      exact digitVal_digit_char (Nat.digits_lt_base (by norm_num) hd)
    rw [hmap, List.map_id, Nat.ofDigits_digits]

theorem natChars_head_ne {n : ℕ} (hn : n ≠ 0) :
    ∀ c, (natChars n).head? = some c → c ≠ '0' := by
  intro c hc
  rw [natChars, if_neg hn] at hc
  rw [List.head?_map, List.head?_reverse] at hc
  cases hgl : (Nat.digits 10 n).getLast? with
  | none => rw [hgl] at hc; simp at hc
  | some d =>
    rw [hgl] at hc
    simp at hc
    have hdne : Nat.digits 10 n ≠ [] := Nat.digits_ne_nil_iff_ne_zero.mpr hn
    have hlast : (Nat.digits 10 n).getLast hdne = d := by
      rw [List.getLast?_eq_getLast _ hdne] at hgl
      injection hgl
    have hd0 : d ≠ 0 := by
      rw [← hlast]
      exact Nat.getLast_digit_ne_zero 10 hn
    have hd10 : d < 10 :=
      Nat.digits_lt_base (by norm_num) (by rw [← hlast]; exact List.getLast_mem hdne)
    rw [← hc]
    exact digit_char_ne_zero hd10 hd0

/-- A non-empty digit string without a leading zero is the canonical decimal
representation of its value. -/
theorem string_canon {u : List Char} (hd : ∀ c ∈ u, c.isDigit = true) (hne : u ≠ [])
    (hhead : ∀ c, u.head? = some c → c ≠ '0') : u = natChars (sval u) := by
  set L := u.reverse.map digitVal with hL
  have hL10 : ∀ d ∈ L, d < 10 := by
    intro d hdm
    rw [hL, List.mem_map] at hdm
    obtain ⟨c, hcm, hcd⟩ := hdm
    rw [← hcd]
    exact digitVal_lt_10 (hd c (List.mem_reverse.mp hcm))
  have hLne : L ≠ [] := by
    rw [hL]
    simp [hne]
  have hlast : ∀ (h : L ≠ []), L.getLast h ≠ 0 := by
    intro h
    have hgl : L.getLast? = some (L.getLast h) := List.getLast?_eq_getLast L h
    have hgl2 : L.getLast? = (u.head?).map digitVal := by
      rw [hL, List.getLast?_map, List.getLast?_reverse]
    cases hh : u.head? with
    | none =>
      rw [hh] at hgl2
      rw [hgl2] at hgl
      simp at hgl
    | some c =>
      rw [hh] at hgl2
      rw [hgl2] at hgl
      have heq : digitVal c = L.getLast h := by
        injection hgl
      rw [← heq]
      exact nonzero_digit_val (hd c (List.mem_of_mem_head? hh)) (hhead c hh)
  have hdig : Nat.digits 10 (Nat.ofDigits 10 L) = L :=
    Nat.digits_ofDigits 10 (by norm_num) L hL10 hlast
  have hsv : sval u = Nat.ofDigits 10 L := by rw [sval, hL]
  have hs0 : sval u ≠ 0 := by
    intro h0
    rw [hsv] at h0
    rw [h0] at hdig
    simp at hdig
    exact hLne hdig
  rw [natChars, if_neg hs0, hsv, hdig, hL, List.reverse_map, List.reverse_reverse,
    List.map_map]
  have hmap : u.map ((fun d => Char.ofNat (48 + d)) ∘ digitVal) = u.map id := by
    apply List.map_congr_left
    intro c hcm
    exact char_ofNat_digitVal (hd c hcm)
  rw [hmap, List.map_id]

theorem sval_all_zero {u : List Char} (h : ∀ c ∈ u, c = '0') : sval u = 0 := by
  rw [sval]
  apply ofDigits_zeros
  intro d hdm
  rw [List.mem_map] at hdm
  obtain ⟨c, hcm, hcd⟩ := hdm
  rw [← hcd, h c (List.mem_reverse.mp hcm)]
  rfl

end UnsignedInteger


/-! ### Correctness of the string constructor -/


namespace UnsignedInteger

theorem topVal_eq_sval : ∀ (u : List Char), u ≠ [] → u.length < 8 → topVal u = sval u := by
  intro u hne hlen
  rcases u with _ | ⟨a, _ | ⟨b, _ | ⟨c, _ | ⟨d, _ | ⟨e, _ | ⟨f, _ | ⟨g, _ | ⟨h, t⟩⟩⟩⟩⟩⟩⟩⟩
  · exact absurd rfl hne
  · simp only [topVal, sval, List.reverse_cons, List.reverse_nil, List.nil_append,
      List.map_cons, List.map_nil, Nat.ofDigits_cons, Nat.ofDigits_nil]
    omega
  · simp only [topVal, inputPair, sval, List.reverse_cons, List.reverse_nil,
      List.nil_append, List.cons_append, List.map_cons, List.map_nil,
      Nat.ofDigits_cons, Nat.ofDigits_nil]
    omega
  · simp only [topVal, inputPair, sval, List.reverse_cons, List.reverse_nil,
      List.nil_append, List.cons_append, List.map_cons, List.map_nil,
      Nat.ofDigits_cons, Nat.ofDigits_nil]
    omega
  · simp only [topVal, inputPair, sval, List.reverse_cons, List.reverse_nil,
      List.nil_append, List.cons_append, List.map_cons, List.map_nil,
      Nat.ofDigits_cons, Nat.ofDigits_nil]
    omega
  · simp only [topVal, inputPair, sval, List.reverse_cons, List.reverse_nil,
      List.nil_append, List.cons_append, List.map_cons, List.map_nil,
      Nat.ofDigits_cons, Nat.ofDigits_nil]
    omega
  · simp only [topVal, inputPair, sval, List.reverse_cons, List.reverse_nil,
      List.nil_append, List.cons_append, List.map_cons, List.map_nil,
      Nat.ofDigits_cons, Nat.ofDigits_nil]
    omega
  · simp only [topVal, inputPair, sval, List.reverse_cons, List.reverse_nil,
      List.nil_append, List.cons_append, List.map_cons, List.map_nil,
      Nat.ofDigits_cons, Nat.ofDigits_nil]
    omega
  · exfalso
    simp only [List.length_cons] at hlen
    omega

theorem topVal_lt : ∀ (u : List Char), (∀ c ∈ u, c.isDigit = true) → u.length < 8 →
    topVal u < Base := by
  have hB : Base = 100000000 := rfl
  intro u hd hlen
  rcases u with _ | ⟨a, _ | ⟨b, _ | ⟨c, _ | ⟨d, _ | ⟨e, _ | ⟨f, _ | ⟨g, _ | ⟨h, t⟩⟩⟩⟩⟩⟩⟩⟩
  · rw [hB]; simp [topVal]
  · have ha := digitVal_lt_10 (hd a (by simp))
    simp only [topVal]
    omega
  · have ha := digitVal_lt_10 (hd a (by simp))
    have hb := digitVal_lt_10 (hd b (by simp))
    simp only [topVal, inputPair]
    omega
  · have ha := digitVal_lt_10 (hd a (by simp))
    have hb := digitVal_lt_10 (hd b (by simp))
    have hc := digitVal_lt_10 (hd c (by simp))
    simp only [topVal, inputPair]
    omega
  · have ha := digitVal_lt_10 (hd a (by simp))
    have hb := digitVal_lt_10 (hd b (by simp))
    have hc := digitVal_lt_10 (hd c (by simp))
    have hd4 := digitVal_lt_10 (hd d (by simp))
    simp only [topVal, inputPair]
    omega
  · have ha := digitVal_lt_10 (hd a (by simp))
    have hb := digitVal_lt_10 (hd b (by simp))
    have hc := digitVal_lt_10 (hd c (by simp))
    have hd4 := digitVal_lt_10 (hd d (by simp))
    have he := digitVal_lt_10 (hd e (by simp))
    simp only [topVal, inputPair]
    omega
  · have ha := digitVal_lt_10 (hd a (by simp))
    have hb := digitVal_lt_10 (hd b (by simp))
    have hc := digitVal_lt_10 (hd c (by simp))
    have hd4 := digitVal_lt_10 (hd d (by simp))
    have he := digitVal_lt_10 (hd e (by simp))
    have hf := digitVal_lt_10 (hd f (by simp))
    simp only [topVal, inputPair]
    omega
  · have ha := digitVal_lt_10 (hd a (by simp))
    have hb := digitVal_lt_10 (hd b (by simp))
    have hc := digitVal_lt_10 (hd c (by simp))
    have hd4 := digitVal_lt_10 (hd d (by simp))
    have he := digitVal_lt_10 (hd e (by simp))
    have hf := digitVal_lt_10 (hd f (by simp))
    have hg := digitVal_lt_10 (hd g (by simp))
    simp only [topVal, inputPair]
    omega
  · exfalso
    simp only [List.length_cons] at hlen
    omega

theorem chunkVal8_eq_sval (c0 c1 c2 c3 c4 c5 c6 c7 : Char) :
    chunkVal8 [c0, c1, c2, c3, c4, c5, c6, c7]
      = sval [c0, c1, c2, c3, c4, c5, c6, c7] := by
  simp only [chunkVal8, inputPair, sval, List.reverse_cons, List.reverse_nil,
    List.nil_append, List.cons_append, List.map_cons, List.map_nil,
    Nat.ofDigits_cons, Nat.ofDigits_nil]
  omega

theorem chunkVal8_lt {c0 c1 c2 c3 c4 c5 c6 c7 : Char}
    (h0 : c0.isDigit = true) (h1 : c1.isDigit = true) (h2 : c2.isDigit = true)
    (h3 : c3.isDigit = true) (h4 : c4.isDigit = true) (h5 : c5.isDigit = true)
    (h6 : c6.isDigit = true) (h7 : c7.isDigit = true) :
    chunkVal8 [c0, c1, c2, c3, c4, c5, c6, c7] < Base := by
  have hB : Base = 100000000 := rfl
  have g0 := digitVal_lt_10 h0
  have g1 := digitVal_lt_10 h1
  have g2 := digitVal_lt_10 h2
  have g3 := digitVal_lt_10 h3
  have g4 := digitVal_lt_10 h4
  have g5 := digitVal_lt_10 h5
  have g6 := digitVal_lt_10 h6
  have g7 := digitVal_lt_10 h7
  simp only [chunkVal8, inputPair]
  omega

theorem bodyVals_spec : ∀ (k : ℕ) (l : List Char), l.length = 8 * k →
    valL ((bodyVals l).reverse) = sval l ∧ (bodyVals l).length = k
      ∧ ((∀ c ∈ l, c.isDigit = true) → ∀ x ∈ bodyVals l, x < Base) := by
  intro k
  induction k with
  | zero =>
    intro l hlen
    have hl : l = [] := List.length_eq_zero.mp (by omega)
    subst hl
    refine ⟨rfl, rfl, ?_⟩
    intro _ x hx
    simp [bodyVals] at hx
  | succ k ih =>
    intro l hlen
    rcases l with _ | ⟨c0, _ | ⟨c1, _ | ⟨c2, _ | ⟨c3, _ | ⟨c4, _ | ⟨c5, _ | ⟨c6, _ | ⟨c7, rest⟩⟩⟩⟩⟩⟩⟩⟩ <;>
      simp only [List.length_cons, List.length_nil] at hlen
    · omega
    · omega
    · omega
    · omega
    · omega
    · omega
    · omega
    · omega
    · have hrl : rest.length = 8 * k := by omega
      obtain ⟨ihv, ihl, ihd⟩ := ih rest hrl
      have hbv : bodyVals (c0 :: c1 :: c2 :: c3 :: c4 :: c5 :: c6 :: c7 :: rest)
          = chunkVal8 [c0, c1, c2, c3, c4, c5, c6, c7] :: bodyVals rest := rfl
      have hsplit : c0 :: c1 :: c2 :: c3 :: c4 :: c5 :: c6 :: c7 :: rest
          = [c0, c1, c2, c3, c4, c5, c6, c7] ++ rest := rfl
      refine ⟨?_, ?_, ?_⟩
      · rw [hbv, List.reverse_cons, valL_append, ihv, List.length_reverse, ihl,
          hsplit, sval_append, hrl, chunkVal8_eq_sval]
        have hpe : (10:ℕ) ^ (8 * k) = Base ^ k := by
          have hB : Base = 10 ^ 8 := by norm_num [Base]
          rw [hB, ← pow_mul]
        rw [hpe, valL_cons, valL_nil]
        ring
      · rw [hbv]
        simp [ihl]
      · intro hdig x hx
        rw [hbv] at hx
        rcases List.mem_cons.mp hx with h1 | h1
        · rw [h1]
          exact chunkVal8_lt (hdig c0 (by simp)) (hdig c1 (by simp)) (hdig c2 (by simp))
            (hdig c3 (by simp)) (hdig c4 (by simp)) (hdig c5 (by simp))
            (hdig c6 (by simp)) (hdig c7 (by simp))
        · exact ihd (fun c hc => hdig c (by simp [hc])) x h1

theorem construct_spec {s : List Char} (hne : s ≠ []) (hd : ∀ c ∈ s, c.isDigit = true) :
    valL (construct s) = sval s ∧ LimbsWF (construct s) ∧ Canonical (construct s) := by
  have hslen : 1 ≤ s.length := List.length_pos.mpr hne
  have hdroplen : (s.drop (s.length % 8)).length = 8 * (s.length / 8) := by
    rw [List.length_drop]
    omega
  obtain ⟨hbv, hbl, hbd⟩ := bodyVals_spec (s.length / 8) (s.drop (s.length % 8)) hdroplen
  have hddig : ∀ c ∈ s.drop (s.length % 8), c.isDigit = true :=
    fun c hc => hd c (List.drop_subset _ s hc)
  have htake : s.take (s.length % 8) ++ s.drop (s.length % 8) = s :=
    List.take_append_drop _ s
  simp only [construct]
  by_cases hr : s.length % 8 = 0
  · rw [if_pos hr]
    rw [hr] at hbv hbl hbd ⊢
    rw [List.drop_zero] at hbv hbl hbd
    rw [List.nil_append, List.drop_zero]
    have hlp : 1 ≤ s.length / 8 := by omega
    refine ⟨?_, ?_, trim_canonical _⟩
    · rw [valL_trim]
      exact hbv
    · apply trim_wf
      refine ⟨?_, ?_⟩
      · intro h0
        have hlen0 := congrArg List.length h0
        rw [List.length_reverse, hbl] at hlen0
        simp at hlen0
        omega
      · intro x hx
        exact hbd hd x (List.mem_reverse.mp hx)
  · rw [if_neg hr]
    have htne : s.take (s.length % 8) ≠ [] := by
      intro h0
      have hlen0 := congrArg List.length h0
      rw [List.length_take, Nat.min_eq_left (Nat.mod_le s.length 8)] at hlen0
      simp at hlen0
      exact hr hlen0
    have htlen : (s.take (s.length % 8)).length < 8 := by
      rw [List.length_take]
      have := Nat.mod_lt s.length (show 0 < 8 by norm_num)
      omega
    have htdig : ∀ c ∈ s.take (s.length % 8), c.isDigit = true :=
      fun c hc => hd c (List.take_subset _ s hc)
    refine ⟨?_, ?_, trim_canonical _⟩
    · rw [valL_trim, List.reverse_append, List.reverse_cons, List.reverse_nil,
        List.nil_append, valL_append, hbv, List.length_reverse, hbl, valL_cons, valL_nil]
      calc sval (s.drop (s.length % 8))
            + Base ^ (s.length / 8) * (topVal (s.take (s.length % 8)) + Base * 0)
          = sval (s.drop (s.length % 8))
            + 10 ^ (8 * (s.length / 8)) * sval (s.take (s.length % 8)) := by
            rw [topVal_eq_sval _ htne htlen]
            have hpe : (10:ℕ) ^ (8 * (s.length / 8)) = Base ^ (s.length / 8) := by
              have hB : Base = 10 ^ 8 := by norm_num [Base]
              rw [hB, ← pow_mul]
            rw [hpe]
            ring
        _ = sval s := by
            conv_rhs => rw [← htake]
            rw [sval_append, hdroplen]
    · apply trim_wf
      refine ⟨by simp, ?_⟩
      intro x hx
      rw [List.mem_reverse] at hx
      rcases List.mem_append.mp hx with h1 | h1
      · simp at h1
        rw [h1]
        exact topVal_lt _ htdig htlen
      · exact hbd hddig x h1

end UnsignedInteger


/-! ### Correctness of the decimal printer -/


namespace UnsignedInteger

theorem foldl_out_append :
    ∀ (L : List ℕ) (a : List Char),
      L.foldl (fun acc limb => acc ++ pad4 (limb / 10000) ++ pad4 (limb % 10000)) a
        = a ++ L.foldl (fun acc limb => acc ++ pad4 (limb / 10000) ++ pad4 (limb % 10000)) [] := by
  intro L
  induction L with
  | nil =>
    intro a
    simp
  | cons x L ih =>
    intro a
    rw [List.foldl_cons, List.foldl_cons, ih (a ++ pad4 (x / 10000) ++ pad4 (x % 10000)),
      ih ([] ++ pad4 (x / 10000) ++ pad4 (x % 10000))]
    simp

/-- Appending one more base-`10^8` limb below a non-zero value appends its
eight zero-padded decimal digits. -/
theorem natChars_pad8 {t x : ℕ} (ht : t ≠ 0) (hx : x < Base) :
    natChars (t * Base + x) = natChars t ++ pad4 (x / 10000) ++ pad4 (x % 10000) := by
  have hB : Base = 100000000 := rfl
  have hof : Nat.ofDigits 10 [x % 10, x / 10 % 10, x / 100 % 10, x / 1000 % 10,
      x / 10000 % 10, x / 100000 % 10, x / 1000000 % 10, x / 10000000 % 10] = x := by
    simp only [Nat.ofDigits_cons, Nat.ofDigits_nil]
    rw [hB] at hx
    omega
  have htne : Nat.digits 10 t ≠ [] := Nat.digits_ne_nil_iff_ne_zero.mpr ht
  have hdig : Nat.digits 10 (t * Base + x)
      = [x % 10, x / 10 % 10, x / 100 % 10, x / 1000 % 10,
          x / 10000 % 10, x / 100000 % 10, x / 1000000 % 10, x / 10000000 % 10]
        ++ Nat.digits 10 t := by
    have h1 : Nat.ofDigits 10 ([x % 10, x / 10 % 10, x / 100 % 10, x / 1000 % 10,
        x / 10000 % 10, x / 100000 % 10, x / 1000000 % 10, x / 10000000 % 10]
          ++ Nat.digits 10 t) = t * Base + x := by
      rw [Nat.ofDigits_append, hof, Nat.ofDigits_digits]
      have hlen8 : ([x % 10, x / 10 % 10, x / 100 % 10, x / 1000 % 10, x / 10000 % 10,
          x / 100000 % 10, x / 1000000 % 10, x / 10000000 % 10] : List ℕ).length = 8 := rfl
      rw [hlen8, hB]
      have h10 : (10:ℕ) ^ 8 = 100000000 := by norm_num
      rw [h10]
      ring
    have hall : ∀ d ∈ [x % 10, x / 10 % 10, x / 100 % 10, x / 1000 % 10,
        x / 10000 % 10, x / 100000 % 10, x / 1000000 % 10, x / 10000000 % 10]
          ++ Nat.digits 10 t, d < 10 := by
      intro d hdm
      rcases List.mem_append.mp hdm with h2 | h2
      · simp at h2
        rcases h2 with h3 | h3 | h3 | h3 | h3 | h3 | h3 | h3 <;> rw [h3] <;> omega
      · exact Nat.digits_lt_base (by norm_num) h2
    have hlast : ∀ (h : ([x % 10, x / 10 % 10, x / 100 % 10, x / 1000 % 10,
        x / 10000 % 10, x / 100000 % 10, x / 1000000 % 10, x / 10000000 % 10]
          ++ Nat.digits 10 t) ≠ []),
        ([x % 10, x / 10 % 10, x / 100 % 10, x / 1000 % 10,
          x / 10000 % 10, x / 100000 % 10, x / 1000000 % 10, x / 10000000 % 10]
            ++ Nat.digits 10 t).getLast h ≠ 0 := by
      intro h
      rw [List.getLast_append_of_ne_nil htne]
      exact Nat.getLast_digit_ne_zero 10 ht
    calc Nat.digits 10 (t * Base + x)
        = Nat.digits 10 (Nat.ofDigits 10 ([x % 10, x / 10 % 10, x / 100 % 10,
            x / 1000 % 10, x / 10000 % 10, x / 100000 % 10, x / 1000000 % 10,
            x / 10000000 % 10] ++ Nat.digits 10 t)) := by rw [h1]
      _ = _ := Nat.digits_ofDigits 10 (by norm_num) _ hall hlast
  have hne0 : t * Base + x ≠ 0 := by
    have h1 := Nat.one_le_iff_ne_zero.mpr ht
    have h2 : Base ≤ t * Base := Nat.le_mul_of_pos_left Base h1
    rw [hB] at h2 ⊢
    omega
  rw [natChars, if_neg hne0, natChars, if_neg ht, hdig, List.reverse_append,
    List.map_append, List.append_assoc]
  congr 1
  have e1 : x / 10000 / 1000 % 10 = x / 10000000 % 10 := by omega
  have e2 : x / 10000 / 100 % 10 = x / 1000000 % 10 := by omega
  have e3 : x / 10000 / 10 % 10 = x / 100000 % 10 := by omega
  have e5 : x % 10000 / 1000 % 10 = x / 1000 % 10 := by omega
  have e6 : x % 10000 / 100 % 10 = x / 100 % 10 := by omega
  have e7 : x % 10000 / 10 % 10 = x / 10 % 10 := by omega
  have e8 : x % 10000 % 10 = x % 10 := by omega
  simp only [pad4, List.reverse_cons, List.reverse_nil, List.nil_append,
    List.cons_append, List.map_cons, List.map_nil, List.append_assoc]
  rw [e1, e2, e3, e5, e6, e7, e8]

/-- The limb-printing loop below a non-zero top value prints the decimal
representation of the combined value. -/
theorem out_loop :
    ∀ (rest : List ℕ) (t : ℕ), t ≠ 0 → (∀ x ∈ rest, x < Base) →
      natChars t ++ rest.foldl
          (fun acc limb => acc ++ pad4 (limb / 10000) ++ pad4 (limb % 10000)) []
        = natChars (t * Base ^ rest.length + valL rest.reverse) := by
  intro rest
  induction rest with
  | nil =>
    intro t ht _
    simp [valL_nil]
  | cons x rest ih =>
    intro t ht hdig
    have hx : x < Base := hdig x (by simp)
    have htB : t * Base + x ≠ 0 := by
      have h1 := Nat.one_le_iff_ne_zero.mpr ht
      have h2 : Base ≤ t * Base := Nat.le_mul_of_pos_left Base h1
      have hB : Base = 100000000 := rfl
      rw [hB] at h2 ⊢
      omega
    rw [List.foldl_cons, foldl_out_append, List.nil_append, ← List.append_assoc,
      ← List.append_assoc, ← natChars_pad8 ht hx,
      ih (t * Base + x) htB fun z hz => hdig z (by simp [hz])]
    congr 1
    rw [List.reverse_cons, valL_append, valL_cons, valL_nil, List.length_reverse,
      List.length_cons]
    ring

/-- `UnsignedInteger::operator std::string` prints the canonical decimal
representation of the value. -/
theorem toStringUI_eq_natChars {d : Limbs} (hwf : LimbsWF d) (hc : Canonical d) :
    toStringUI d = natChars (valL d) := by
  cases hrev : d.reverse with
  | nil =>
    exact absurd (by simpa using congrArg List.reverse hrev) hwf.1
  | cons top rest =>
    have hd : d = rest.reverse ++ [top] := by
      have h1 := congrArg List.reverse hrev
      rw [List.reverse_reverse] at h1
      rw [h1]
      simp
    rw [toStringUI, hrev]
    show natChars top ++ List.foldl
        (fun acc limb => acc ++ pad4 (limb / 10000) ++ pad4 (limb % 10000)) [] rest
      = natChars (valL d)
    cases hrest : rest with
    | nil =>
      have hd1 : d = [top] := by rw [hd, hrest]; rfl
      rw [hd1, valL_cons, valL_nil]
      simp only [List.foldl_nil, List.append_nil]
      congr 1
    | cons r0 rs =>
      have htop : top ≠ 0 := by
        have hlen : 2 ≤ d.length := by
          rw [hd, hrest]
          simp
        have hgl : d.getLast? = some top := by
          rw [hd]
          simp
        exact canonical_getLast_ne hc hlen top hgl
      have hdigs : ∀ x ∈ rest, x < Base := by
        intro x hx
        apply hwf.2
        rw [hd]
        rw [List.mem_append]
        left
        exact List.mem_reverse.mpr hx
      rw [← hrest, out_loop rest top htop hdigs]
      congr 1
      rw [hd, valL_append, valL_cons, valL_nil, List.length_reverse]
      ring

end UnsignedInteger

/-! ### The claims -/


instance (d : Limbs) : Decidable (Canonical d) :=
  decidable_of_iff (trim d = d) Iff.rfl

instance (d : Limbs) : Decidable (LimbsWF d) :=
  decidable_of_iff (d ≠ [] ∧ ∀ x ∈ d, x < Base) Iff.rfl

instance (a : SignedInteger) : Decidable (SignedInteger.WFS a) :=
  decidable_of_iff (LimbsWF a.absolute ∧ Canonical a.absolute
    ∧ (valL a.absolute = 0 → a.sign = false)) Iff.rfl

/-- C4: the canonical-form invariant is broken by `operator--`: decrementing
the canonical value `Base` (limbs `[0, 1]`) leaves `[99999999, 0]`, whose top
limb is zero at length two. -/
theorem C4_decrement_not_canonical :
    UnsignedInteger.decLimbs [0, 1] = Except.ok [99999999, 0]
      ∧ ¬ Canonical [99999999, 0] := by
  constructor
  · simp [UnsignedInteger.decLimbs, UnsignedInteger.toBool, UnsignedInteger.decLoop,
      UnsignedInteger.decGo, u32sub, wordMod, Base]
  · decide

/-- C5: the sign zero-normalisation is broken by the floating-point
constructor: `SignedInteger(-0.5)` has zero magnitude `[0]` together with
`sign = true`. -/
theorem C5_negative_zero_sign_bug :
    SignedInteger.ofRat (-(1 : ℚ)/2) = Except.ok (SignedInteger.mk [0] true)
      ∧ valL ([0] : Limbs) = 0 ∧ (true : Bool) ≠ false := by
  refine ⟨?_, rfl, by decide⟩
  rw [SignedInteger.ofRat]
  have habs : |(-(1 : ℚ)/2)| = 1/2 := by
    rw [abs_of_neg (by norm_num)]
    norm_num
  rw [habs, UnsignedInteger.ofRat, if_neg (by norm_num)]
  have hnum : ((1 : ℚ)/2).num.natAbs + 1 = 2 := by norm_num
  rw [hnum]
  have hfl : UnsignedInteger.floatDigitLoop 2 ((1 : ℚ)/2) = [0] := by
    have h1 : ⌊((1 : ℚ)/2) / (Base : ℚ)⌋ = 0 := by
      rw [Int.floor_eq_zero_iff]
      constructor
      · positivity
      · rw [div_lt_one (by norm_num [Base])]
        norm_num [Base]
    simp only [UnsignedInteger.floatDigitLoop, h1]
    norm_num
  rw [hfl, exceptBind_ok, exceptPure]
  have hdec : decide ((-(1 : ℚ)/2) < 0) = true := decide_eq_true (by norm_num)
  rw [hdec]

/-- C6 (amended): the capacity check of `operator*=` is per operand, not on
the sum of the lengths: for operands at or above the schoolbook threshold,
multiplication is rejected with the capacity error exactly when a single
operand is longer than `TransformLimit`. -/
theorem C6_capacity_per_operand (a b : Limbs)
    (ha : BruteforceThreshold ≤ a.length) (hb : BruteforceThreshold ≤ b.length) :
    UnsignedInteger.mulAssign a b = .error Err.capacity
      ↔ TransformLimit < a.length ∨ TransformLimit < b.length := by
  rw [UnsignedInteger.mulAssign, if_neg (by omega)]
  constructor
  · intro h
    by_cases h1 : TransformLimit < a.length
    · exact Or.inl h1
    · rw [if_neg h1] at h
      by_cases h2 : TransformLimit < b.length
      · exact Or.inr h2
      · rw [if_neg h2] at h
        exact absurd h (by simp)
  · intro h
    rcases h with h1 | h1
    · rw [if_pos h1]
    · by_cases h2 : TransformLimit < a.length
      · rw [if_pos h2]
      · rw [if_neg h2, if_pos h1]

/-- Witness for C6 at two 64-limb operands. -/
theorem C6_capacity_per_operand_witness :
    UnsignedInteger.mulAssign (List.replicate 64 1) (List.replicate 64 1)
        = .error Err.capacity
      ↔ TransformLimit < (List.replicate 64 1).length
        ∨ TransformLimit < (List.replicate 64 1).length :=
  C6_capacity_per_operand (List.replicate 64 1) (List.replicate 64 1)
    (by simp [BruteforceThreshold]) (by simp [BruteforceThreshold])

/-- Counterexample to C6 as stated: two operands of 2097153 limbs each have
`n + m = 4194306 > TransformLimit`, yet `operator*=` accepts them, because
each single operand is within the limit. -/
theorem C6_sum_over_limit_accepted :
    TransformLimit
        < (List.replicate 2097153 1).length + (List.replicate 2097153 1).length
      ∧ ∃ p, UnsignedInteger.mulAssign (List.replicate 2097153 1)
          (List.replicate 2097153 1) = .ok p := by
  have hlen : (List.replicate 2097153 (1:ℕ)).length = 2097153 :=
    List.length_replicate 2097153 1
  constructor
  · rw [hlen]
    decide
  · refine ⟨UnsignedInteger.transformMultiply (List.replicate 2097153 1)
      (List.replicate 2097153 1), ?_⟩
    rw [UnsignedInteger.mulAssign, hlen]
    rw [if_neg (by decide), if_neg (by decide), if_neg (by decide)]

/-- C7: decimal round-trip.  Printing then parsing is the identity on
canonical magnitudes; parsing then printing a non-empty digit string strips
its insignificant leading zeros, printing a single `'0'` when the value is
zero. -/
theorem C7_decimal_round_trip :
    (∀ d : Limbs, LimbsWF d → Canonical d →
        UnsignedInteger.parseUI (UnsignedInteger.toStringUI d) = .ok d)
    ∧ (∀ s : List Char, s ≠ [] → (∀ c ∈ s, c.isDigit = true) →
        ∃ r, UnsignedInteger.parseUI s = .ok r
          ∧ UnsignedInteger.toStringUI r
              = (if s.dropWhile (fun c => c == '0') = [] then ['0']
                 else s.dropWhile (fun c => c == '0'))) := by
  constructor
  · intro d hwf hc
    rw [UnsignedInteger.toStringUI_eq_natChars hwf hc]
    rw [UnsignedInteger.parseUI,
      if_neg (by simp [UnsignedInteger.natChars_ne_nil (valL d)]),
      if_pos (by rw [List.all_eq_true]; exact UnsignedInteger.natChars_digits (valL d))]
    obtain ⟨hval, hwf2, hc2⟩ := UnsignedInteger.construct_spec
      (UnsignedInteger.natChars_ne_nil (valL d)) (UnsignedInteger.natChars_digits (valL d))
    rw [UnsignedInteger.sval_natChars] at hval
    exact congrArg Except.ok (canonical_val_inj hwf2 hc2 hwf hc hval)
  · intro s hne hd
    have hlen0 : ¬ s.length = 0 := by
      intro h0
      exact hne (List.length_eq_zero.mp h0)
    rw [UnsignedInteger.parseUI, if_neg hlen0,
      if_pos (by rw [List.all_eq_true]; exact hd)]
    refine ⟨UnsignedInteger.construct s, rfl, ?_⟩
    obtain ⟨hval, hwf2, hc2⟩ := UnsignedInteger.construct_spec hne hd
    rw [UnsignedInteger.toStringUI_eq_natChars hwf2 hc2, hval]
    have hzeros : ∀ c ∈ s.takeWhile (fun c => c == '0'), c = '0' := by
      intro c hc
      have := List.mem_takeWhile_imp hc
      simpa using this
    have htake := List.takeWhile_append_dropWhile (fun c => c == '0') s
    have hsplit : sval s = sval (s.dropWhile (fun c => c == '0')) := by
      conv_lhs => rw [← htake]
      rw [sval_append, UnsignedInteger.sval_all_zero hzeros]
      ring
    by_cases ht : s.dropWhile (fun c => c == '0') = []
    · rw [if_pos ht]
      rw [hsplit, ht, sval_nil]
      rfl
    · rw [if_neg ht]
      have hdigt : ∀ c ∈ s.dropWhile (fun c => c == '0'), c.isDigit = true := by
        intro c hc
        apply hd
        rw [← htake]
        exact List.mem_append_right _ hc
      have hheadt : ∀ c, (s.dropWhile (fun c => c == '0')).head? = some c → c ≠ '0' := by
        intro c hc
        rw [List.head?_eq_head ht] at hc
        injection hc with hh'
        have hnz := List.head_dropWhile_not (fun c => c == '0') s ht
        rw [hh'] at hnz
        simpa using hnz
      rw [hsplit]
      exact (UnsignedInteger.string_canon hdigt ht hheadt).symm

/-- C8: dividing or taking the remainder by a (canonical) zero divisor fails
with the divide-by-zero error; the embedding returns only the error, so the
dividend keeps its value (the C++ operators throw before any mutation). -/
theorem C8_zero_divisor_rejected (x y : Limbs)
    (hwy : LimbsWF y) (hcy : Canonical y) (hy : valL y = 0) :
    UnsignedInteger.divAssign x y = .error Err.divZero
      ∧ UnsignedInteger.modAssign x y = .error Err.divZero := by
  have hy0 : y = [0] := UnsignedInteger.canonical_val_zero hwy.1 hcy hy
  subst hy0
  constructor
  · rw [UnsignedInteger.divAssign]
    rfl
  · rw [UnsignedInteger.modAssign]
    rfl

/-- Witness for C8 at `x = [5]`, `y = [0]`. -/
theorem C8_zero_divisor_rejected_witness :
    UnsignedInteger.divAssign [5] [0] = .error Err.divZero
      ∧ UnsignedInteger.modAssign [5] [0] = .error Err.divZero :=
  C8_zero_divisor_rejected [5] [0] (by decide) (by decide) (by decide)

/-- C9 (amended): move construction always leaves the source equal to the
canonical zero `[0]`, and so does move assignment between distinct objects;
the claim fails only for self-move-assignment, which is a no-op. -/
theorem C9_move_resets_source (dst src : Limbs) :
    UnsignedInteger.moveConstruct src = (src, UnsignedInteger.defaultUI)
      ∧ UnsignedInteger.moveAssign dst src false = (src, UnsignedInteger.defaultUI) :=
  ⟨rfl, rfl⟩

/-- Counterexample to C9 as stated: move-assigning an object to itself
(`x = std::move(x)`) leaves its value untouched rather than zero. -/
theorem C9_self_move_assign_keeps_value :
    UnsignedInteger.moveAssign [5] [5] true = ([5], [5])
      ∧ ([5] : Limbs) ≠ UnsignedInteger.defaultUI := by
  constructor
  · rfl
  · decide

/-- C10: for representations satisfying the invariants, `operator<` decides
the order and `operator==` the equality of the represented integers. -/
theorem C10_signed_comparisons_correct (a b : SignedInteger)
    (hwa : SignedInteger.WFS a) (hwb : SignedInteger.WFS b) :
    (SignedInteger.slt a b = true
        ↔ SignedInteger.intVal a < SignedInteger.intVal b)
      ∧ (SignedInteger.beq a b = true
        ↔ SignedInteger.intVal a = SignedInteger.intVal b) :=
  ⟨SignedInteger.slt_correct hwa hwb, SignedInteger.sbeq_correct hwa hwb⟩

/-- Witness for C10 at `a = -3`, `b = 2`. -/
theorem C10_signed_comparisons_correct_witness :
    (SignedInteger.slt (SignedInteger.mk [3] true) (SignedInteger.mk [2] false) = true
        ↔ SignedInteger.intVal (SignedInteger.mk [3] true)
          < SignedInteger.intVal (SignedInteger.mk [2] false))
      ∧ (SignedInteger.beq (SignedInteger.mk [3] true) (SignedInteger.mk [2] false) = true
        ↔ SignedInteger.intVal (SignedInteger.mk [3] true)
          = SignedInteger.intVal (SignedInteger.mk [2] false)) :=
  C10_signed_comparisons_correct (SignedInteger.mk [3] true) (SignedInteger.mk [2] false)
    (by decide) (by decide)

end IntegerLib
